import Mathlib

/-!
# c-avltree-study: a heap-level embedding of `avltree.h` / `avltree.c`

The container of the C library is embedded as an explicit heap of
`struct AVLtree_sub` cells plus the four root pointers of `struct AVLtree`.
Every C function and function-like macro used by the public operations is
translated statement by statement into a function on that state.

Conventions of the embedding

* a C pointer to a node is `Option Nat`: `none` is `NULL`, `some a` is the
  address `a` of a heap cell;
* `calloc` hands out the fresh address `next` and never fails, `free`
  erases the cell, and dereferencing an address without a cell is a fault;
* every function returns `Option`: `none` is a fault or an exhausted loop
  budget (`fuel` bounds the iterations of the C `while` loops and the
  recursion depth of `avl_tTraverse`);
* a payload reference (`void *data`) is `Option Nat`, `none` being `NULL`;
* a stored key (`void *ID`) is `Option Key`: the heap copy that `avl_insert`
  makes of a string with `strcpy` is modelled by the key's value; for a
  numeric key the macro hands `memcpy` the value `id` itself as the source
  address, so that the copy reads outside every object: `avl_insert` of a
  numeric key is a fault, and no node ever holds a numeric key;
* the `free` of a node's key and payload has no effect on the cells and is
  not modelled; payload references are never dereferenced.
-/

namespace AVL

/-! ## Keys and categories -/

/-- The root selected by `_Generic` in `avl_getRootType`. -/
inductive Category where
  | int
  | uint
  | double
  | string
  | unsupported
  deriving DecidableEq, Repr

/-- A key as the macros receive it: a value of the signed family, of the
unsigned family, a string (its bytes, terminator excluded), or a value of a
type that `avl_getRootType` does not list.  Floating point keys have no
constructor: with an `id` of floating type the calls `strcmp(id, ...)` and
`memcpy(node->ID, id, ...)` inside the macros are rejected by the compiler,
so `avl_insert`, `avl_search` and `avl_remove` never run on one. -/
inductive Key where
  | int (v : Int)
  | uint (v : Nat)
  | str (s : List Nat)
  | other (v : Nat)
  deriving DecidableEq, Repr

/-- The association list of `_Generic` in `avl_getRootType`. -/
def Key.category : Key → Category
  | .int _ => .int
  | .uint _ => .uint
  | .str _ => .string
  | .other _ => .unsupported

/-- A string key is a C string: every byte is in `1 .. 255`. -/
def Key.valid : Key → Bool
  | .str s => s.all fun b => decide (0 < b ∧ b < 256)
  | _ => true

/-- The C library's `strcmp` on byte strings: the difference of the first
pair of differing bytes, read as `unsigned char`, the terminator being 0.
The C standard fixes only the sign of the result; the byte difference is the
value returned by the common implementations (glibc, musl). -/
def strcmp : List Nat → List Nat → Int
  | [], [] => 0
  | [], b :: _ => 0 - (b : Int)
  | a :: _, [] => (a : Int)
  | a :: as, b :: bs => if a = b then strcmp as bs else (a : Int) - (b : Int)

/-- Conversion of an `int` to `char` (8 bits, signed, wrapping: the `char` of
the x86 ABIs), as performed by the initialisation `char eval = strcmp(...)`
in `avl_compare`. -/
def toChar (r : Int) : Int := (r + 128) % 256 - 128

/-- The test `strcmp(id, (char*)node->ID)` of the string branch; the
branch is only meaningful when both keys are strings. -/
def Key.strcmp : Key → Key → Option Int
  | .str a, .str b => some (AVL.strcmp a b)
  | _, _ => none

/-- The test `id > *(typeof(id)*)node->ID` of the numeric branch. -/
def Key.gt : Key → Key → Option Bool
  | .int a, .int b => some (decide (a > b))
  | .uint a, .uint b => some (decide (a > b))
  | _, _ => none

/-- The test `id < *(typeof(id)*)node->ID` of the numeric branch. -/
def Key.lt : Key → Key → Option Bool
  | .int a, .int b => some (decide (a < b))
  | .uint a, .uint b => some (decide (a < b))
  | _, _ => none

/-- The test `id == *(typeof(id)*)node->ID` of the numeric branch. -/
def Key.eq : Key → Key → Option Bool
  | .int a, .int b => some (decide (a = b))
  | .uint a, .uint b => some (decide (a = b))
  | _, _ => none

/-! ## Nodes, heap, container -/

/-- The cell `struct AVLtree_sub`. -/
structure AVLtree_sub where
  ID : Option Key
  data : Option Nat
  isLeaf : Nat
  balance : Nat
  Lchild : Option Nat
  Rchild : Option Nat
  parent : Option Nat
  deriving DecidableEq, Repr

/-- The heap of node cells. -/
abbrev Heap := Nat → Option AVLtree_sub

/-- Store a whole cell. -/
def Heap.write (h : Heap) (a : Nat) (n : AVLtree_sub) : Heap :=
  fun x => if x = a then some n else h x

/-- The effect of `free(node)`. -/
def Heap.free (h : Heap) (a : Nat) : Heap :=
  fun x => if x = a then none else h x

/-- Assignment `a->Lchild = v`. -/
def Heap.setLchild (h : Heap) (a : Nat) (v : Option Nat) : Option Heap :=
  (h a).map fun n => h.write a { n with Lchild := v }

/-- Assignment `a->Rchild = v`. -/
def Heap.setRchild (h : Heap) (a : Nat) (v : Option Nat) : Option Heap :=
  (h a).map fun n => h.write a { n with Rchild := v }

/-- Assignment `a->parent = v`. -/
def Heap.setParent (h : Heap) (a : Nat) (v : Option Nat) : Option Heap :=
  (h a).map fun n => h.write a { n with parent := v }

/-- Assignment `a->isLeaf = v`. -/
def Heap.setIsLeaf (h : Heap) (a : Nat) (v : Nat) : Option Heap :=
  (h a).map fun n => h.write a { n with isLeaf := v }

/-- Assignments `a->ID = k; a->data = d` (in either order). -/
def Heap.setContent (h : Heap) (a : Nat) (k : Option Key) (d : Option Nat) : Option Heap :=
  (h a).map fun n => h.write a { n with ID := k, data := d }

/-- The container `struct AVLtree` together with the heap its nodes live in. -/
structure AVLtree where
  heap : Heap
  next : Nat
  int_root : Option Nat
  uint_root : Option Nat
  double_root : Option Nat
  string_root : Option Nat

/-- A cell as `calloc` returns it. -/
def calloc_sub : AVLtree_sub :=
  { ID := none, data := none, isLeaf := 0, balance := 0,
    Lchild := none, Rchild := none, parent := none }

/-- A root as `avl_createTree` configures it: a leaf that is its own parent. -/
def rootCell (a : Nat) : AVLtree_sub :=
  { calloc_sub with isLeaf := 1, parent := some a }

/-- The function `avl_createTree`: four roots at the addresses 1 to 4. -/
def avl_createTree : AVLtree :=
  { heap := fun x =>
      if x = 1 then some (rootCell 1)
      else if x = 2 then some (rootCell 2)
      else if x = 3 then some (rootCell 3)
      else if x = 4 then some (rootCell 4)
      else none
    next := 5
    int_root := some 1
    uint_root := some 2
    double_root := some 3
    string_root := some 4 }

/-- The macro `avl_getRootType`. -/
def avl_getRootType (sAVL : AVLtree) : Category → Option Nat
  | .int => sAVL.int_root
  | .uint => sAVL.uint_root
  | .double => sAVL.double_root
  | .string => sAVL.string_root
  | .unsupported => none

/-! ## Insertion -/

/-- The function `avl_checkChild`. -/
def avl_checkChild (s : AVLtree) (parent : Nat) (c_type : Char) : Option AVLtree :=
  (s.heap parent).map fun p =>
    if c_type = 'r' ∧ p.Rchild = none then
      { s with
        heap := (s.heap.write parent { p with Rchild := some s.next }).write s.next
                  { calloc_sub with isLeaf := 1, parent := some parent }
        next := s.next + 1 }
    else if c_type = 'l' ∧ p.Lchild = none then
      { s with
        heap := (s.heap.write parent { p with Lchild := some s.next }).write s.next
                  { calloc_sub with isLeaf := 1, parent := some parent }
        next := s.next + 1 }
    else s

/-- The test of `avl_forward` that sends the descent to the right:
`strcmp(id, (char*)node->ID) > 0` when `type == 'c'`, else
`id > *(typeof(id)*)node->ID`. -/
def forwardRight (id nid : Key) (type : Char) : Option Bool :=
  if type = 'c' then (Key.strcmp id nid).map fun r => decide (r > 0)
  else Key.gt id nid

/-- The macro `avl_forward`: returns the state and the new value of `node`. -/
def avl_forward (s : AVLtree) (node : Nat) (id : Key) (type : Char) :
    Option (AVLtree × Option Nat) :=
  (s.heap node).bind fun n =>
  n.ID.bind fun nid =>
  (forwardRight id nid type).bind fun right =>
    if right then
      (avl_checkChild s node 'r').bind fun s1 =>
      (s1.heap node).map fun n1 => (s1, n1.Rchild)
    else
      (avl_checkChild s node 'l').bind fun s1 =>
      (s1.heap node).map fun n1 => (s1, n1.Lchild)

/-- The loop `while(!node->isLeaf) avl_forward(node, id, type);`. -/
def avl_insert_loop : Nat → AVLtree → Option Nat → Key → Char → Option (AVLtree × Nat)
  | 0, _, _, _, _ => none
  | fuel + 1, s, node, id, type =>
    node.bind fun a =>
    (s.heap a).bind fun n =>
      if n.isLeaf = 0 then
        (avl_forward s a id type).bind fun r => avl_insert_loop fuel r.1 r.2 id type
      else some (s, a)

/-- The macro `avl_insert`.  When `type == 'c'` the key is copied with
`strcpy` and the node is filled.  Otherwise the macro runs
`memcpy(node->ID, id, sizeof(typeof(id)))`, whose source argument is the key
value itself and not its address: the copy reads at an address that holds no
object of the program, which is a fault. -/
def avl_insert (fuel : Nat) (root : AVLtree) (DATA : Option Nat) (id : Key) : Option AVLtree :=
  match avl_getRootType root id.category with
  | none => some root
  | some node =>
    let type : Char := if root.string_root = some node then 'c' else 'a'
    (avl_insert_loop fuel root (some node) id type).bind fun r =>
    (r.1.heap r.2).bind fun n =>
      if type = 'c' then
        some { r.1 with
          heap := r.1.heap.write r.2 { n with ID := some id, data := DATA, isLeaf := 0 } }
      else none

/-! ## Search -/

/-- The macro `avl_compare`: returns the new values of `node` and `DATA`. -/
def avl_compare (s : AVLtree) (node : Nat) (DATA : Option Nat) (id : Key) (type : Char) :
    Option (Option Nat × Option Nat) :=
  (s.heap node).bind fun n =>
    match n.ID with
    | none => some (none, DATA)
    | some nid =>
      if type = 'c' then
        (Key.strcmp id nid).map fun r =>
          let eval := toChar r
          if eval > 0 then (n.Rchild, DATA)
          else if eval < 0 then (n.Lchild, DATA)
          else (some node, n.data)
      else
        (Key.gt id nid).bind fun g =>
        (Key.lt id nid).bind fun l =>
        (Key.eq id nid).map fun e =>
          if g then (n.Rchild, DATA)
          else if l then (n.Lchild, DATA)
          else if e then (some node, n.data)
          else (some node, DATA)

/-- The loop `while(!DATA && node) avl_compare(node, DATA, id, type);`. -/
def avl_search_loop : Nat → AVLtree → Option Nat → Option Nat → Key → Char →
    Option (Option Nat × Option Nat)
  | 0, _, node, DATA, _, _ =>
    match DATA, node with
    | none, some _ => none
    | _, _ => some (node, DATA)
  | fuel + 1, s, node, DATA, id, type =>
    match DATA, node with
    | none, some a =>
      (avl_compare s a none id type).bind fun r => avl_search_loop fuel s r.1 r.2 id type
    | _, _ => some (node, DATA)

/-- The macro `avl_search`; the result is the final value of `DATA`. -/
def avl_search (fuel : Nat) (root : AVLtree) (id : Key) : Option (Option Nat) :=
  match avl_getRootType root id.category with
  | none => some none
  | some node =>
    let type : Char := if root.string_root = some node then 'c' else 'a'
    (avl_search_loop fuel root (some node) none id type).map fun r => r.2

/-! ## Traversal -/

/-- The output of a traversal: the arrays `*ID` and `*data` and the counter. -/
structure Out where
  ID : List (Option Key)
  data : List (Option Nat)
  c : Nat
  deriving DecidableEq, Repr

/-- The function `avl_tTraverse`.  The slot that `realloc` adds is modelled
as holding `NULL`. -/
def avl_tTraverse : Nat → AVLtree → Out → Option Nat → Option Out
  | 0, _, _, _ => none
  | fuel + 1, s, o, node =>
    match node with
    | none => some o
    | some a =>
      (s.heap a).bind fun n =>
        if n.ID = none ∧ n.data = none then some o
        else
          (if n.Lchild ≠ none then avl_tTraverse fuel s o n.Lchild else some o).bind fun o1 =>
          (if n.Rchild ≠ none then avl_tTraverse fuel s o1 n.Rchild else some o1).map fun o2 =>
            { ID := o2.ID.set o2.c n.ID ++ [none]
              data := o2.data.set o2.c n.data ++ [none]
              c := o2.c + 1 }

/-- The macro `avl_traverse`. -/
def avl_traverse (fuel : Nat) (root : AVLtree) (type : Category) : Option Out :=
  avl_tTraverse fuel root { ID := [none], data := [none], c := 0 } (avl_getRootType root type)

/-! ## Removal -/

/-- The loop `while(1){ if(i_node->Rchild) i_node = i_node->Rchild; else break; }`. -/
def biggest : Nat → Heap → Nat → Option Nat
  | 0, _, _ => none
  | fuel + 1, h, i_node =>
    (h i_node).bind fun i =>
      match i.Rchild with
      | some r => biggest fuel h r
      | none => some i_node

/-- The tail of `avl_removeNode` shared by the one-child branches: the
reassignment of the root pointer that equals `node`, then `free(node)`. -/
def reassignRoot (tree : AVLtree) (h : Heap) (node : Nat) (aux : Option Nat) : AVLtree :=
  let t : AVLtree := { tree with heap := h.free node }
  if tree.int_root = some node then { t with int_root := aux }
  else if tree.uint_root = some node then { t with uint_root := aux }
  else if tree.double_root = some node then { t with double_root := aux }
  else if tree.string_root = some node then { t with string_root := aux }
  else t

/-- The end of the two-children branch of `avl_removeNode`: the biggest left
child `i_node` is unlinked from its parent, its left child (if any) takes
its place, and `i_node` is freed. -/
def splice (h1 : Heap) (i_node : Nat) : Option Heap :=
  (h1 i_node).bind fun i =>
  i.parent.bind fun ip =>
  (h1 ip).bind fun p =>
  (if p.Lchild = some i_node then
    match i.Lchild with
    | some il => (h1.setParent il i.parent).bind fun h2 => h2.setLchild ip (some il)
    | none => h1.setLchild ip none
   else
    match i.Lchild with
    | some il => (h1.setParent il i.parent).bind fun h2 => h2.setRchild ip (some il)
    | none => h1.setRchild ip none : Option Heap).map fun h3 =>
  h3.free i_node

/-- The function `avl_removeNode`. -/
def avl_removeNode (fuel : Nat) (tree : AVLtree) (node : Nat) : Option AVLtree :=
  (tree.heap.setContent node none none).bind fun h0 =>
  (h0 node).bind fun n =>
    if n.Lchild ≠ none ∧ n.Rchild ≠ none then
      n.Lchild.bind fun l =>
      (biggest fuel h0 l).bind fun i_node =>
      (h0 i_node).bind fun i =>
      (h0.setContent node i.ID i.data).bind fun h1 =>
      (splice h1 i_node).map fun h3 => { tree with heap := h3 }
    else if n.Lchild = none ∧ n.Rchild = none then
      if n.parent = some node then
        (h0.setIsLeaf node 1).map fun h1 => { tree with heap := h1 }
      else
        n.parent.bind fun np =>
        (h0 np).bind fun p =>
        (if p.Lchild = some node then h0.setLchild np none
         else h0.setRchild np none : Option Heap).map fun h1 =>
        { tree with heap := h1.free node }
    else
      match n.Lchild with
      | some l =>
        (if n.parent = some node then (h0.setParent l (some l)).map fun h1 => (h1, some l)
         else (h0.setParent l n.parent).map fun h1 => (h1, (none : Option Nat))
          : Option (Heap × Option Nat)).bind fun r =>
        (r.1 node).bind fun n1 =>
        n1.parent.bind fun np =>
        (r.1 np).bind fun p =>
        (if p.Lchild = some node then r.1.setLchild np n1.Lchild
         else r.1.setRchild np n1.Lchild : Option Heap).map fun h2 =>
        reassignRoot tree h2 node r.2
      | none =>
        match n.Rchild with
        | some rc =>
          (if n.parent = some node then (h0.setParent rc (some rc)).map fun h1 => (h1, some rc)
           else (h0.setParent rc n.parent).map fun h1 => (h1, (none : Option Nat))
            : Option (Heap × Option Nat)).bind fun r =>
          (r.1 node).bind fun n1 =>
          n1.parent.bind fun np =>
          (r.1 np).bind fun p =>
          (if p.Lchild = some node then r.1.setLchild np n1.Rchild
           else r.1.setRchild np n1.Rchild : Option Heap).map fun h2 =>
          reassignRoot tree h2 node r.2
        | none => some (reassignRoot tree h0 node none)

/-- The macro `avl_remove`. -/
def avl_remove (fuel : Nat) (root : AVLtree) (id : Key) : Option AVLtree :=
  match avl_getRootType root id.category with
  | none => some root
  | some node =>
    let type : Char := if root.string_root = some node then 'c' else 'a'
    (avl_search_loop fuel root (some node) none id type).bind fun r =>
      match r.1 with
      | none => some root
      | some found => avl_removeNode fuel root found

/-! ## Runs of the public operations -/

/-- The containers a client can obtain: `avl_createTree`, then any number of
`avl_insert` (with a non-null payload) and `avl_remove` calls that return.
Keys are C strings or integers; a call of `avl_insert` with an integer key
does not return, so the keys that nodes hold are strings. -/
inductive Reachable : AVLtree → Prop
  | create : Reachable avl_createTree
  | insert {s s1 : AVLtree} (fuel : Nat) (k : Key) (p : Nat) :
      Reachable s → k.valid = true → avl_insert fuel s (some p) k = some s1 → Reachable s1
  | remove {s s1 : AVLtree} (fuel : Nat) (k : Key) :
      Reachable s → k.valid = true → avl_remove fuel s k = some s1 → Reachable s1

/-- The containers obtained from `avl_createTree` by insertions only. -/
inductive BuiltByInserts : AVLtree → Prop
  | create : BuiltByInserts avl_createTree
  | insert {s s1 : AVLtree} (fuel : Nat) (k : Key) (p : Nat) :
      BuiltByInserts s → k.valid = true → avl_insert fuel s (some p) k = some s1 →
      BuiltByInserts s1

/-- A run of `avl_insert` calls, one for each (key, payload) of the list. -/
def insertAll (fuel : Nat) : AVLtree → List (Key × Nat) → Option AVLtree
  | s, [] => some s
  | s, (k, p) :: rest => (avl_insert fuel s (some p) k).bind fun s1 => insertAll fuel s1 rest

/-- The (key, payload) pairs that a traversal wrote: the first `c` slots of
the two parallel arrays, position by position. -/
def Out.pairs (o : Out) : List (Option Key × Option Nat) :=
  (o.ID.take o.c).zip (o.data.take o.c)

/-- The keys that a traversal wrote. -/
def Out.keys (o : Out) : List (Option Key) := o.ID.take o.c

/-- The reference listing of a subtree, in the words of the specification:
the listing of the left subtree, then the listing of the right subtree, then
the node's own (key, payload) pair; an absent or unoccupied node (`isLeaf`
set) contributes nothing. -/
def postorder : Nat → Heap → Option Nat → Option (List (Option Key × Option Nat))
  | 0, _, _ => none
  | _ + 1, _, none => some []
  | fuel + 1, h, some a =>
    (h a).bind fun n =>
      if n.isLeaf ≠ 0 then some []
      else
        (postorder fuel h n.Lchild).bind fun ls =>
        (postorder fuel h n.Rchild).map fun rs => ls ++ rs ++ [(n.ID, n.data)]

/-! ## The tree that a subtree of the heap represents -/

/-- A binary tree of occupied nodes, each with its address, key and
(non-null) payload. -/
inductive Tree where
  | nil
  | node (a : Nat) (l : Tree) (k : Key) (d : Nat) (r : Tree)
  deriving DecidableEq, Repr

namespace Tree

/-- The pointer to a tree: `NULL` for the empty tree. -/
def ptr : Tree → Option Nat
  | nil => none
  | node a _ _ _ _ => some a

/-- The addresses of the nodes. -/
def addrs : Tree → List Nat
  | nil => []
  | node a l _ _ r => a :: (l.addrs ++ r.addrs)

/-- The number of nodes. -/
def size : Tree → Nat
  | nil => 0
  | node _ l _ _ r => l.size + r.size + 1

/-- The number of nodes on the longest descent. -/
def height : Tree → Nat
  | nil => 0
  | node _ l _ _ r => max l.height r.height + 1

/-- Left subtree, right subtree, then the node. -/
def post : Tree → List (Key × Nat)
  | nil => []
  | node _ l k d r => l.post ++ r.post ++ [(k, d)]

/-- The keys of the nodes. -/
def keys (t : Tree) : List Key := t.post.map Prod.fst

end Tree

/-- The cell that the heap holds for the root of a tree whose parent link
is `par`. -/
def cellOf (l : Tree) (k : Key) (d : Nat) (r : Tree) (par : Option Nat) : AVLtree_sub :=
  { ID := some k, data := some d, isLeaf := 0, balance := 0,
    Lchild := l.ptr, Rchild := r.ptr, parent := par }

/-- The heap holds the tree `t` below a node whose address is `par`. -/
def Rep (h : Heap) : Tree → Option Nat → Prop
  | .nil, _ => True
  | .node a l k d r, par =>
    h a = some (cellOf l k d r par) ∧ Rep h l (some a) ∧ Rep h r (some a)

/-- The heap holds the tree `t` as the subtree whose root pointer is `root`:
an empty tree is an unoccupied self-parented root cell. -/
def RepRoot (h : Heap) (root : Nat) (t : Tree) : Prop :=
  match t with
  | .nil => h root = some (rootCell root)
  | .node a _ _ _ _ => a = root ∧ Rep h t (some root)

/-- The value of `type` in the macros. -/
def typeOf (c : Category) : Char := if c = .string then 'c' else 'a'

/-- The descent of `avl_forward` for two keys of one category: right when
`id` is greater than the key of the node. -/
def Key.goesRight : Key → Key → Bool
  | .int a, .int b => decide (a > b)
  | .uint a, .uint b => decide (a > b)
  | .str a, .str b => decide (AVL.strcmp a b > 0)
  | _, _ => false

/-- The three outcomes of `avl_compare` at an occupied node. -/
inductive Dir where
  | right
  | left
  | found
  deriving DecidableEq, Repr

/-- The outcome of `avl_compare` for two keys of one category. -/
def Key.searchDir : Key → Key → Dir
  | .int a, .int b => if a > b then .right else if a < b then .left else .found
  | .uint a, .uint b => if a > b then .right else if a < b then .left else .found
  | .str a, .str b =>
    if toChar (AVL.strcmp a b) > 0 then .right
    else if toChar (AVL.strcmp a b) < 0 then .left else .found
  | _, _ => .found

namespace Tree

/-- The node where the descent of `avl_search` stops. -/
def find (id : Key) : Tree → Option (Nat × Key × Nat)
  | nil => none
  | node a l k d r =>
    match id.searchDir k with
    | .right => r.find id
    | .left => l.find id
    | .found => some (a, k, d)

/-- The tree after `avl_insert` has descended from an occupied node and
put the pair in a new node at the address `fresh`. -/
def ins (fresh : Nat) (id : Key) (d : Nat) : Tree → Tree
  | nil => node fresh nil id d nil
  | node a l k dd r =>
    if id.goesRight k then node a l k dd (r.ins fresh id d)
    else node a (l.ins fresh id d) k dd r

/-- The tree after `avl_insert` on the subtree with root cell `root`. -/
def insRoot (root fresh : Nat) (id : Key) (d : Nat) : Tree → Tree
  | nil => node root nil id d nil
  | t => t.ins fresh id d

/-- The biggest node: the end of the chain of right children. -/
def maxAddr : Tree → Option Nat
  | nil => none
  | node a _ _ _ nil => some a
  | node _ _ _ _ r => r.maxAddr

/-- The key and payload of the biggest node. -/
def maxKD : Tree → Option (Key × Nat)
  | nil => none
  | node _ _ k d nil => some (k, d)
  | node _ _ _ _ r => r.maxKD

/-- The tree without its biggest node, whose left subtree takes its place. -/
def delMax : Tree → Tree
  | nil => nil
  | node _ l _ _ nil => l
  | node a l k d r => node a l k d r.delMax

/-- The tree after `avl_removeNode` on its root. -/
def delRoot : Tree → Tree
  | nil => nil
  | node _ nil _ _ nil => nil
  | node _ nil _ _ r => r
  | node _ l _ _ nil => l
  | node a l k d r =>
    match l.maxKD with
    | some (k1, d1) => node a l.delMax k1 d1 r
    | none => node a l k d r

/-- The tree after `avl_removeNode` on the node at address `x`. -/
def del (x : Nat) : Tree → Tree
  | nil => nil
  | node a l k d r =>
    if x = a then (node a l k d r).delRoot
    else node a (l.del x) k d (r.del x)

/-- Every key of the left subtree of a node does not exceed the node's key,
and every key of the right subtree exceeds it, in the order by which
`avl_forward` descends. -/
def Ordered : Tree → Prop
  | nil => True
  | node _ l k _ r =>
    (∀ x ∈ l.keys, x.goesRight k = false) ∧ (∀ x ∈ r.keys, x.goesRight k = true) ∧
    l.Ordered ∧ r.Ordered

end Tree

/-- The key references of a tree in post-order. -/
def Tree.ids (t : Tree) : List (Option Key) := t.post.map fun p => some p.1

/-- The payload references of a tree in post-order. -/
def Tree.datas (t : Tree) : List (Option Nat) := t.post.map fun p => some p.2

/-- The output of a traversal that has written the keys `P` and the payloads `Q`. -/
def outOf (P : List (Option Key)) (Q : List (Option Nat)) : Out :=
  { ID := P ++ [none], data := Q ++ [none], c := P.length }

/-- The slot of the parent cell `qc` that points to the tree `l`. -/
def SlotOf (qc : AVLtree_sub) (l : Tree) (isLeft : Bool) : Prop :=
  if isLeft then qc.Lchild = l.ptr
  else qc.Rchild = l.ptr ∧ ∀ x ∈ l.addrs, qc.Lchild ≠ some x

/-- The parent cell after its slot has been redirected. -/
def setSlot (qc : AVLtree_sub) (v : Option Nat) (isLeft : Bool) : AVLtree_sub :=
  if isLeft then { qc with Lchild := v } else { qc with Rchild := v }

/-- Every byte of the string is in `1 .. 255`. -/
def validStr (s : List Nat) : Prop := ∀ b ∈ s, 0 < b ∧ b < 256

/-- A well-formed key of the category `c`. -/
def KeyOK (c : Category) (k : Key) : Prop := k.category = c ∧ k.valid = true

/-- All keys of the tree are well-formed keys of the category `c`. -/
def AllOK (c : Category) (t : Tree) : Prop := ∀ k ∈ t.keys, KeyOK c k

/-! ## The invariant of reachable containers -/

/-- The addresses that belong to a subtree: its root cell and its nodes. -/
def foot (root : Nat) (t : Tree) : List Nat := root :: t.addrs

/-- What holds of the subtree of category `c`, whose root pointer is `root`
and which represents the tree `t`. -/
structure SubInv (s : AVLtree) (c : Category) (root : Nat) (t : Tree) : Prop where
  root_eq : avl_getRootType s c = some root
  rep : RepRoot s.heap root t
  nodup : t.addrs.Nodup
  root_lt : root < s.next
  addr_lt : ∀ a ∈ t.addrs, a < s.next
  ok : AllOK c t
  ordered : t.Ordered
  size : t.size + 4 ≤ s.next
  next_ge : 5 ≤ s.next

/-- The invariant: each of the four subtrees represents a tree, and no
address belongs to two subtrees. -/
structure Inv (s : AVLtree) (R : Category → Nat) (T : Category → Tree) : Prop where
  sub : ∀ c, c ≠ .unsupported → SubInv s c (R c) (T c)
  disj : ∀ c c1, c ≠ .unsupported → c1 ≠ .unsupported → c ≠ c1 →
    ∀ x ∈ foot (R c) (T c), x ∉ foot (R c1) (T c1)

/-- The root addresses of a fresh container. -/
def R0 : Category → Nat
  | .int => 1
  | .uint => 2
  | .double => 3
  | .string => 4
  | .unsupported => 0

/-- The tree of the subtree after `avl_remove`. -/
def Tree.removed (t : Tree) (id : Key) : Tree :=
  match t.find id with
  | none => t
  | some (a, _, _) => t.del a

/-- The node at address `b` belongs to the subtree that hangs at a pointer:
it is the node pointed to, or it belongs to the subtree of one of its
children. -/
inductive InSubtree (h : Heap) : Option Nat → Nat → Prop
  | here (a : Nat) : InSubtree h (some a) a
  | left {a b : Nat} {n : AVLtree_sub} :
      h a = some n → InSubtree h n.Lchild b → InSubtree h (some a) b
  | right {a b : Nat} {n : AVLtree_sub} :
      h a = some n → InSubtree h n.Rchild b → InSubtree h (some a) b

/-- The output arrays as `avl_traverse` allocates them: one zeroed slot each,
the counter at zero. -/
def emptyOut : Out := { ID := [none], data := [none], c := 0 }

/-- A key on which the narrowing of `avl_compare` is harmless: an integer, or
a string all of whose bytes are below 128 (so that `strcmp` on two such
strings returns a value between -127 and 127). -/
def Key.narrowSafe : Key → Bool
  | .str s => s.all fun b => decide (b < 128)
  | _ => true

/-- The search of `avl_compare` for `id` takes the direction of `avl_forward`
at every key of the tree. -/
def Tree.Agrees (id : Key) (t : Tree) : Prop :=
  ∀ x ∈ t.keys, (id.searchDir x = .right ↔ id.goesRight x = true)

/-- The payload that the search for `id` finds in the tree, if any. -/
def Tree.lookup (t : Tree) (id : Key) : Option Nat := (t.find id).map fun r => r.2.2

/-! ## Shape of a subtree of the heap -/

/-- The containers obtained when the payload reference handed to `avl_insert`
may be any reference, `NULL` included. -/
inductive ReachableAny : AVLtree → Prop
  | create : ReachableAny avl_createTree
  | insert {s s1 : AVLtree} (fuel : Nat) (k : Key) (p : Option Nat) :
      ReachableAny s → k.valid = true → avl_insert fuel s p k = some s1 → ReachableAny s1
  | remove {s s1 : AVLtree} (fuel : Nat) (k : Key) :
      ReachableAny s → k.valid = true → avl_remove fuel s k = some s1 → ReachableAny s1

/-- The number of nodes on the longest descent from a pointer along the
child links: zero for `NULL`, and the height of the subtree (counted in
links) plus one for a node. -/
def levels : Nat → Heap → Option Nat → Option Nat
  | 0, _, _ => none
  | _ + 1, _, none => some 0
  | fuel + 1, h, some a =>
    (h a).bind fun n =>
    (levels fuel h n.Lchild).bind fun l =>
    (levels fuel h n.Rchild).map fun r => max l r + 1

/-- The addresses met by a walk from a pointer down the child links: the
node, then the walk of its left child, then the walk of its right child.
The walk returns only if the links below the pointer have no cycle. -/
def walk : Nat → Heap → Option Nat → Option (List Nat)
  | 0, _, _ => none
  | _ + 1, _, none => some []
  | fuel + 1, h, some a =>
    (h a).bind fun n =>
    (walk fuel h n.Lchild).bind fun l =>
    (walk fuel h n.Rchild).map fun r => a :: (l ++ r)

/-- The subtree of occupied nodes that hangs at a pointer, read off the
heap: address, left subtree, key, payload, right subtree of every node. -/
def subtree : Nat → Heap → Option Nat → Option Tree
  | 0, _, _ => none
  | _ + 1, _, none => some .nil
  | fuel + 1, h, some a =>
    (h a).bind fun n =>
    n.ID.bind fun k =>
    n.data.bind fun d =>
    (subtree fuel h n.Lchild).bind fun l =>
    (subtree fuel h n.Rchild).map fun r => .node a l k d r

/-- The subtree of the category `c` is the same in `s1` as in `s`: the same
root pointer, the same cell at every node of the subtree, and the same
results of `avl_search` (for every key of the category) and `avl_traverse`. -/
def Untouched (fuel : Nat) (s s1 : AVLtree) (c : Category) : Prop :=
  avl_getRootType s1 c = avl_getRootType s c ∧
  (∀ a, InSubtree s.heap (avl_getRootType s c) a → s1.heap a = s.heap a) ∧
  (∀ k, k.category = c → ∃ r, avl_search fuel s k = some r ∧ avl_search fuel s1 k = some r) ∧
  ∃ o, avl_traverse fuel s c = some o ∧ avl_traverse fuel s1 c = some o

/-- The address of the node that `avl_insert` fills: the root cell when the
subtree is empty, else the cell that `avl_checkChild` allocates. -/
def Tree.insAddr (root fresh : Nat) : Tree → Nat
  | .nil => root
  | .node _ _ _ _ _ => fresh

/-- What an insertion of the pair `(k, DATA)` has done to the subtree below
`root`, from the heap `h` to the heap `h1`. One node `a` holds the pair; it
is occupied and childless, and it was no node of the subtree before, or was
its unoccupied root. The nodes of the subtree are the former ones and `a`.
Every other former node keeps its key, payload, `isLeaf` and parent link,
and each of its child links, unless the link was `NULL` and now points to
`a`. -/
def AddsOneNode (h h1 : Heap) (root : Nat) (k : Key) (DATA : Option Nat) : Prop :=
  ∃ a m, h1 a = some m ∧ m.ID = some k ∧ m.data = DATA ∧ m.isLeaf = 0 ∧
    m.Lchild = none ∧ m.Rchild = none ∧
    (¬ InSubtree h (some root) a ∨ h a = some (rootCell a)) ∧
    (∀ x, InSubtree h1 (some root) x ↔ (x = a ∨ InSubtree h (some root) x)) ∧
    ∀ x n, InSubtree h (some root) x → x ≠ a → h x = some n →
      ∃ n1, h1 x = some n1 ∧ n1.ID = n.ID ∧ n1.data = n.data ∧ n1.isLeaf = n.isLeaf ∧
        n1.parent = n.parent ∧
        (n1.Lchild = n.Lchild ∨ (n.Lchild = none ∧ n1.Lchild = some a)) ∧
        (n1.Rchild = n.Rchild ∨ (n.Rchild = none ∧ n1.Rchild = some a))

/-! ## Example containers -/

/-- The scenario of the specification: the string keys "b", "a", "c" inserted
with the payloads 1, 2, 3. -/
def exBAC : AVLtree :=
  (insertAll 8 avl_createTree [(.str [98], 1), (.str [97], 2), (.str [99], 3)]).getD
    avl_createTree

/-- The traversal of `exBAC`. -/
def exBACOut : Out :=
  { ID := [some (.str [97]), some (.str [99]), some (.str [98]), none]
    data := [some 2, some 3, some 1, none]
    c := 3 }

/-- The root cell of the string subtree of `exBAC`. -/
def exBACRoot : AVLtree_sub :=
  { ID := some (.str [98]), data := some 1, isLeaf := 0, balance := 0,
    Lchild := some 5, Rchild := some 6, parent := some 4 }

/-- The string key "A" inserted with the payload 1. -/
def exA : AVLtree :=
  (insertAll 8 avl_createTree [(.str [65], 1)]).getD avl_createTree

/-- The string keys "B" and "ñ" (UTF-8 bytes 195, 177) inserted with the
payloads 1 and 2. -/
def exBN : AVLtree :=
  (insertAll 8 avl_createTree [(.str [66], 1), (.str [195, 177], 2)]).getD avl_createTree

/-- The string keys "Ä" (UTF-8 bytes 195, 132) and "A" inserted with the
payloads 1 and 2. -/
def exAeA : AVLtree :=
  (insertAll 8 avl_createTree [(.str [195, 132], 1), (.str [65], 2)]).getD avl_createTree

/-- The string key "A" inserted with the payload 1, then the key "é" (UTF-8
bytes 195, 169) inserted twice, with the payloads 2 and 3. -/
def exAEE : AVLtree :=
  (insertAll 8 avl_createTree
    [(.str [65], 1), (.str [195, 169], 2), (.str [195, 169], 3)]).getD avl_createTree

/-- The string key "a" inserted with a `NULL` payload reference. -/
def exNull : AVLtree :=
  (avl_insert 8 avl_createTree none (.str [97])).getD avl_createTree

/-- The string keys "b" and "a" inserted with the payloads 1 and 2. -/
def exBA : AVLtree :=
  (insertAll 8 avl_createTree [(.str [98], 1), (.str [97], 2)]).getD avl_createTree

/-- The string keys "c", "b", "a" inserted with the payloads 1, 2, 3: a chain
of left children at the addresses 4, 5, 6. -/
def exCBA : AVLtree :=
  (insertAll 8 avl_createTree [(.str [99], 1), (.str [98], 2), (.str [97], 3)]).getD
    avl_createTree

/-- The cell of the middle node of `exCBA`. -/
def exCBAMid : AVLtree_sub :=
  { ID := some (.str [98]), data := some 2, isLeaf := 0, balance := 0,
    Lchild := some 6, Rchild := none, parent := some 4 }

/-- The string keys "B", "A" and "ñ" (UTF-8 bytes 195, 177) inserted with the
payloads 1, 2, 3: "B" at the root (address 4), "A" at its left child
(address 5), "ñ" at its right child (address 6). -/
def exBAN : AVLtree :=
  (insertAll 8 avl_createTree [(.str [66], 1), (.str [65], 2), (.str [195, 177], 3)]).getD
    avl_createTree

/-- The traversal of `exA`. -/
def exAOut : Out :=
  { ID := [some (.str [65]), none], data := [some 1, none], c := 1 }

/-- The traversal of `exCBA`. -/
def exCBAOut : Out :=
  { ID := [some (.str [97]), some (.str [98]), some (.str [99]), none]
    data := [some 3, some 2, some 1, none]
    c := 3 }

end AVL

namespace AVL

/-! ## Heap cells -/

theorem Heap.write_same (h : Heap) (a : Nat) (n : AVLtree_sub) : (h.write a n) a = some n := by
  simp [Heap.write]

theorem Heap.write_other (h : Heap) (a x : Nat) (n : AVLtree_sub) (hx : x ≠ a) :
    (h.write a n) x = h x := by
  simp [Heap.write, hx]

theorem Heap.free_same (h : Heap) (a : Nat) : (h.free a) a = none := by
  simp [Heap.free]

theorem Heap.free_other (h : Heap) (a x : Nat) (hx : x ≠ a) : (h.free a) x = h x := by
  simp [Heap.free, hx]

/-! ## Trees and their representation -/

namespace Tree

theorem size_eq_length_addrs (t : Tree) : t.addrs.length = t.size := by
  induction t with
  | nil => rfl
  | node a l k d r ihl ihr => simp [addrs, size, ihl, ihr]

theorem height_le_size (t : Tree) : t.height ≤ t.size := by
  induction t with
  | nil => simp [height, size]
  | node a l k d r ihl ihr => simp only [height, size]; omega

theorem post_length (t : Tree) : t.post.length = t.size := by
  induction t with
  | nil => rfl
  | node a l k d r ihl ihr => simp [post, size, ihl, ihr]; omega

theorem ptr_mem_addrs {t : Tree} {a : Nat} (h : t.ptr = some a) : a ∈ t.addrs := by
  cases t with
  | nil => simp [ptr] at h
  | node b l k d r => simp [ptr] at h; simp [addrs, h]

theorem keys_node (a : Nat) (l : Tree) (k : Key) (d : Nat) (r : Tree) :
    (node a l k d r).keys = l.keys ++ r.keys ++ [k] := by
  simp [keys, post]

end Tree

theorem Rep.frame {h h1 : Heap} {t : Tree} {par : Option Nat} (hr : Rep h t par)
    (hf : ∀ a ∈ t.addrs, h1 a = h a) : Rep h1 t par := by
  induction t generalizing par with
  | nil => trivial
  | node a l k d r ihl ihr =>
    obtain ⟨h1a, h2, h3⟩ := hr
    refine ⟨?_, ihl h2 ?_, ihr h3 ?_⟩
    · rw [hf a (by simp [Tree.addrs])]; exact h1a
    · intro x hx; exact hf x (by simp [Tree.addrs, hx])
    · intro x hx; exact hf x (by simp [Tree.addrs, hx])

/-- Changing the parent link of the root of a represented tree. -/
theorem Rep.reparent {h : Heap} {a : Nat} {l r : Tree} {k : Key} {d : Nat} {par par1 : Option Nat}
    (hr : Rep h (.node a l k d r) par) (hn : (Tree.node a l k d r).addrs.Nodup) :
    Rep (h.write a (cellOf l k d r par1)) (.node a l k d r) par1 := by
  obtain ⟨_, h2, h3⟩ := hr
  simp only [Tree.addrs, List.nodup_cons, List.mem_append, not_or] at hn
  refine ⟨Heap.write_same _ _ _, h2.frame ?_, h3.frame ?_⟩
  · intro x hx; exact Heap.write_other _ _ _ _ (fun e => hn.1.1 (e ▸ hx))
  · intro x hx; exact Heap.write_other _ _ _ _ (fun e => hn.1.2 (e ▸ hx))

/-! ## Keys of one category -/

theorem typeOf_eq_c (c : Category) : typeOf c = 'c' ↔ c = .string := by
  cases c <;> simp [typeOf]

theorem forwardRight_eq {c : Category} {id nid : Key} (hc : c ≠ .unsupported)
    (h1 : id.category = c) (h2 : nid.category = c) :
    forwardRight id nid (typeOf c) = some (id.goesRight nid) := by
  cases id <;> cases nid <;> simp [Key.category] at h1 h2 <;> subst h1 <;>
    first
    | (exact absurd rfl hc)
    | (exact absurd h2 (by decide))
    | (simp [forwardRight, typeOf, Key.gt, Key.strcmp, Key.goesRight])

end AVL

namespace AVL

/-! ## Search -/

theorem avl_compare_eq {s : AVLtree} {node : Nat} {n : AVLtree_sub} {id nid : Key} {c : Category}
    (hc : c ≠ .unsupported) (hn : s.heap node = some n) (hid : n.ID = some nid)
    (h1 : id.category = c) (h2 : nid.category = c) :
    avl_compare s node none id (typeOf c) =
      some (match id.searchDir nid with
        | .right => (n.Rchild, none)
        | .left => (n.Lchild, none)
        | .found => (some node, n.data)) := by
  cases id <;> cases nid <;> simp [Key.category] at h1 h2 <;> subst h1 <;>
    first
    | (exact absurd rfl hc)
    | (exact absurd h2 (by decide))
    | skip
  · rename_i a b
    rcases lt_trichotomy a b with h | h | h
    · have : ¬ b < a := not_lt.mpr h.le
      simp [avl_compare, hn, hid, typeOf, Key.gt, Key.lt, Key.eq, Key.searchDir, h, this]
    · subst h
      simp [avl_compare, hn, hid, typeOf, Key.gt, Key.lt, Key.eq, Key.searchDir]
    · have : ¬ a < b := not_lt.mpr h.le
      simp [avl_compare, hn, hid, typeOf, Key.gt, Key.lt, Key.eq, Key.searchDir, h, this]
  · rename_i a b
    rcases lt_trichotomy a b with h | h | h
    · have : ¬ b < a := not_lt.mpr h.le
      simp [avl_compare, hn, hid, typeOf, Key.gt, Key.lt, Key.eq, Key.searchDir, h, this]
    · subst h
      simp [avl_compare, hn, hid, typeOf, Key.gt, Key.lt, Key.eq, Key.searchDir]
    · have : ¬ a < b := not_lt.mpr h.le
      simp [avl_compare, hn, hid, typeOf, Key.gt, Key.lt, Key.eq, Key.searchDir, h, this]
  · rename_i a b
    by_cases hp : 0 < toChar (strcmp a b)
    · simp [avl_compare, hn, hid, typeOf, Key.strcmp, Key.searchDir, hp]
    · by_cases hq : toChar (strcmp a b) < 0
      · simp [avl_compare, hn, hid, typeOf, Key.strcmp, Key.searchDir, hp, hq]
      · simp [avl_compare, hn, hid, typeOf, Key.strcmp, Key.searchDir, hp, hq]

theorem search_loop_rep {s : AVLtree} {c : Category} {id : Key} (hc : c ≠ .unsupported)
    (h1 : id.category = c) :
    ∀ (t : Tree) (par : Option Nat) (fuel : Nat), Rep s.heap t par →
      (∀ k ∈ t.keys, k.category = c) → t.height ≤ fuel →
      avl_search_loop fuel s t.ptr none id (typeOf c) =
        some (match t.find id with
          | none => (none, none)
          | some (a, _, d) => (some a, some d)) := by
  intro t
  induction t with
  | nil =>
    intro par fuel _ _ _
    cases fuel <;> simp [avl_search_loop, Tree.ptr, Tree.find]
  | node a l k d r ihl ihr =>
    intro par fuel hr hk hf
    obtain ⟨ha, hl, hrr⟩ := hr
    cases fuel with
    | zero => simp [Tree.height] at hf
    | succ fuel =>
      have hkc : k.category = c := hk k (by simp [Tree.keys_node])
      have hcmp := @avl_compare_eq s a _ id _ _ hc ha (by simp [cellOf]) h1 hkc
      simp only [Tree.height] at hf
      simp only [avl_search_loop, Tree.ptr, hcmp, Option.bind_some, Tree.find]
      cases hd : id.searchDir k with
      | right =>
        simp only [cellOf]
        exact ihr (some a) fuel hrr (fun x hx => hk x (by simp [Tree.keys_node, hx])) (by omega)
      | left =>
        simp only [cellOf]
        exact ihl (some a) fuel hl (fun x hx => hk x (by simp [Tree.keys_node, hx])) (by omega)
      | found =>
        simp only [cellOf]
        cases fuel <;> simp [avl_search_loop]

end AVL

namespace AVL

/-! ## Traversal -/

theorem set_length_append_singleton {α : Type} (P : List α) (y x : α) :
    (P ++ [y]).set P.length x = P ++ [x] := by
  induction P with
  | nil => rfl
  | cons p P ih => simp [List.set, ih]

namespace Tree

theorem ids_node (a : Nat) (l : Tree) (k : Key) (d : Nat) (r : Tree) :
    (node a l k d r).ids = l.ids ++ r.ids ++ [some k] := by
  simp [ids, post]

theorem datas_node (a : Nat) (l : Tree) (k : Key) (d : Nat) (r : Tree) :
    (node a l k d r).datas = l.datas ++ r.datas ++ [some d] := by
  simp [datas, post]

theorem ids_length (t : Tree) : t.ids.length = t.size := by simp [ids, post_length]

theorem datas_length (t : Tree) : t.datas.length = t.size := by simp [datas, post_length]

end Tree

theorem tTraverse_rep {s : AVLtree} :
    ∀ (t : Tree) (par : Option Nat) (fuel : Nat) (P : List (Option Key)) (Q : List (Option Nat)),
      Rep s.heap t par → t.height + 1 ≤ fuel → P.length = Q.length →
      avl_tTraverse fuel s (outOf P Q) t.ptr = some (outOf (P ++ t.ids) (Q ++ t.datas)) := by
  intro t
  induction t with
  | nil =>
    intro par fuel P Q _ hf _
    cases fuel with
    | zero => omega
    | succ fuel => simp [avl_tTraverse, Tree.ptr, Tree.ids, Tree.datas, Tree.post]
  | node a l k d r ihl ihr =>
    intro par fuel P Q hr hf hPQ
    obtain ⟨ha, hl, hrr⟩ := hr
    cases fuel with
    | zero => omega
    | succ fuel =>
      simp only [Tree.height] at hf
      have e1 : (if (cellOf l k d r par).Lchild ≠ none
            then avl_tTraverse fuel s (outOf P Q) (cellOf l k d r par).Lchild
            else some (outOf P Q)) = some (outOf (P ++ l.ids) (Q ++ l.datas)) := by
        cases l with
        | nil => simp [cellOf, Tree.ptr, Tree.ids, Tree.datas, Tree.post]
        | node la ll lk ld lr =>
          have := ihl (some a) fuel P Q hl (by omega) hPQ
          simpa [cellOf, Tree.ptr] using this
      have hPQ1 : (P ++ l.ids).length = (Q ++ l.datas).length := by
        simp [Tree.ids_length, Tree.datas_length, hPQ]
      have e2 : (if (cellOf l k d r par).Rchild ≠ none
            then avl_tTraverse fuel s (outOf (P ++ l.ids) (Q ++ l.datas)) (cellOf l k d r par).Rchild
            else some (outOf (P ++ l.ids) (Q ++ l.datas))) =
            some (outOf (P ++ l.ids ++ r.ids) (Q ++ l.datas ++ r.datas)) := by
        cases r with
        | nil => simp [cellOf, Tree.ptr, Tree.ids, Tree.datas, Tree.post]
        | node ra rl rk rd rr =>
          have := ihr (some a) fuel (P ++ l.ids) (Q ++ l.datas) hrr (by omega) hPQ1
          simpa [cellOf, Tree.ptr] using this
      have hPQ2 : (P ++ l.ids ++ r.ids).length = (Q ++ l.datas ++ r.datas).length := by
        simp [Tree.ids_length, Tree.datas_length, hPQ]
      have hne : ¬ ((cellOf l k d r par).ID = none ∧ (cellOf l k d r par).data = none) := by
        simp [cellOf]
      rw [Tree.ptr, avl_tTraverse]
      simp only [ha, Option.some_bind]
      rw [if_neg hne, e1]
      simp only [Option.some_bind]
      rw [e2]
      simp only [Option.map_some']
      have s1 := set_length_append_singleton (P ++ l.ids ++ r.ids) none (some k)
      have s2 := set_length_append_singleton (Q ++ l.datas ++ r.datas) none (some d)
      rw [← hPQ2] at s2
      simp only [outOf, s1, s2, Tree.ids_node, Tree.datas_node, cellOf]
      simp [List.append_assoc]
      omega

end AVL

namespace AVL

/-! ## Insertion -/

namespace Tree

theorem ins_ptr (fresh : Nat) (id : Key) (d : Nat) (a : Nat) (l : Tree) (k : Key) (dd : Nat)
    (r : Tree) : ((node a l k dd r).ins fresh id d).ptr = some a := by
  simp only [ins]; split <;> rfl

theorem ins_addrs_perm (fresh : Nat) (id : Key) (d : Nat) (t : Tree) :
    (t.ins fresh id d).addrs.Perm (fresh :: t.addrs) := by
  induction t with
  | nil => simp [ins, addrs]
  | node a l k dd r ihl ihr =>
    simp only [ins]
    split
    · simp only [addrs]
      refine (List.Perm.cons a ((List.Perm.append_left l.addrs ihr).trans ?_)).trans
        (List.Perm.swap _ _ _)
      exact List.perm_middle
    · simp only [addrs]
      refine (List.Perm.cons a ((List.Perm.append_right r.addrs ihl))).trans
        (List.Perm.swap _ _ _)

theorem ins_post_perm (fresh : Nat) (id : Key) (d : Nat) (t : Tree) :
    (t.ins fresh id d).post.Perm ((id, d) :: t.post) := by
  induction t with
  | nil => simp [ins, post]
  | node a l k dd r ihl ihr =>
    simp only [ins]
    split
    · simp only [post]
      have h1 : (l.post ++ (r.ins fresh id d).post ++ [(k, dd)]).Perm
          (l.post ++ ((id, d) :: r.post) ++ [(k, dd)]) :=
        List.Perm.append_right _ (List.Perm.append_left _ ihr)
      refine h1.trans ?_
      simp only [List.append_assoc, List.cons_append]
      exact List.perm_middle
    · simp only [post]
      have h1 : ((l.ins fresh id d).post ++ r.post ++ [(k, dd)]).Perm
          (((id, d) :: l.post) ++ r.post ++ [(k, dd)]) :=
        List.Perm.append_right _ (List.Perm.append_right _ ihl)
      simpa using h1

theorem ins_size (fresh : Nat) (id : Key) (d : Nat) (t : Tree) :
    (t.ins fresh id d).size = t.size + 1 := by
  rw [← post_length, ← post_length, (ins_post_perm fresh id d t).length_eq]; rfl

end Tree

theorem insert_loop_step {s : AVLtree} {a : Nat} {n : AVLtree_sub} (fuel : Nat) (id : Key)
    (type : Char) (ha : s.heap a = some n) (hn : n.isLeaf = 0) :
    avl_insert_loop (fuel + 1) s (some a) id type =
      (avl_forward s a id type).bind fun r => avl_insert_loop fuel r.1 r.2 id type := by
  simp [avl_insert_loop, ha, hn]

theorem insert_loop_stop {s : AVLtree} {a : Nat} {n : AVLtree_sub} (fuel : Nat) (id : Key)
    (type : Char) (ha : s.heap a = some n) (hn : n.isLeaf ≠ 0) :
    avl_insert_loop (fuel + 1) s (some a) id type = some (s, a) := by
  simp [avl_insert_loop, ha, hn]

theorem avl_forward_right {s : AVLtree} {a : Nat} {n : AVLtree_sub} {id k : Key} {type : Char}
    (ha : s.heap a = some n) (hk : n.ID = some k) (hf : forwardRight id k type = some true)
    (hne : a ≠ s.next) :
    avl_forward s a id type =
      match n.Rchild with
      | some r => some (s, some r)
      | none => some ({ s with
          heap := (s.heap.write a { n with Rchild := some s.next }).write s.next
                    { calloc_sub with isLeaf := 1, parent := some a }
          next := s.next + 1 }, some s.next) := by
  cases hr : n.Rchild with
  | some r => simp [avl_forward, ha, hk, hf, avl_checkChild, hr]
  | none => simp [avl_forward, ha, hk, hf, avl_checkChild, hr, Heap.write, hne]

theorem avl_forward_left {s : AVLtree} {a : Nat} {n : AVLtree_sub} {id k : Key} {type : Char}
    (ha : s.heap a = some n) (hk : n.ID = some k) (hf : forwardRight id k type = some false)
    (hne : a ≠ s.next) :
    avl_forward s a id type =
      match n.Lchild with
      | some r => some (s, some r)
      | none => some ({ s with
          heap := (s.heap.write a { n with Lchild := some s.next }).write s.next
                    { calloc_sub with isLeaf := 1, parent := some a }
          next := s.next + 1 }, some s.next) := by
  cases hr : n.Lchild with
  | some r => simp [avl_forward, ha, hk, hf, avl_checkChild, hr]
  | none => simp [avl_forward, ha, hk, hf, avl_checkChild, hr, Heap.write, hne]

theorem insert_loop_rep {s : AVLtree} {c : Category} {id : Key} (hc : c ≠ .unsupported)
    (h1 : id.category = c) :
    ∀ (t : Tree) (par : Option Nat) (fuel : Nat), t ≠ .nil → Rep s.heap t par →
      t.addrs.Nodup → (∀ a ∈ t.addrs, a < s.next) → (∀ k ∈ t.keys, k.category = c) →
      t.height + 1 ≤ fuel →
      ∃ (hp : Heap) (q : Nat),
        avl_insert_loop fuel s t.ptr id (typeOf c) =
          some ({ s with heap := hp, next := s.next + 1 }, s.next) ∧
        hp s.next = some { calloc_sub with isLeaf := 1, parent := some q } ∧
        (∀ d, Rep (hp.write s.next (cellOf .nil id d .nil (some q))) (t.ins s.next id d) par) ∧
        ∀ x, x ∉ t.addrs → x ≠ s.next → hp x = s.heap x := by
  intro t
  induction t with
  | nil => intro par fuel hn; exact absurd rfl hn
  | node a l k dd r ihl ihr =>
    intro par fuel _ hr hnd hlt hk hf
    obtain ⟨ha, hl, hrr⟩ := hr
    simp only [Tree.addrs, List.nodup_cons, List.mem_append, not_or, List.nodup_append] at hnd
    obtain ⟨⟨hal, har⟩, hndl, hndr, hdisj⟩ := hnd
    have hanx : a < s.next := hlt a (by simp [Tree.addrs])
    have hkc : k.category = c := hk k (by simp [Tree.keys_node])
    have hfw := @forwardRight_eq c id k hc h1 hkc
    simp only [Tree.height] at hf
    cases fuel with
    | zero => omega
    | succ fuel =>
      cases fuel with
      | zero => omega
      | succ fuel =>
      by_cases hg : id.goesRight k = true
      · -- descent to the right
        cases r with
        | nil =>
          refine ⟨(s.heap.write a { cellOf l k dd .nil par with Rchild := some s.next }).write s.next
              { calloc_sub with isLeaf := 1, parent := some a }, a, ?_, ?_, ?_, ?_⟩
          · have hne' : a ≠ s.next := by omega
            rw [Tree.ptr, insert_loop_step _ _ _ ha rfl,
              avl_forward_right ha rfl (hg ▸ hfw) (by omega)]
            simp only [cellOf, Tree.ptr, Option.some_bind]
            rw [insert_loop_stop (n := { calloc_sub with isLeaf := 1, parent := some a })]
            · simp [Heap.write]
            · simp
          · simp [Heap.write]
          · intro d
            simp only [Tree.ins, hg, if_true]
            refine ⟨?_, ?_, ?_, trivial, trivial⟩
            · have hne' : a ≠ s.next := by omega
              simp [Heap.write, hne', cellOf, Tree.ptr]
            · refine hl.frame ?_
              intro x hx
              have hx1 : x ≠ a := fun e => hal (e ▸ hx)
              have hx2 : x ≠ s.next := by
                have := hlt x (by simp [Tree.addrs, hx]); omega
              simp [Heap.write, hx1, hx2]
            · simp [Heap.write, cellOf]
          · intro x hx hxn
            have hx1 : x ≠ a := fun e => hx (by simp [Tree.addrs, e])
            simp [Heap.write, hx1, hxn]
        | node ra rl rk rd rr =>
          obtain ⟨hp, q, e1, e2, e3, e4⟩ := ihr (some a) (fuel + 1) (by simp) hrr hndr
            (fun x hx => hlt x (by simp [Tree.addrs] at hx ⊢; tauto))
            (fun x hx => hk x (by simp [Tree.keys_node] at hx ⊢; tauto)) (by omega)
          refine ⟨hp, q, ?_, e2, ?_, ?_⟩
          · simp only [Tree.ptr] at e1
            rw [Tree.ptr, insert_loop_step _ _ _ ha rfl,
              avl_forward_right ha rfl (hg ▸ hfw) (by omega)]
            simp only [cellOf, Tree.ptr, Option.some_bind]
            exact e1
          · intro d
            simp only [Tree.ins, hg, if_true]
            have ea : hp a = s.heap a := e4 a har (by omega)
            refine ⟨?_, ?_, e3 d⟩
            · have hne' : a ≠ s.next := by omega
              rw [Heap.write_other _ _ _ _ hne', ea, ha]
              simp only [cellOf]
              split <;> rfl
            · refine hl.frame ?_
              intro x hx
              have hx2 : x ≠ s.next := by
                have := hlt x (by simp [Tree.addrs, hx]); omega
              rw [Heap.write_other _ _ _ _ hx2]
              exact e4 x (fun hxr => hdisj hx hxr) hx2
          · intro x hx hxn
            exact e4 x (fun hxr => hx (by simp [Tree.addrs] at hxr ⊢; tauto)) hxn
      · -- descent to the left
        have hg' : id.goesRight k = false := by simpa using hg
        cases l with
        | nil =>
          refine ⟨(s.heap.write a { cellOf .nil k dd r par with Lchild := some s.next }).write s.next
              { calloc_sub with isLeaf := 1, parent := some a }, a, ?_, ?_, ?_, ?_⟩
          · have hne' : a ≠ s.next := by omega
            rw [Tree.ptr, insert_loop_step _ _ _ ha rfl,
              avl_forward_left ha rfl (hg' ▸ hfw) (by omega)]
            simp only [cellOf, Tree.ptr, Option.some_bind]
            rw [insert_loop_stop (n := { calloc_sub with isLeaf := 1, parent := some a })]
            · simp [Heap.write]
            · simp
          · simp [Heap.write]
          · intro d
            simp only [Tree.ins, hg']
            refine ⟨?_, ⟨?_, trivial, trivial⟩, ?_⟩
            · have hne' : a ≠ s.next := by omega
              simp [Heap.write, hne', cellOf, Tree.ptr]
            · simp [Heap.write, cellOf]
            · refine hrr.frame ?_
              intro x hx
              have hx1 : x ≠ a := fun e => har (e ▸ hx)
              have hx2 : x ≠ s.next := by
                have := hlt x (by simp [Tree.addrs, hx]); omega
              simp [Heap.write, hx1, hx2]
          · intro x hx hxn
            have hx1 : x ≠ a := fun e => hx (by simp [Tree.addrs, e])
            simp [Heap.write, hx1, hxn]
        | node la ll lk ld lr =>
          obtain ⟨hp, q, e1, e2, e3, e4⟩ := ihl (some a) (fuel + 1) (by simp) hl hndl
            (fun x hx => hlt x (by simp [Tree.addrs] at hx ⊢; tauto))
            (fun x hx => hk x (by simp [Tree.keys_node] at hx ⊢; tauto)) (by omega)
          refine ⟨hp, q, ?_, e2, ?_, ?_⟩
          · simp only [Tree.ptr] at e1
            rw [Tree.ptr, insert_loop_step _ _ _ ha rfl,
              avl_forward_left ha rfl (hg' ▸ hfw) (by omega)]
            simp only [cellOf, Tree.ptr, Option.some_bind]
            exact e1
          · intro d
            simp only [Tree.ins, hg']
            have ea : hp a = s.heap a := e4 a hal (by omega)
            refine ⟨?_, e3 d, ?_⟩
            · have hne' : a ≠ s.next := by omega
              rw [Heap.write_other _ _ _ _ hne', ea, ha]
              simp only [cellOf]
              split <;> rfl
            · refine hrr.frame ?_
              intro x hx
              have hx2 : x ≠ s.next := by
                have := hlt x (by simp [Tree.addrs, hx]); omega
              rw [Heap.write_other _ _ _ _ hx2]
              exact e4 x (fun hxl => hdisj hxl hx) hx2
          · intro x hx hxn
            exact e4 x (fun hxr => hx (by simp [Tree.addrs] at hxr ⊢; tauto)) hxn

end AVL

namespace AVL

/-! ## Removal: the biggest left child -/

namespace Tree

theorem maxAddr_mem : ∀ (t : Tree) (m : Nat), t.maxAddr = some m → m ∈ t.addrs := by
  intro t
  induction t with
  | nil => intro m h; simp [maxAddr] at h
  | node a l k d r _ ihr =>
    intro m h
    cases r with
    | nil => simp [maxAddr] at h; simp [addrs, h]
    | node ra rl rk rd rr =>
      simp only [maxAddr] at h
      have := ihr m h
      simp only [addrs, List.mem_cons, List.mem_append] at this ⊢
      tauto

theorem delMax_ptr_node (a : Nat) (l : Tree) (k : Key) (d : Nat) (ra : Nat) (rl : Tree) (rk : Key)
    (rd : Nat) (rr : Tree) : (node a l k d (node ra rl rk rd rr)).delMax.ptr = some a := rfl

end Tree

theorem cell_eta_L (c : AVLtree_sub) : { c with Lchild := c.Lchild } = c := by cases c; rfl

theorem cell_eta_R (c : AVLtree_sub) : { c with Rchild := c.Rchild } = c := by cases c; rfl

theorem biggest_rep {h : Heap} :
    ∀ (t : Tree) (a : Nat) (par : Option Nat) (fuel : Nat), Rep h t par → t.ptr = some a →
      t.height ≤ fuel → biggest fuel h a = t.maxAddr := by
  intro t
  induction t with
  | nil => intro a par fuel _ hp; simp [Tree.ptr] at hp
  | node b l k d r _ ihr =>
    intro a par fuel hr hp hf
    obtain ⟨hb, _, hrr⟩ := hr
    simp only [Tree.ptr, Option.some.injEq] at hp
    subst hp
    simp only [Tree.height] at hf
    cases fuel with
    | zero => omega
    | succ fuel =>
      cases r with
      | nil => simp [biggest, hb, cellOf, Tree.ptr, Tree.maxAddr]
      | node ra rl rk rd rr =>
        have := ihr ra (some b) fuel hrr rfl (by omega)
        simp [biggest, hb, cellOf, Tree.ptr, Tree.maxAddr, this]

theorem maxKD_rep {h : Heap} :
    ∀ (t : Tree) (par : Option Nat) (m : Nat), Rep h t par → t.maxAddr = some m →
      ∃ c k1 d1, h m = some c ∧ c.ID = some k1 ∧ c.data = some d1 ∧ t.maxKD = some (k1, d1) := by
  intro t
  induction t with
  | nil => intro par m _ hm; simp [Tree.maxAddr] at hm
  | node b l k d r _ ihr =>
    intro par m hr hm
    obtain ⟨hb, _, hrr⟩ := hr
    cases r with
    | nil =>
      simp only [Tree.maxAddr, Option.some.injEq] at hm
      subst hm
      exact ⟨_, k, d, hb, rfl, rfl, rfl⟩
    | node ra rl rk rd rr =>
      simp only [Tree.maxAddr] at hm
      obtain ⟨c, k1, d1, e1, e2, e3, e4⟩ := ihr (some b) m hrr hm
      exact ⟨c, k1, d1, e1, e2, e3, by simpa [Tree.maxKD] using e4⟩

theorem setSlot_same {qc : AVLtree_sub} {l : Tree} {isLeft : Bool} (hs : SlotOf qc l isLeft) :
    setSlot qc l.ptr isLeft = qc := by
  cases isLeft
  · simp only [SlotOf, Bool.false_eq_true, if_false] at hs
    simp only [setSlot, Bool.false_eq_true, if_false, ← hs.1, cell_eta_R]
  · simp only [SlotOf, if_true] at hs
    simp only [setSlot, if_true, ← hs, cell_eta_L]

/-- Unlinking a childless-on-the-right node `b` below the parent `q`. -/
theorem splice_here {h : Heap} {b q : Nat} {bl : Tree} {bk : Key} {bd : Nat} {qc : AVLtree_sub}
    {isLeft : Bool} (hr : Rep h (.node b bl bk bd .nil) (some q)) (hq : h q = some qc)
    (hqn : q ∉ (Tree.node b bl bk bd .nil).addrs) (hnd : (Tree.node b bl bk bd .nil).addrs.Nodup)
    (hs : SlotOf qc (.node b bl bk bd .nil) isLeft) :
    ∃ h1, splice h b = some h1 ∧ Rep h1 bl (some q) ∧
      h1 q = some (setSlot qc bl.ptr isLeft) ∧
      ∀ y, y ∉ (Tree.node b bl bk bd .nil).addrs → y ≠ q → h1 y = h y := by
  obtain ⟨hb, hl, _⟩ := hr
  simp only [Tree.addrs, List.append_nil, List.mem_cons, not_or, List.nodup_cons] at hqn hnd
  have hqb : q ≠ b := hqn.1
  have hbq : b ≠ q := fun e => hqb e.symm
  cases bl with
  | nil =>
    cases isLeft
    · simp only [SlotOf, Bool.false_eq_true, if_false, Tree.ptr] at hs
      have hL : qc.Lchild ≠ some b := hs.2 b (by simp [Tree.addrs])
      refine ⟨(h.write q { qc with Rchild := none }).free b, ?_, trivial, ?_, ?_⟩
      · simp [splice, hb, cellOf, hq, hL, Tree.ptr, Heap.setRchild]
      · simp [Heap.free, Heap.write, hqb, setSlot, Tree.ptr]
      · intro y hy hyq
        simp only [Tree.addrs, List.append_nil, List.mem_cons, List.not_mem_nil, or_false] at hy
        simp [Heap.free, Heap.write, hy, hyq]
    · simp only [SlotOf, if_true, Tree.ptr] at hs
      refine ⟨(h.write q { qc with Lchild := none }).free b, ?_, trivial, ?_, ?_⟩
      · simp [splice, hb, cellOf, hq, hs, Tree.ptr, Heap.setLchild]
      · simp [Heap.free, Heap.write, hqb, setSlot, Tree.ptr]
      · intro y hy hyq
        simp only [Tree.addrs, List.append_nil, List.mem_cons, List.not_mem_nil, or_false] at hy
        simp [Heap.free, Heap.write, hy, hyq]
  | node c cl ck cd cr =>
    have hcb : c ≠ b := by
      intro e; apply hnd.1; simp [Tree.addrs, e]
    have hcq : c ≠ q := by
      intro e; apply hqn.2; simp [Tree.addrs, e]
    have hqc' : q ≠ c := fun e => hcq e.symm
    have hc := hl.1
    have hrep : Rep (h.write c (cellOf cl ck cd cr (some q))) (.node c cl ck cd cr) (some q) :=
      hl.reparent hnd.2
    cases isLeft
    · simp only [SlotOf, Bool.false_eq_true, if_false, Tree.ptr] at hs
      have hL : qc.Lchild ≠ some b := hs.2 b (by simp [Tree.addrs])
      refine ⟨(((h.write c (cellOf cl ck cd cr (some q))).write q
          { qc with Rchild := some c })).free b, ?_, ?_, ?_, ?_⟩
      · simp [splice, hb, cellOf, hq, hL, Tree.ptr, Heap.setRchild, Heap.setParent, hc,
          Heap.write, hqc']
      · refine hrep.frame ?_
        intro y hy
        have hyb : y ≠ b := fun e => hnd.1 (e ▸ hy)
        have hyq : y ≠ q := fun e => hqn.2 (e ▸ hy)
        simp [Heap.free, Heap.write, hyb, hyq]
      · simp [Heap.free, Heap.write, hqb, setSlot, Tree.ptr]
      · intro y hy hyq
        simp only [Tree.addrs, List.append_nil, List.mem_cons, List.mem_append, not_or] at hy
        simp [Heap.free, Heap.write, hy.1, hy.2.1, hyq]
    · simp only [SlotOf, if_true, Tree.ptr] at hs
      refine ⟨(((h.write c (cellOf cl ck cd cr (some q))).write q
          { qc with Lchild := some c })).free b, ?_, ?_, ?_, ?_⟩
      · simp [splice, hb, cellOf, hq, hs, Tree.ptr, Heap.setLchild, Heap.setParent, hc,
          Heap.write, hqc']
      · refine hrep.frame ?_
        intro y hy
        have hyb : y ≠ b := fun e => hnd.1 (e ▸ hy)
        have hyq : y ≠ q := fun e => hqn.2 (e ▸ hy)
        simp [Heap.free, Heap.write, hyb, hyq]
      · simp [Heap.free, Heap.write, hqb, setSlot, Tree.ptr]
      · intro y hy hyq
        simp only [Tree.addrs, List.append_nil, List.mem_cons, List.mem_append, not_or] at hy
        simp [Heap.free, Heap.write, hy.1, hy.2.1, hyq]

end AVL

namespace AVL

theorem Tree.nodup_node (a : Nat) (l : Tree) (k : Key) (d : Nat) (r : Tree) :
    (Tree.node a l k d r).addrs.Nodup ↔
      (a ∉ l.addrs ∧ a ∉ r.addrs) ∧ l.addrs.Nodup ∧ r.addrs.Nodup ∧ l.addrs.Disjoint r.addrs := by
  simp only [Tree.addrs, List.nodup_cons, List.mem_append, not_or, List.nodup_append]

theorem Tree.mem_addrs_node (x a : Nat) (l : Tree) (k : Key) (d : Nat) (r : Tree) :
    x ∈ (Tree.node a l k d r).addrs ↔ x = a ∨ x ∈ l.addrs ∨ x ∈ r.addrs := by
  simp only [Tree.addrs, List.mem_cons, List.mem_append]

theorem splice_rep {h : Heap} :
    ∀ (l : Tree) (q : Nat) (qc : AVLtree_sub) (isLeft : Bool), l ≠ .nil →
      Rep h l (some q) → h q = some qc → q ∉ l.addrs → l.addrs.Nodup → SlotOf qc l isLeft →
      ∃ m h1, l.maxAddr = some m ∧ splice h m = some h1 ∧ Rep h1 l.delMax (some q) ∧
        h1 q = some (setSlot qc l.delMax.ptr isLeft) ∧
        ∀ y, y ∉ l.addrs → y ≠ q → h1 y = h y := by
  intro l
  induction l with
  | nil => intro q qc isLeft hn; exact absurd rfl hn
  | node b bl bk bd br _ ihr =>
    intro q qc isLeft _ hr hq hqn hnd hs
    cases br with
    | nil =>
      obtain ⟨h1, e1, e2, e3, e4⟩ := splice_here hr hq hqn hnd hs
      exact ⟨b, h1, rfl, e1, e2, e3, e4⟩
    | node ra rl rk rd rr =>
      obtain ⟨hb, hl, hrr⟩ := hr
      have hnd' := hnd
      rw [Tree.nodup_node] at hnd
      obtain ⟨⟨hbl, hbr⟩, hndl, hndr, hdisj⟩ := hnd
      have hslot : SlotOf (cellOf bl bk bd (.node ra rl rk rd rr) (some q))
          (.node ra rl rk rd rr) false := by
        simp only [SlotOf, Bool.false_eq_true, if_false, cellOf, true_and]
        intro x hx e
        exact hdisj (Tree.ptr_mem_addrs e) hx
      obtain ⟨m, h1, e1, e2, e3, e4, e5⟩ :=
        ihr b _ false (by simp) hrr hb hbr hndr hslot
      have hqb : q ≠ b := fun e => hqn (by rw [Tree.mem_addrs_node]; exact Or.inl e)
      refine ⟨m, h1, by simpa [Tree.maxAddr] using e1, e2, ?_, ?_, ?_⟩
      · refine ⟨?_, ?_, e3⟩
        · rw [e4]; simp [setSlot, cellOf]
        · refine hl.frame ?_
          intro y hy
          exact e5 y (fun hyr => hdisj hy hyr) (fun e => hbl (e ▸ hy))
      · have : h1 q = h q :=
          e5 q (fun hx => hqn (by rw [Tree.mem_addrs_node]; exact Or.inr (Or.inr hx))) hqb
        rw [this, hq, Tree.delMax_ptr_node]
        have := setSlot_same hs
        simpa [Tree.ptr] using congrArg some this.symm
      · intro y hy hyq
        rw [Tree.mem_addrs_node] at hy
        exact e5 y (fun hx => hy (Or.inr (Or.inr hx))) (fun e => hy (Or.inl e))

end AVL

namespace AVL

/-! ## Removal: the cases of `avl_removeNode` -/

theorem Heap.write_write (h : Heap) (a : Nat) (n m : AVLtree_sub) :
    (h.write a n).write a m = h.write a m := by
  funext x; by_cases e : x = a <;> simp [Heap.write, e]

theorem Tree.delRoot_two (x : Nat) (la : Nat) (ll : Tree) (lk : Key) (ld : Nat) (lr : Tree)
    (k : Key) (d : Nat) (ra : Nat) (rl : Tree) (rk : Key) (rd : Nat) (rr : Tree) (k1 : Key)
    (d1 : Nat) (hm : (Tree.node la ll lk ld lr).maxKD = some (k1, d1)) :
    (Tree.node x (.node la ll lk ld lr) k d (.node ra rl rk rd rr)).delRoot =
      .node x (Tree.node la ll lk ld lr).delMax k1 d1 (.node ra rl rk rd rr) := by
  simp only [Tree.delRoot, hm]

/-- The two-children case: the content of the biggest left child moves up. -/
theorem removeNode_two {s : AVLtree} {x la ra : Nat} {ll lr rl rr : Tree} {lk rk k : Key}
    {ld rd d : Nat} {par : Option Nat} {fuel : Nat}
    (hr : Rep s.heap (.node x (.node la ll lk ld lr) k d (.node ra rl rk rd rr)) par)
    (hnd : (Tree.node x (.node la ll lk ld lr) k d (.node ra rl rk rd rr)).addrs.Nodup)
    (hf : (Tree.node x (.node la ll lk ld lr) k d (.node ra rl rk rd rr)).height ≤ fuel) :
    ∃ h1, avl_removeNode fuel s x = some { s with heap := h1 } ∧
      Rep h1 (Tree.node x (.node la ll lk ld lr) k d (.node ra rl rk rd rr)).delRoot par ∧
      ∀ y, y ∉ (Tree.node x (.node la ll lk ld lr) k d (.node ra rl rk rd rr)).addrs →
        h1 y = s.heap y := by
  obtain ⟨hx, hl, hrr⟩ := hr
  rw [Tree.nodup_node] at hnd
  obtain ⟨⟨hxl, hxr⟩, hndl, hndr, hdisj⟩ := hnd
  simp only [Tree.height] at hf
  -- the heap after `node->data = NULL; node->ID = NULL`
  have hl0 : Rep (s.heap.write x { cellOf (.node la ll lk ld lr) k d (.node ra rl rk rd rr) par with
      ID := none, data := none }) (.node la ll lk ld lr) (some x) :=
    hl.frame fun y hy => Heap.write_other _ _ _ _ (fun e => hxl (e ▸ hy))
  have hbig := biggest_rep (.node la ll lk ld lr) la (some x) fuel hl0 rfl
    (by simp only [Tree.height]; omega)
  obtain ⟨m, hm⟩ : ∃ m, (Tree.node la ll lk ld lr).maxAddr = some m := by
    cases hq : (Tree.node la ll lk ld lr).maxAddr with
    | some m => exact ⟨m, rfl⟩
    | none =>
      exfalso
      have : ∀ t : Tree, t ≠ .nil → t.maxAddr ≠ none := by
        intro t
        induction t with
        | nil => intro h; exact absurd rfl h
        | node a l k d r _ ihr =>
          intro _
          cases r with
          | nil => simp [Tree.maxAddr]
          | node _ _ _ _ _ => simpa [Tree.maxAddr] using ihr (by simp)
      exact this _ (by simp) hq
  obtain ⟨c, k1, d1, c1, c2, c3, c4⟩ := maxKD_rep _ _ m hl0 hm
  have hmx : m ≠ x := fun e => hxl (e ▸ Tree.maxAddr_mem _ _ hm)
  -- the heap after the content of the biggest left child has been copied
  have hl1 : Rep (s.heap.write x (cellOf (.node la ll lk ld lr) k1 d1 (.node ra rl rk rd rr) par))
      (.node la ll lk ld lr) (some x) :=
    hl.frame fun y hy => Heap.write_other _ _ _ _ (fun e => hxl (e ▸ hy))
  obtain ⟨m', h1, f1, f2, f3, f4, f5⟩ := splice_rep (.node la ll lk ld lr) x
    (cellOf (.node la ll lk ld lr) k1 d1 (.node ra rl rk rd rr) par) true (by simp) hl1
    (Heap.write_same _ _ _) hxl hndl (by simp [SlotOf, cellOf])
  rw [hm] at f1
  simp only [Option.some.injEq] at f1
  subst f1
  refine ⟨h1, ?_, ?_, ?_⟩
  · have c1' : s.heap m = some c := by
      rw [Heap.write_other _ _ _ _ hmx] at c1; exact c1
    simp only [avl_removeNode, Heap.setContent, hx, Option.map_some', Option.some_bind,
      Heap.write_same, cellOf, Tree.ptr, ne_eq, not_false_eq_true, and_self, if_true,
      reduceCtorEq]
    simp only [cellOf, Tree.ptr] at hbig f2
    rw [hbig, hm]
    simp only [Option.some_bind, Heap.write_other _ _ _ _ hmx, c1', Heap.write_same,
      Option.map_some', Heap.write_write, c2, c3]
    rw [f2]
    rfl
  · rw [Tree.delRoot_two _ _ _ _ _ _ _ _ _ _ _ _ _ _ _ c4]
    refine ⟨?_, f3, ?_⟩
    · rw [f4]; simp [setSlot, cellOf]
    · refine hrr.frame ?_
      intro y hy
      rw [f5 y (fun hyl => hdisj hyl hy) (fun e => hxr (e ▸ hy))]
      exact Heap.write_other _ _ _ _ (fun e => hxr (e ▸ hy))
  · intro y hy
    rw [Tree.mem_addrs_node] at hy
    rw [f5 y (fun hyl => hy (Or.inr (Or.inl hyl))) (fun e => hy (Or.inl e))]
    exact Heap.write_other _ _ _ _ (fun e => hy (Or.inl e))

end AVL

namespace AVL

theorem reassignRoot_none {tree : AVLtree} {h : Heap} {x : Nat} {aux : Option Nat}
    (hroots : ∀ c, avl_getRootType tree c ≠ some x) :
    reassignRoot tree h x aux = { tree with heap := h.free x } := by
  have h1 := hroots .int
  have h2 := hroots .uint
  have h3 := hroots .double
  have h4 := hroots .string
  simp only [avl_getRootType] at h1 h2 h3 h4
  simp [reassignRoot, h1, h2, h3, h4]

theorem Tree.delRoot_ptr_of_two (x : Nat) (la : Nat) (ll : Tree) (lk : Key) (ld : Nat) (lr : Tree)
    (k : Key) (d : Nat) (ra : Nat) (rl : Tree) (rk : Key) (rd : Nat) (rr : Tree) :
    (Tree.node x (.node la ll lk ld lr) k d (.node ra rl rk rd rr)).delRoot.ptr = some x := by
  simp only [Tree.delRoot]
  split <;> rfl

/-- Removal of a node that hangs below another node `p`. -/
theorem removeNode_child {s : AVLtree} {x p : Nat} {l r : Tree} {k : Key} {d : Nat}
    {pc : AVLtree_sub} {isLeft : Bool} {fuel : Nat}
    (hr : Rep s.heap (.node x l k d r) (some p)) (hp : s.heap p = some pc)
    (hpn : p ∉ (Tree.node x l k d r).addrs) (hnd : (Tree.node x l k d r).addrs.Nodup)
    (hs : SlotOf pc (.node x l k d r) isLeft) (hroots : ∀ c, avl_getRootType s c ≠ some x)
    (hf : (Tree.node x l k d r).height ≤ fuel) :
    ∃ h1, avl_removeNode fuel s x = some { s with heap := h1 } ∧
      Rep h1 (Tree.node x l k d r).delRoot (some p) ∧
      h1 p = some (setSlot pc (Tree.node x l k d r).delRoot.ptr isLeft) ∧
      ∀ y, y ∉ (Tree.node x l k d r).addrs → y ≠ p → h1 y = s.heap y := by
  have hpx : p ≠ x := fun e => hpn (by rw [Tree.mem_addrs_node]; exact Or.inl e)
  have hxp : x ≠ p := fun e => hpx e.symm
  have hxL : isLeft = false → pc.Lchild ≠ some x := by
    intro e; subst e
    simp only [SlotOf, Bool.false_eq_true, if_false] at hs
    exact hs.2 x (by rw [Tree.mem_addrs_node]; exact Or.inl rfl)
  have hxL' : isLeft = true → pc.Lchild = some x := by
    intro e; subst e
    simpa [SlotOf, Tree.ptr] using hs
  cases l with
  | nil =>
    cases r with
    | nil =>
      obtain ⟨hx, _, _⟩ := hr
      cases isLeft
      · refine ⟨(((s.heap.write x { cellOf .nil k d .nil (some p) with ID := none, data := none }).write
            p { pc with Rchild := none })).free x, ?_, trivial, ?_, ?_⟩
        · have := hxL rfl
          simp [avl_removeNode, Heap.setContent, hx, cellOf, Tree.ptr, Heap.write, hpx, hxp, hp,
            this, Heap.setRchild]
        · simp [Heap.free, Heap.write, hpx, setSlot, Tree.delRoot, Tree.ptr]
        · intro y hy hyp
          have hyx : y ≠ x := fun e => hy (by rw [Tree.mem_addrs_node]; exact Or.inl e)
          simp [Heap.free, Heap.write, hyx, hyp]
      · refine ⟨(((s.heap.write x { cellOf .nil k d .nil (some p) with ID := none, data := none }).write
            p { pc with Lchild := none })).free x, ?_, trivial, ?_, ?_⟩
        · have := hxL' rfl
          simp [avl_removeNode, Heap.setContent, hx, cellOf, Tree.ptr, Heap.write, hpx, hxp, hp,
            this, Heap.setLchild]
        · simp [Heap.free, Heap.write, hpx, setSlot, Tree.delRoot, Tree.ptr]
        · intro y hy hyp
          have hyx : y ≠ x := fun e => hy (by rw [Tree.mem_addrs_node]; exact Or.inl e)
          simp [Heap.free, Heap.write, hyx, hyp]
    | node ra rl rk rd rr =>
      obtain ⟨hx, _, hrr⟩ := hr
      rw [Tree.nodup_node] at hnd
      obtain ⟨⟨_, hxr⟩, _, hndr, _⟩ := hnd
      have hra : ra ≠ x := fun e => hxr (by rw [Tree.mem_addrs_node]; exact Or.inl e.symm)
      have hxra : x ≠ ra := fun e => hra e.symm
      have hrp : ra ≠ p := fun e => hpn (by
        rw [Tree.mem_addrs_node, Tree.mem_addrs_node]; exact Or.inr (Or.inr (Or.inl e.symm)))
      have hpr : p ≠ ra := fun e => hrp e.symm
      have hrep : Rep (s.heap.write ra (cellOf rl rk rd rr (some p))) (.node ra rl rk rd rr)
          (some p) := hrr.reparent hndr
      have hrc := hrr.1
      have hfr : ∀ y ∈ (Tree.node ra rl rk rd rr).addrs, y ≠ x ∧ y ≠ p := by
        intro y hy
        exact ⟨fun e => hxr (e ▸ hy), fun e => hpn (by
          rw [Tree.mem_addrs_node]; exact Or.inr (Or.inr (e ▸ hy)))⟩
      cases isLeft
      · refine ⟨((((s.heap.write x { cellOf .nil k d (.node ra rl rk rd rr) (some p) with
            ID := none, data := none }).write ra (cellOf rl rk rd rr (some p))).write
            p { pc with Rchild := some ra })).free x, ?_, ?_, ?_, ?_⟩
        · have := hxL rfl
          rw [← @reassignRoot_none _ _ _ none hroots]
          simp [avl_removeNode, Heap.setContent, hx, cellOf, Tree.ptr, Heap.write, hpx, hxp, hp,
            this, Heap.setRchild, Heap.setParent, hra, hxra, hrp, hpr, hrc]
        · simp only [Tree.delRoot]
          refine Rep.frame (h := s.heap.write ra (cellOf rl rk rd rr (some p))) hrep ?_
          intro y hy
          obtain ⟨h1, h2⟩ := hfr y hy
          by_cases e : y = ra <;> simp [Heap.free, Heap.write, h1, h2, e, hra, hrp]
        · simp [Heap.free, Heap.write, hpx, setSlot, Tree.delRoot, Tree.ptr]
        · intro y hy hyp
          rw [Tree.mem_addrs_node, Tree.mem_addrs_node] at hy
          have hyx : y ≠ x := fun e => hy (Or.inl e)
          have hyr : y ≠ ra := fun e => hy (Or.inr (Or.inr (Or.inl e)))
          simp [Heap.free, Heap.write, hyx, hyp, hyr]
      · refine ⟨((((s.heap.write x { cellOf .nil k d (.node ra rl rk rd rr) (some p) with
            ID := none, data := none }).write ra (cellOf rl rk rd rr (some p))).write
            p { pc with Lchild := some ra })).free x, ?_, ?_, ?_, ?_⟩
        · have := hxL' rfl
          rw [← @reassignRoot_none _ _ _ none hroots]
          simp [avl_removeNode, Heap.setContent, hx, cellOf, Tree.ptr, Heap.write, hpx, hxp, hp,
            this, Heap.setLchild, Heap.setParent, hra, hxra, hrp, hpr, hrc]
        · simp only [Tree.delRoot]
          refine Rep.frame (h := s.heap.write ra (cellOf rl rk rd rr (some p))) hrep ?_
          intro y hy
          obtain ⟨h1, h2⟩ := hfr y hy
          by_cases e : y = ra <;> simp [Heap.free, Heap.write, h1, h2, e, hra, hrp]
        · simp [Heap.free, Heap.write, hpx, setSlot, Tree.delRoot, Tree.ptr]
        · intro y hy hyp
          rw [Tree.mem_addrs_node, Tree.mem_addrs_node] at hy
          have hyx : y ≠ x := fun e => hy (Or.inl e)
          have hyr : y ≠ ra := fun e => hy (Or.inr (Or.inr (Or.inl e)))
          simp [Heap.free, Heap.write, hyx, hyp, hyr]
  | node la ll lk ld lr =>
    cases r with
    | nil =>
      obtain ⟨hx, hl, _⟩ := hr
      rw [Tree.nodup_node] at hnd
      obtain ⟨⟨hxl, _⟩, hndl, _, _⟩ := hnd
      have hla : la ≠ x := fun e => hxl (by rw [Tree.mem_addrs_node]; exact Or.inl e.symm)
      have hxla : x ≠ la := fun e => hla e.symm
      have hlp : la ≠ p := fun e => hpn (by
        rw [Tree.mem_addrs_node, Tree.mem_addrs_node]; exact Or.inr (Or.inl (Or.inl e.symm)))
      have hpl : p ≠ la := fun e => hlp e.symm
      have hrep : Rep (s.heap.write la (cellOf ll lk ld lr (some p))) (.node la ll lk ld lr)
          (some p) := hl.reparent hndl
      have hlc := hl.1
      have hfr : ∀ y ∈ (Tree.node la ll lk ld lr).addrs, y ≠ x ∧ y ≠ p := by
        intro y hy
        exact ⟨fun e => hxl (e ▸ hy), fun e => hpn (by
          rw [Tree.mem_addrs_node]; exact Or.inr (Or.inl (e ▸ hy)))⟩
      cases isLeft
      · refine ⟨((((s.heap.write x { cellOf (.node la ll lk ld lr) k d .nil (some p) with
            ID := none, data := none }).write la (cellOf ll lk ld lr (some p))).write
            p { pc with Rchild := some la })).free x, ?_, ?_, ?_, ?_⟩
        · have := hxL rfl
          rw [← @reassignRoot_none _ _ _ none hroots]
          simp [avl_removeNode, Heap.setContent, hx, cellOf, Tree.ptr, Heap.write, hpx, hxp, hp,
            this, Heap.setRchild, Heap.setParent, hla, hxla, hlp, hpl, hlc]
        · simp only [Tree.delRoot]
          refine Rep.frame (h := s.heap.write la (cellOf ll lk ld lr (some p))) hrep ?_
          intro y hy
          obtain ⟨h1, h2⟩ := hfr y hy
          by_cases e : y = la <;> simp [Heap.free, Heap.write, h1, h2, e, hla, hlp]
        · simp [Heap.free, Heap.write, hpx, setSlot, Tree.delRoot, Tree.ptr]
        · intro y hy hyp
          rw [Tree.mem_addrs_node, Tree.mem_addrs_node] at hy
          have hyx : y ≠ x := fun e => hy (Or.inl e)
          have hyr : y ≠ la := fun e => hy (Or.inr (Or.inl (Or.inl e)))
          simp [Heap.free, Heap.write, hyx, hyp, hyr]
      · refine ⟨((((s.heap.write x { cellOf (.node la ll lk ld lr) k d .nil (some p) with
            ID := none, data := none }).write la (cellOf ll lk ld lr (some p))).write
            p { pc with Lchild := some la })).free x, ?_, ?_, ?_, ?_⟩
        · have := hxL' rfl
          rw [← @reassignRoot_none _ _ _ none hroots]
          simp [avl_removeNode, Heap.setContent, hx, cellOf, Tree.ptr, Heap.write, hpx, hxp, hp,
            this, Heap.setLchild, Heap.setParent, hla, hxla, hlp, hpl, hlc]
        · simp only [Tree.delRoot]
          refine Rep.frame (h := s.heap.write la (cellOf ll lk ld lr (some p))) hrep ?_
          intro y hy
          obtain ⟨h1, h2⟩ := hfr y hy
          by_cases e : y = la <;> simp [Heap.free, Heap.write, h1, h2, e, hla, hlp]
        · simp [Heap.free, Heap.write, hpx, setSlot, Tree.delRoot, Tree.ptr]
        · intro y hy hyp
          rw [Tree.mem_addrs_node, Tree.mem_addrs_node] at hy
          have hyx : y ≠ x := fun e => hy (Or.inl e)
          have hyr : y ≠ la := fun e => hy (Or.inr (Or.inl (Or.inl e)))
          simp [Heap.free, Heap.write, hyx, hyp, hyr]
    | node ra rl rk rd rr =>
      obtain ⟨h1, e1, e2, e3⟩ := removeNode_two hr hnd hf
      refine ⟨h1, e1, e2, ?_, fun y hy _ => e3 y hy⟩
      rw [e3 p hpn, hp, Tree.delRoot_ptr_of_two]
      have := setSlot_same hs
      simpa [Tree.ptr] using congrArg some this.symm

end AVL

namespace AVL

theorem reassignRoot_root {s : AVLtree} {h : Heap} {x : Nat} {aux : Option Nat} {c : Category}
    (hc : c ≠ .unsupported) (hroot : avl_getRootType s c = some x)
    (hothers : ∀ c1, c1 ≠ c → avl_getRootType s c1 ≠ some x) :
    avl_getRootType (reassignRoot s h x aux) c = aux ∧
      (∀ c1, c1 ≠ c → avl_getRootType (reassignRoot s h x aux) c1 = avl_getRootType s c1) ∧
      (reassignRoot s h x aux).heap = h.free x ∧ (reassignRoot s h x aux).next = s.next := by
  cases c with
  | unsupported => exact absurd rfl hc
  | int =>
    simp only [avl_getRootType] at hroot
    refine ⟨by simp [reassignRoot, hroot, avl_getRootType], ?_, by simp [reassignRoot, hroot],
      by simp [reassignRoot, hroot]⟩
    intro c1 h1
    cases c1 <;> simp [reassignRoot, hroot, avl_getRootType] at h1 ⊢
  | uint =>
    have h1 := hothers .int (by decide)
    simp only [avl_getRootType] at hroot h1
    refine ⟨by simp [reassignRoot, hroot, h1, avl_getRootType], ?_,
      by simp [reassignRoot, hroot, h1], by simp [reassignRoot, hroot, h1]⟩
    intro c1 hc1
    cases c1 <;> simp [reassignRoot, hroot, h1, avl_getRootType] at hc1 ⊢
  | double =>
    have h1 := hothers .int (by decide)
    have h2 := hothers .uint (by decide)
    simp only [avl_getRootType] at hroot h1 h2
    refine ⟨by simp [reassignRoot, hroot, h1, h2, avl_getRootType], ?_,
      by simp [reassignRoot, hroot, h1, h2], by simp [reassignRoot, hroot, h1, h2]⟩
    intro c1 hc1
    cases c1 <;> simp [reassignRoot, hroot, h1, h2, avl_getRootType] at hc1 ⊢
  | string =>
    have h1 := hothers .int (by decide)
    have h2 := hothers .uint (by decide)
    have h3 := hothers .double (by decide)
    simp only [avl_getRootType] at hroot h1 h2 h3
    refine ⟨by simp [reassignRoot, hroot, h1, h2, h3, avl_getRootType], ?_,
      by simp [reassignRoot, hroot, h1, h2, h3], by simp [reassignRoot, hroot, h1, h2, h3]⟩
    intro c1 hc1
    cases c1 <;> simp [reassignRoot, hroot, h1, h2, h3, avl_getRootType] at hc1 ⊢

/-- Removal of the node that a root pointer designates. -/
theorem removeNode_root {s : AVLtree} {x : Nat} {l r : Tree} {k : Key} {d : Nat} {c : Category}
    {fuel : Nat} (hc : c ≠ .unsupported)
    (hr : Rep s.heap (.node x l k d r) (some x)) (hnd : (Tree.node x l k d r).addrs.Nodup)
    (hroot : avl_getRootType s c = some x)
    (hothers : ∀ c1, c1 ≠ c → avl_getRootType s c1 ≠ some x)
    (hf : (Tree.node x l k d r).height ≤ fuel) :
    ∃ s1 root1, avl_removeNode fuel s x = some s1 ∧ avl_getRootType s1 c = some root1 ∧
      (∀ c1, c1 ≠ c → avl_getRootType s1 c1 = avl_getRootType s c1) ∧ s1.next = s.next ∧
      RepRoot s1.heap root1 (Tree.node x l k d r).delRoot ∧
      root1 ∈ (Tree.node x l k d r).addrs ∧
      ∀ y, y ∉ (Tree.node x l k d r).addrs → s1.heap y = s.heap y := by
  have hxmem : x ∈ (Tree.node x l k d r).addrs := by
    rw [Tree.mem_addrs_node]; exact Or.inl rfl
  cases l with
  | nil =>
    cases r with
    | nil =>
      obtain ⟨hx, _, _⟩ := hr
      refine ⟨{ s with heap := (s.heap.write x { cellOf .nil k d .nil (some x) with
          ID := none, data := none }).write x (rootCell x) }, x, ?_, hroot, fun _ _ => rfl, rfl,
          ?_, hxmem, ?_⟩
      · simp [avl_removeNode, Heap.setContent, hx, cellOf, Tree.ptr, Heap.write, Heap.setIsLeaf,
          rootCell, calloc_sub]
      · simp [RepRoot, Tree.delRoot, Heap.write]
      · intro y hy
        have hyx : y ≠ x := fun e => hy (e ▸ hxmem)
        simp [Heap.write, hyx]
    | node ra rl rk rd rr =>
      obtain ⟨hx, _, hrr⟩ := hr
      rw [Tree.nodup_node] at hnd
      obtain ⟨⟨_, hxr⟩, _, hndr, _⟩ := hnd
      have hra : ra ≠ x := fun e => hxr (by rw [Tree.mem_addrs_node]; exact Or.inl e.symm)
      have hxa : x ≠ ra := fun e => hra e.symm
      have hrep : Rep (s.heap.write ra (cellOf rl rk rd rr (some ra))) (.node ra rl rk rd rr)
          (some ra) := hrr.reparent hndr
      have hrc := hrr.1
      obtain ⟨g1, g2, g3, g4⟩ := @reassignRoot_root s
        (((s.heap.write x { cellOf .nil k d (.node ra rl rk rd rr) (some x) with
            ID := none, data := none }).write ra (cellOf rl rk rd rr (some ra))).write x
            { cellOf .nil k d (.node ra rl rk rd rr) (some x) with
              ID := none, data := none, Rchild := some ra })
        x (some ra) c hc hroot hothers
      refine ⟨_, ra, ?_, g1, g2, g4, ?_, ?_, ?_⟩
      · simp [avl_removeNode, Heap.setContent, hx, cellOf, Tree.ptr, Heap.write, hra, hxa,
          Heap.setRchild, Heap.setParent, hrc]
      · rw [g3]
        simp only [Tree.delRoot, RepRoot, true_and]
        refine Rep.frame (h := s.heap.write ra (cellOf rl rk rd rr (some ra))) hrep ?_
        intro y hy
        have hyx : y ≠ x := fun e => hxr (e ▸ hy)
        by_cases e : y = ra <;> simp [Heap.free, Heap.write, hyx, e, hra]
      · rw [Tree.mem_addrs_node, Tree.mem_addrs_node]; exact Or.inr (Or.inr (Or.inl rfl))
      · intro y hy
        rw [g3]
        rw [Tree.mem_addrs_node, Tree.mem_addrs_node] at hy
        have hyx : y ≠ x := fun e => hy (Or.inl e)
        have hyr : y ≠ ra := fun e => hy (Or.inr (Or.inr (Or.inl e)))
        simp [Heap.free, Heap.write, hyx, hyr]
  | node la ll lk ld lr =>
    cases r with
    | nil =>
      obtain ⟨hx, hl, _⟩ := hr
      rw [Tree.nodup_node] at hnd
      obtain ⟨⟨hxl, _⟩, hndl, _, _⟩ := hnd
      have hla : la ≠ x := fun e => hxl (by rw [Tree.mem_addrs_node]; exact Or.inl e.symm)
      have hxa : x ≠ la := fun e => hla e.symm
      have hrep : Rep (s.heap.write la (cellOf ll lk ld lr (some la))) (.node la ll lk ld lr)
          (some la) := hl.reparent hndl
      have hlc := hl.1
      obtain ⟨g1, g2, g3, g4⟩ := @reassignRoot_root s
        (((s.heap.write x { cellOf (.node la ll lk ld lr) k d .nil (some x) with
            ID := none, data := none }).write la (cellOf ll lk ld lr (some la))).write x
            { cellOf (.node la ll lk ld lr) k d .nil (some x) with
              ID := none, data := none, Rchild := some la })
        x (some la) c hc hroot hothers
      refine ⟨_, la, ?_, g1, g2, g4, ?_, ?_, ?_⟩
      · simp [avl_removeNode, Heap.setContent, hx, cellOf, Tree.ptr, Heap.write, hla, hxa,
          Heap.setRchild, Heap.setParent, hlc]
      · rw [g3]
        simp only [Tree.delRoot, RepRoot, true_and]
        refine Rep.frame (h := s.heap.write la (cellOf ll lk ld lr (some la))) hrep ?_
        intro y hy
        have hyx : y ≠ x := fun e => hxl (e ▸ hy)
        by_cases e : y = la <;> simp [Heap.free, Heap.write, hyx, e, hla]
      · rw [Tree.mem_addrs_node, Tree.mem_addrs_node]; exact Or.inr (Or.inl (Or.inl rfl))
      · intro y hy
        rw [g3]
        rw [Tree.mem_addrs_node, Tree.mem_addrs_node] at hy
        have hyx : y ≠ x := fun e => hy (Or.inl e)
        have hyr : y ≠ la := fun e => hy (Or.inr (Or.inl (Or.inl e)))
        simp [Heap.free, Heap.write, hyx, hyr]
    | node ra rl rk rd rr =>
      obtain ⟨h1, e1, e2, e3⟩ := removeNode_two hr hnd hf
      refine ⟨{ s with heap := h1 }, x, e1, hroot, fun _ _ => rfl, rfl, ?_, hxmem, e3⟩
      have hp := Tree.delRoot_ptr_of_two x la ll lk ld lr k d ra rl rk rd rr
      revert e2 hp
      generalize (Tree.node x (.node la ll lk ld lr) k d (.node ra rl rk rd rr)).delRoot = t
      intro e2 hp
      cases t with
      | nil => simp [Tree.ptr] at hp
      | node a _ _ _ _ =>
        simp only [Tree.ptr, Option.some.injEq] at hp
        subst hp
        exact ⟨rfl, e2⟩

end AVL

namespace AVL

namespace Tree

theorem del_not_mem (x : Nat) : ∀ t : Tree, x ∉ t.addrs → t.del x = t := by
  intro t
  induction t with
  | nil => intro _; rfl
  | node a l k d r ihl ihr =>
    intro h
    rw [mem_addrs_node] at h
    have h1 : x ≠ a := fun e => h (Or.inl e)
    simp only [del, h1, if_false, ihl (fun e => h (Or.inr (Or.inl e))),
      ihr (fun e => h (Or.inr (Or.inr e)))]

theorem del_root (x : Nat) (l : Tree) (k : Key) (d : Nat) (r : Tree) :
    (node x l k d r).del x = (node x l k d r).delRoot := by
  simp only [del, if_true]

theorem del_ne {x a : Nat} (h : x ≠ a) (l : Tree) (k : Key) (d : Nat) (r : Tree) :
    (node a l k d r).del x = node a (l.del x) k d (r.del x) := by
  simp only [del, h, if_false]

end Tree

/-- Removal of a node strictly below the root of a represented tree. -/
theorem removeNode_inner {s : AVLtree} {x : Nat} {fuel : Nat}
    (hroots : ∀ c, avl_getRootType s c ≠ some x) :
    ∀ (t : Tree) (par : Option Nat), Rep s.heap t par → t.addrs.Nodup → x ∈ t.addrs →
      t.ptr ≠ some x → t.height ≤ fuel →
      ∃ h1, avl_removeNode fuel s x = some { s with heap := h1 } ∧ Rep h1 (t.del x) par ∧
        (t.del x).ptr = t.ptr ∧ ∀ y, y ∉ t.addrs → h1 y = s.heap y := by
  intro t
  induction t with
  | nil => intro par _ _ hx; simp [Tree.addrs] at hx
  | node a l k d r ihl ihr =>
    intro par hr hnd hx hpx hf
    have hxa : x ≠ a := fun e => hpx (by simp [Tree.ptr, e])
    obtain ⟨ha, hl, hrr⟩ := hr
    rw [Tree.nodup_node] at hnd
    obtain ⟨⟨hal, har⟩, hndl, hndr, hdisj⟩ := hnd
    rw [Tree.mem_addrs_node] at hx
    simp only [Tree.height] at hf
    rw [Tree.del_ne hxa]
    rcases hx with hx | hx | hx
    · exact absurd hx hxa
    · -- the node is in the left subtree
      have hxr : x ∉ r.addrs := fun e => hdisj hx e
      rw [Tree.del_not_mem x r hxr]
      by_cases hpl : l.ptr = some x
      · cases l with
        | nil => simp [Tree.ptr] at hpl
        | node la ll lk ld lr =>
          simp only [Tree.ptr, Option.some.injEq] at hpl
          subst hpl
          obtain ⟨h1, e1, e2, e3, e4⟩ := @removeNode_child _ _ _ _ _ _ _ _ true fuel hl ha hal
            hndl (by simp [SlotOf, cellOf]) hroots (by omega)
          refine ⟨h1, e1, ⟨?_, ?_, ?_⟩, rfl, ?_⟩
          · rw [e3, Tree.del_root]; simp [setSlot, cellOf]
          · rw [Tree.del_root]; exact e2
          · refine hrr.frame ?_
            intro y hy
            exact e4 y (fun e => hdisj e hy) (fun e => har (e ▸ hy))
          · intro y hy
            rw [Tree.mem_addrs_node] at hy
            exact e4 y (fun e => hy (Or.inr (Or.inl e))) (fun e => hy (Or.inl e))
      · obtain ⟨h1, e1, e2, e3, e4⟩ := ihl (some a) hl hndl hx hpl (by omega)
        refine ⟨h1, e1, ⟨?_, e2, ?_⟩, rfl, ?_⟩
        · rw [e4 a hal, ha]; simp [cellOf, e3]
        · exact hrr.frame fun y hy => e4 y (fun e => hdisj e hy)
        · intro y hy
          rw [Tree.mem_addrs_node] at hy
          exact e4 y (fun e => hy (Or.inr (Or.inl e)))
    · -- the node is in the right subtree
      have hxl : x ∉ l.addrs := fun e => hdisj e hx
      rw [Tree.del_not_mem x l hxl]
      by_cases hpr : r.ptr = some x
      · cases r with
        | nil => simp [Tree.ptr] at hpr
        | node ra rl rk rd rr =>
          simp only [Tree.ptr, Option.some.injEq] at hpr
          subst hpr
          have hslot : SlotOf (cellOf l k d (.node ra rl rk rd rr) par)
              (.node ra rl rk rd rr) false := by
            simp only [SlotOf, Bool.false_eq_true, if_false, cellOf, true_and]
            intro y hy e
            exact hdisj (Tree.ptr_mem_addrs e) hy
          obtain ⟨h1, e1, e2, e3, e4⟩ := @removeNode_child _ _ _ _ _ _ _ _ false fuel hrr ha
            har hndr hslot hroots (by omega)
          refine ⟨h1, e1, ⟨?_, ?_, ?_⟩, rfl, ?_⟩
          · rw [e3, Tree.del_root]; simp [setSlot, cellOf]
          · refine hl.frame ?_
            intro y hy
            exact e4 y (fun e => hdisj hy e) (fun e => hal (e ▸ hy))
          · rw [Tree.del_root]; exact e2
          · intro y hy
            rw [Tree.mem_addrs_node] at hy
            exact e4 y (fun e => hy (Or.inr (Or.inr e))) (fun e => hy (Or.inl e))
      · obtain ⟨h1, e1, e2, e3, e4⟩ := ihr (some a) hrr hndr hx hpr (by omega)
        refine ⟨h1, e1, ⟨?_, ?_, e2⟩, rfl, ?_⟩
        · rw [e4 a har, ha]; simp [cellOf, e3]
        · exact hl.frame fun y hy => e4 y (fun e => hdisj hy e)
        · intro y hy
          rw [Tree.mem_addrs_node] at hy
          exact e4 y (fun e => hy (Or.inr (Or.inr e)))

end AVL

namespace AVL

/-! ## The order of the keys -/

theorem Key.valid_str {s : List Nat} (h : (Key.str s).valid = true) : validStr s := by
  intro b hb
  simp only [Key.valid, List.all_eq_true, decide_eq_true_eq] at h
  exact h b hb

theorem validStr_cons {a : Nat} {s : List Nat} (h : validStr (a :: s)) :
    (0 < a ∧ a < 256) ∧ validStr s :=
  ⟨h a (by simp), fun b hb => h b (by simp [hb])⟩

theorem strcmp_bounds : ∀ (a b : List Nat), validStr a → validStr b →
    -255 ≤ strcmp a b ∧ strcmp a b ≤ 255 := by
  intro a
  induction a with
  | nil =>
    intro b _ hb
    cases b with
    | nil => simp [strcmp]
    | cons y ys =>
      have := (validStr_cons hb).1
      simp only [strcmp]; omega
  | cons x xs ih =>
    intro b ha hb
    have hx := (validStr_cons ha).1
    cases b with
    | nil => simp only [strcmp]; omega
    | cons y ys =>
      have hy := (validStr_cons hb).1
      simp only [strcmp]
      split
      · exact ih ys (validStr_cons ha).2 (validStr_cons hb).2
      · omega

theorem strcmp_eq_zero : ∀ (a b : List Nat), validStr a → validStr b → strcmp a b = 0 → a = b := by
  intro a
  induction a with
  | nil =>
    intro b _ hb h
    cases b with
    | nil => rfl
    | cons y ys =>
      have := (validStr_cons hb).1
      simp only [strcmp] at h; omega
  | cons x xs ih =>
    intro b ha hb h
    have hx := (validStr_cons ha).1
    cases b with
    | nil => simp only [strcmp] at h; omega
    | cons y ys =>
      simp only [strcmp] at h
      split at h
      · rename_i e
        rw [e, ih ys (validStr_cons ha).2 (validStr_cons hb).2 h]
      · omega

theorem strcmp_self : ∀ a : List Nat, strcmp a a = 0 := by
  intro a
  induction a with
  | nil => rfl
  | cons x xs ih => simp [strcmp, ih]

theorem strcmp_trans : ∀ (a b c : List Nat), validStr a → strcmp a b > 0 → strcmp b c > 0 →
    strcmp a c > 0 := by
  intro a
  induction a with
  | nil =>
    intro b c _ h1 _
    cases b <;> simp only [strcmp] at h1 <;> omega
  | cons x xs ih =>
    intro b c ha h1 h2
    have hx := (validStr_cons ha).1
    cases b with
    | nil => cases c <;> simp only [strcmp] at h2 <;> omega
    | cons y ys =>
      cases c with
      | nil => simp only [strcmp]; omega
      | cons z zs =>
        simp only [strcmp] at h1 h2 ⊢
        by_cases e1 : x = y
        · subst e1
          by_cases e2 : x = z
          · subst e2
            simp only [if_true] at h1 h2 ⊢
            exact ih ys zs (validStr_cons ha).2 h1 h2
          · simp only [e2, if_true, if_false] at h1 h2 ⊢
            exact h2
        · by_cases e2 : y = z
          · subst e2
            simp only [e1, if_true, if_false] at h1 h2 ⊢
            exact h1
          · simp only [e1, e2, if_false] at h1 h2 ⊢
            have : x ≠ z := by omega
            simp only [this, if_false]
            omega

theorem strcmp_asymm : ∀ (a b : List Nat), strcmp a b > 0 → ¬ strcmp b a > 0 := by
  intro a
  induction a with
  | nil => intro b h; cases b <;> simp only [strcmp] at h <;> omega
  | cons x xs ih =>
    intro b h
    cases b with
    | nil => simp only [strcmp]; omega
    | cons y ys =>
      simp only [strcmp] at h ⊢
      by_cases e : x = y
      · subst e
        simp only [if_true] at h ⊢
        exact ih ys h
      · have e' : ¬ y = x := fun q => e q.symm
        simp only [e, e', if_false] at h ⊢
        omega

theorem strcmp_gt_of_gt_of_not : ∀ (y n p : List Nat), validStr y → validStr p →
    strcmp y n > 0 → ¬ strcmp p n > 0 → strcmp y p > 0 := by
  intro y
  induction y with
  | nil => intro n p _ _ h; cases n <;> simp only [strcmp] at h <;> omega
  | cons a as ih =>
    intro n p hy hp h1 h2
    have ha := (validStr_cons hy).1
    cases p with
    | nil => simp only [strcmp]; omega
    | cons b bs =>
      have hb := (validStr_cons hp).1
      cases n with
      | nil => simp only [strcmp] at h2; omega
      | cons c cs =>
        simp only [strcmp] at h1 h2 ⊢
        by_cases e1 : a = c
        · subst e1
          by_cases e2 : b = a
          · subst e2
            simp only [if_true] at h1 h2 ⊢
            exact ih cs bs (validStr_cons hy).2 (validStr_cons hp).2 h1 h2
          · have e3 : ¬ a = b := fun q => e2 q.symm
            simp only [e2, e3, if_true, if_false] at h1 h2 ⊢
            omega
        · by_cases e2 : b = c
          · subst e2
            simp only [e1, if_true, if_false] at h1 h2 ⊢
            exact h1
          · simp only [e1, e2, if_false] at h1 h2 ⊢
            have e3 : ¬ a = b := by omega
            simp only [e3, if_false]
            omega

theorem toChar_eq_zero {r : Int} (h1 : -255 ≤ r) (h2 : r ≤ 255) (h : ¬ toChar r > 0)
    (h' : ¬ toChar r < 0) : r = 0 := by
  simp only [toChar] at h h'
  omega

end AVL

namespace AVL

theorem Key.found_eq {c : Category} (hc : c ≠ .unsupported) {a b : Key} (ha : KeyOK c a)
    (hb : KeyOK c b) (h : a.searchDir b = .found) : a = b := by
  obtain ⟨ha1, ha2⟩ := ha
  obtain ⟨hb1, hb2⟩ := hb
  cases a <;> cases b <;> simp only [Key.category] at ha1 hb1 <;> subst ha1 <;>
    first
    | (exact absurd rfl hc)
    | (exact absurd hb1 (by decide))
    | skip
  · rename_i x y
    simp only [Key.searchDir] at h
    split_ifs at h with h1 h2
    congr 1; omega
  · rename_i x y
    simp only [Key.searchDir] at h
    split_ifs at h with h1 h2
    congr 1; omega
  · rename_i x y
    simp only [Key.searchDir] at h
    split_ifs at h with h1 h2
    have hx := Key.valid_str ha2
    have hy := Key.valid_str hb2
    have hb := strcmp_bounds x y hx hy
    congr 1
    exact strcmp_eq_zero x y hx hy (toChar_eq_zero hb.1 hb.2 h1 h2)

theorem Key.goesRight_trans {c : Category} {a b d : Key} (ha : KeyOK c a) (hb : KeyOK c b)
    (hd : KeyOK c d) (h1 : a.goesRight b = true) (h2 : b.goesRight d = true) :
    a.goesRight d = true := by
  obtain ⟨ha1, ha2⟩ := ha
  obtain ⟨hb1, _⟩ := hb
  obtain ⟨hd1, _⟩ := hd
  cases a <;> cases b <;> cases d <;> simp only [Key.category] at ha1 hb1 hd1 <;>
    simp only [Key.goesRight, decide_eq_true_eq, Bool.false_eq_true] at h1 h2 ⊢
  · omega
  · omega
  · exact strcmp_trans _ _ _ (Key.valid_str ha2) h1 h2

theorem Key.goesRight_asymm {a b : Key} (h1 : a.goesRight b = true) : b.goesRight a = false := by
  cases a <;> cases b <;>
    simp only [Key.goesRight, decide_eq_true_eq, decide_eq_false_iff_not, Bool.false_eq_true] at h1 ⊢
  · omega
  · omega
  · exact strcmp_asymm _ _ h1

theorem Key.goesRight_of_gt_of_not {c : Category} (hc : c ≠ .unsupported) {y n p : Key}
    (hy : KeyOK c y) (hn : KeyOK c n) (hp : KeyOK c p) (h1 : y.goesRight n = true)
    (h2 : p.goesRight n = false) : y.goesRight p = true := by
  obtain ⟨hy1, hy2⟩ := hy
  obtain ⟨hn1, _⟩ := hn
  obtain ⟨hp1, hp2⟩ := hp
  cases y <;> cases n <;> cases p <;> simp only [Key.category] at hy1 hn1 hp1 <;>
    simp only [Key.goesRight, decide_eq_true_eq, decide_eq_false_iff_not,
      Bool.false_eq_true] at h1 h2 ⊢ <;>
    first
    | omega
    | (subst hy1; exact absurd hp1 (by decide))
    | exact strcmp_gt_of_gt_of_not _ _ _ (Key.valid_str hy2) (Key.valid_str hp2) h1 h2

end AVL

namespace AVL

/-! ## Facts about the represented tree -/

namespace Tree

theorem find_some {id : Key} : ∀ (t : Tree) (a : Nat) (k : Key) (d : Nat),
    t.find id = some (a, k, d) →
    a ∈ t.addrs ∧ (k, d) ∈ t.post ∧ id.searchDir k = .found := by
  intro t
  induction t with
  | nil => intro a k d h; simp [find] at h
  | node b l kb db r ihl ihr =>
    intro a k d h
    simp only [find] at h
    cases hd : id.searchDir kb with
    | right =>
      simp only [hd] at h
      obtain ⟨h1, h2, h3⟩ := ihr a k d h
      exact ⟨by rw [mem_addrs_node]; exact Or.inr (Or.inr h1), by simp [post, h2], h3⟩
    | left =>
      simp only [hd] at h
      obtain ⟨h1, h2, h3⟩ := ihl a k d h
      exact ⟨by rw [mem_addrs_node]; exact Or.inr (Or.inl h1), by simp [post, h2], h3⟩
    | found =>
      simp only [hd, Option.some.injEq, Prod.mk.injEq] at h
      obtain ⟨h1, h2, h3⟩ := h
      subst h1 h2 h3
      exact ⟨by rw [mem_addrs_node]; exact Or.inl rfl, by simp [post], hd⟩

theorem find_ins {id : Key} (fresh : Nat) (id2 : Key) (d2 : Nat) :
    ∀ (t : Tree) (res : Nat × Key × Nat), t.find id = some res →
      (t.ins fresh id2 d2).find id = some res := by
  intro t
  induction t with
  | nil => intro res h; simp [find] at h
  | node b l kb db r ihl ihr =>
    intro res h
    simp only [find] at h
    simp only [ins]
    split <;> simp only [find] <;> cases hd : id.searchDir kb <;> simp only [hd] at h ⊢
    · exact ihr res h
    · exact h
    · exact h
    · exact h
    · exact ihl res h
    · exact h

theorem delMax_post : ∀ (l : Tree), l ≠ nil →
    ∃ k1 d1, l.maxKD = some (k1, d1) ∧ l.post.Perm ((k1, d1) :: l.delMax.post) := by
  intro l
  induction l with
  | nil => intro h; exact absurd rfl h
  | node b bl bk bd br _ ihr =>
    intro _
    cases br with
    | nil =>
      refine ⟨bk, bd, rfl, ?_⟩
      simp only [post, delMax, List.append_nil]
      exact List.perm_append_singleton _ _
    | node ra rl rk rd rr =>
      obtain ⟨k1, d1, e1, e2⟩ := ihr (by simp)
      refine ⟨k1, d1, by simpa [maxKD] using e1, ?_⟩
      have : (node b bl bk bd (node ra rl rk rd rr)).delMax =
          node b bl bk bd (node ra rl rk rd rr).delMax := rfl
      rw [this]
      simp only [post] at e2 ⊢
      have h1 : (bl.post ++ (rl.post ++ rr.post ++ [(rk, rd)]) ++ [(bk, bd)]).Perm
          (bl.post ++ ((k1, d1) :: (node ra rl rk rd rr).delMax.post) ++ [(bk, bd)]) :=
        List.Perm.append_right _ (List.Perm.append_left _ e2)
      refine h1.trans ?_
      simp only [List.append_assoc, List.cons_append]
      exact List.perm_middle

theorem delRoot_post (x : Nat) (l : Tree) (k : Key) (d : Nat) (r : Tree) :
    (node x l k d r).post.Perm ((k, d) :: (node x l k d r).delRoot.post) := by
  cases l with
  | nil =>
    cases r with
    | nil => simp [post, delRoot]
    | node ra rl rk rd rr =>
      simp only [post, delRoot, List.nil_append]
      exact List.perm_append_singleton _ _
  | node la ll lk ld lr =>
    cases r with
    | nil =>
      simp only [post, delRoot, List.append_nil]
      exact List.perm_append_singleton _ _
    | node ra rl rk rd rr =>
      obtain ⟨k1, d1, e1, e2⟩ := delMax_post (node la ll lk ld lr) (by simp)
      simp only [delRoot, e1]
      simp only [post] at e2 ⊢
      have h1 : (ll.post ++ lr.post ++ [(lk, ld)] ++ (rl.post ++ rr.post ++ [(rk, rd)]) ++
          [(k, d)]).Perm (((k1, d1) :: (node la ll lk ld lr).delMax.post) ++
          (rl.post ++ rr.post ++ [(rk, rd)]) ++ [(k, d)]) :=
        List.Perm.append_right _ (List.Perm.append_right _ e2)
      refine h1.trans ?_
      generalize (node la ll lk ld lr).delMax.post = D
      generalize rl.post ++ rr.post ++ [(rk, rd)] = R
      have s1 : ((k1, d1) :: D ++ R ++ [(k, d)]).Perm ((k1, d1) :: ((k, d) :: (D ++ R))) := by
        simp only [List.cons_append]
        exact List.Perm.cons _ (List.perm_append_singleton _ _)
      have s2 : ((k, d) :: (D ++ R ++ [(k1, d1)])).Perm ((k, d) :: ((k1, d1) :: (D ++ R))) :=
        List.Perm.cons _ (List.perm_append_singleton _ _)
      exact s1.trans ((List.Perm.swap _ _ _).trans s2.symm)

theorem find_del_post {id : Key} : ∀ (t : Tree) (a : Nat) (k : Key) (d : Nat), t.addrs.Nodup →
    t.find id = some (a, k, d) → t.post.Perm ((k, d) :: (t.del a).post) := by
  intro t
  induction t with
  | nil => intro a k d _ h; simp [find] at h
  | node b l kb db r ihl ihr =>
    intro a k d hnd h
    rw [nodup_node] at hnd
    obtain ⟨⟨hbl, hbr⟩, hndl, hndr, hdisj⟩ := hnd
    simp only [find] at h
    cases hd : id.searchDir kb with
    | right =>
      simp only [hd] at h
      have hm := (find_some r a k d h).1
      have hab : a ≠ b := fun e => hbr (e ▸ hm)
      rw [del_ne hab, del_not_mem a l (fun e => hdisj e hm)]
      have := ihr a k d hndr h
      simp only [post]
      have h1 : (l.post ++ r.post ++ [(kb, db)]).Perm
          (l.post ++ ((k, d) :: (r.del a).post) ++ [(kb, db)]) :=
        List.Perm.append_right _ (List.Perm.append_left _ this)
      refine h1.trans ?_
      simp only [List.append_assoc, List.cons_append]
      exact List.perm_middle
    | left =>
      simp only [hd] at h
      have hm := (find_some l a k d h).1
      have hab : a ≠ b := fun e => hbl (e ▸ hm)
      rw [del_ne hab, del_not_mem a r (fun e => hdisj hm e)]
      have := ihl a k d hndl h
      simp only [post]
      have h1 : (l.post ++ r.post ++ [(kb, db)]).Perm
          (((k, d) :: (l.del a).post) ++ r.post ++ [(kb, db)]) :=
        List.Perm.append_right _ (List.Perm.append_right _ this)
      simpa using h1
    | found =>
      simp only [hd, Option.some.injEq, Prod.mk.injEq] at h
      obtain ⟨h1, h2, h3⟩ := h
      subst h1 h2 h3
      rw [del_root]
      exact delRoot_post _ _ _ _ _

theorem delMax_addrs : ∀ (l : Tree), l.delMax.addrs.Sublist l.addrs := by
  intro l
  induction l with
  | nil => exact List.Sublist.refl _
  | node b bl bk bd br _ ihr =>
    cases br with
    | nil =>
      simp only [delMax, addrs, List.append_nil]
      exact List.sublist_cons_self _ _
    | node ra rl rk rd rr =>
      have : (node b bl bk bd (node ra rl rk rd rr)).delMax =
          node b bl bk bd (node ra rl rk rd rr).delMax := rfl
      rw [this]
      simp only [addrs] at ihr ⊢
      exact List.Sublist.cons₂ _ (List.Sublist.append (List.Sublist.refl _) ihr)

theorem delRoot_addrs (x : Nat) (l : Tree) (k : Key) (d : Nat) (r : Tree) :
    (node x l k d r).delRoot.addrs.Sublist (node x l k d r).addrs := by
  cases l with
  | nil =>
    cases r with
    | nil => simp [delRoot, addrs]
    | node ra rl rk rd rr =>
      simp only [delRoot, addrs, List.nil_append]
      exact List.sublist_cons_self _ _
  | node la ll lk ld lr =>
    cases r with
    | nil =>
      simp only [delRoot, addrs, List.append_nil]
      exact List.sublist_cons_self _ _
    | node ra rl rk rd rr =>
      simp only [delRoot]
      split
      · have := delMax_addrs (node la ll lk ld lr)
        simp only [addrs] at this ⊢
        exact List.Sublist.cons₂ _ (List.Sublist.append this (List.Sublist.refl _))
      · exact List.Sublist.refl _

theorem del_addrs (x : Nat) : ∀ (t : Tree), (t.del x).addrs.Sublist t.addrs := by
  intro t
  induction t with
  | nil => exact List.Sublist.refl _
  | node b l kb db r ihl ihr =>
    by_cases e : x = b
    · subst e; rw [del_root]; exact delRoot_addrs _ _ _ _ _
    · rw [del_ne e]
      simp only [addrs]
      exact List.Sublist.cons₂ _ (List.Sublist.append ihl ihr)

end Tree

end AVL

namespace AVL

namespace Tree

theorem mem_keys_ins {fresh : Nat} {id : Key} {d : Nat} {t : Tree} {x : Key} :
    x ∈ (t.ins fresh id d).keys ↔ x = id ∨ x ∈ t.keys := by
  simp only [keys]
  rw [(List.Perm.map Prod.fst (ins_post_perm fresh id d t)).mem_iff]
  simp

theorem ins_ordered (fresh : Nat) (id : Key) (d : Nat) :
    ∀ t : Tree, t.Ordered → (t.ins fresh id d).Ordered := by
  intro t
  induction t with
  | nil => intro _; simp [ins, Ordered, keys, post]
  | node a l k dd r ihl ihr =>
    intro h
    obtain ⟨h1, h2, h3, h4⟩ := h
    simp only [ins]
    by_cases hg : id.goesRight k = true
    · simp only [hg, if_true]
      refine ⟨h1, ?_, h3, ihr h4⟩
      intro x hx
      rcases mem_keys_ins.mp hx with e | e
      · rw [e]; exact hg
      · exact h2 x e
    · simp only [hg, if_false]
      refine ⟨?_, h2, ihl h3, h4⟩
      intro x hx
      rcases mem_keys_ins.mp hx with e | e
      · rw [e]; simpa using hg
      · exact h1 x e

theorem mem_keys_node {x : Key} {a : Nat} {l : Tree} {k : Key} {d : Nat} {r : Tree} :
    x ∈ (node a l k d r).keys ↔ x ∈ l.keys ∨ x ∈ r.keys ∨ x = k := by
  simp [keys_node, or_assoc]

theorem mem_keys_delMax {l : Tree} {x : Key} (h : x ∈ l.delMax.keys) : x ∈ l.keys := by
  cases l with
  | nil => simpa [delMax] using h
  | node a ll k d r =>
    obtain ⟨k1, d1, _, e2⟩ := delMax_post (node a ll k d r) (by simp)
    simp only [keys] at h ⊢
    rw [(List.Perm.map Prod.fst e2).mem_iff]
    simp only [List.map_cons, List.mem_cons]
    exact Or.inr h

theorem maxKD_mem {l : Tree} {k1 : Key} {d1 : Nat} (h : l.maxKD = some (k1, d1)) :
    k1 ∈ l.keys := by
  cases l with
  | nil => simp [maxKD] at h
  | node a ll k d r =>
    obtain ⟨k2, d2, e1, e2⟩ := delMax_post (node a ll k d r) (by simp)
    rw [h] at e1
    simp only [Option.some.injEq, Prod.mk.injEq] at e1
    simp only [keys]
    rw [(List.Perm.map Prod.fst e2).mem_iff]
    simp [e1.1]

theorem mem_keys_delRoot {t : Tree} {x : Key} (h : x ∈ t.delRoot.keys) : x ∈ t.keys := by
  cases t with
  | nil => simpa [delRoot] using h
  | node a l k d r =>
    simp only [keys] at h ⊢
    rw [(List.Perm.map Prod.fst (delRoot_post a l k d r)).mem_iff]
    simp only [List.map_cons, List.mem_cons]
    exact Or.inr h

theorem mem_keys_del {a : Nat} : ∀ {t : Tree} {x : Key}, x ∈ (t.del a).keys → x ∈ t.keys := by
  intro t
  induction t with
  | nil => intro x h; simpa [del] using h
  | node b l kb db r ihl ihr =>
    intro x h
    by_cases e : a = b
    · subst e; rw [del_root] at h; exact mem_keys_delRoot h
    · rw [del_ne e, mem_keys_node] at h
      rw [mem_keys_node]
      rcases h with h | h | h
      · exact Or.inl (ihl h)
      · exact Or.inr (Or.inl (ihr h))
      · exact Or.inr (Or.inr h)

theorem AllOK_node {c : Category} {a : Nat} {l : Tree} {k : Key} {d : Nat} {r : Tree}
    (h : AllOK c (node a l k d r)) : AllOK c l ∧ AllOK c r ∧ KeyOK c k :=
  ⟨fun x hx => h x (mem_keys_node.mpr (Or.inl hx)),
   fun x hx => h x (mem_keys_node.mpr (Or.inr (Or.inl hx))),
   h k (mem_keys_node.mpr (Or.inr (Or.inr rfl)))⟩

theorem delMax_ordered : ∀ l : Tree, l.Ordered → l.delMax.Ordered := by
  intro l
  induction l with
  | nil => intro h; exact h
  | node b bl bk bd br _ ihr =>
    intro h
    obtain ⟨h1, h2, h3, h4⟩ := h
    cases br with
    | nil => exact h3
    | node ra rl rk rd rr =>
      have : (node b bl bk bd (node ra rl rk rd rr)).delMax =
          node b bl bk bd (node ra rl rk rd rr).delMax := rfl
      rw [this]
      exact ⟨h1, fun x hx => h2 x (mem_keys_delMax hx), h3, ihr h4⟩

theorem delMax_le_max {c : Category} : ∀ (l : Tree) (k1 : Key) (d1 : Nat), AllOK c l →
    l.Ordered → l.maxKD = some (k1, d1) → ∀ x ∈ l.delMax.keys, x.goesRight k1 = false := by
  intro l
  induction l with
  | nil => intro k1 d1 _ _ h; simp [maxKD] at h
  | node b bl bk bd br _ ihr =>
    intro k1 d1 hok ho hm x hx
    obtain ⟨h1, h2, h3, h4⟩ := ho
    obtain ⟨okl, okr, okb⟩ := AllOK_node hok
    cases br with
    | nil =>
      simp only [maxKD, Option.some.injEq, Prod.mk.injEq] at hm
      rw [← hm.1]
      exact h1 x hx
    | node ra rl rk rd rr =>
      have hm' : (node ra rl rk rd rr).maxKD = some (k1, d1) := by simpa [maxKD] using hm
      have this : (node b bl bk bd (node ra rl rk rd rr)).delMax =
          node b bl bk bd (node ra rl rk rd rr).delMax := rfl
      rw [this, mem_keys_node] at hx
      have hk1 : k1 ∈ (node ra rl rk rd rr).keys := maxKD_mem hm'
      have hgt : k1.goesRight bk = true := h2 k1 hk1
      rcases hx with hx | hx | hx
      · -- a key of the left subtree
        by_contra hc
        have hc' : x.goesRight k1 = true := by simpa using hc
        have := Key.goesRight_trans (okl x hx) (okr k1 hk1) okb hc' hgt
        rw [h1 x hx] at this
        exact absurd this (by decide)
      · exact ihr k1 d1 okr h4 hm' x hx
      · rw [hx]; exact Key.goesRight_asymm hgt

theorem delRoot_ordered {c : Category} (hc : c ≠ .unsupported) (t : Tree) (hok : AllOK c t)
    (ho : t.Ordered) : t.delRoot.Ordered := by
  cases t with
  | nil => exact ho
  | node x l k d r =>
    obtain ⟨h1, h2, h3, h4⟩ := ho
    obtain ⟨okl, okr, okx⟩ := AllOK_node hok
    cases l with
    | nil =>
      cases r with
      | nil => simp [delRoot, Ordered]
      | node ra rl rk rd rr => exact h4
    | node la ll lk ld lr =>
      cases r with
      | nil => exact h3
      | node ra rl rk rd rr =>
        obtain ⟨k1, d1, e1, _⟩ := delMax_post (node la ll lk ld lr) (by simp)
        simp only [delRoot, e1]
        have hk1 : k1 ∈ (node la ll lk ld lr).keys := maxKD_mem e1
        refine ⟨delMax_le_max _ k1 d1 okl h3 e1, ?_, delMax_ordered _ h3, h4⟩
        intro y hy
        exact Key.goesRight_of_gt_of_not hc (okr y hy) okx (okl k1 hk1) (h2 y hy) (h1 k1 hk1)

theorem del_ordered {c : Category} (hc : c ≠ .unsupported) (a : Nat) :
    ∀ t : Tree, AllOK c t → t.Ordered → (t.del a).Ordered := by
  intro t
  induction t with
  | nil => intro _ h; exact h
  | node b l kb db r ihl ihr =>
    intro hok ho
    by_cases e : a = b
    · subst e; rw [del_root]; exact delRoot_ordered hc _ hok ho
    · rw [del_ne e]
      obtain ⟨h1, h2, h3, h4⟩ := ho
      obtain ⟨okl, okr, _⟩ := AllOK_node hok
      exact ⟨fun x hx => h1 x (mem_keys_del hx), fun x hx => h2 x (mem_keys_del hx),
        ihl okl h3, ihr okr h4⟩

end Tree

end AVL

namespace AVL

/-! ## The invariant holds of every reachable container -/

theorem inv_create : Inv avl_createTree R0 (fun _ => .nil) := by
  constructor
  · intro c hc
    cases c
    case unsupported => exact absurd rfl hc
    all_goals
      constructor
      · rfl
      · simp [RepRoot, avl_createTree, R0]
      · simp [Tree.addrs]
      · simp [avl_createTree, R0]
      · simp [Tree.addrs]
      · intro k hk; simp [Tree.keys, Tree.post] at hk
      · trivial
      · simp [Tree.size, avl_createTree]
      · simp [avl_createTree]
  · intro c c1 hc hc1 hne x hx
    cases c <;> cases c1 <;> simp [foot, R0, Tree.addrs] at hx hne hc hc1 ⊢ <;> omega

theorem RepRoot.frame_root {h h1 : Heap} {root : Nat} {t : Tree} (hr : RepRoot h root t)
    (hf : ∀ a ∈ foot root t, h1 a = h a) : RepRoot h1 root t := by
  cases t with
  | nil =>
    simp only [RepRoot] at hr ⊢
    rw [hf root (by simp [foot])]; exact hr
  | node a l k d r =>
    obtain ⟨e, hr⟩ := hr
    exact ⟨e, hr.frame fun x hx => hf x (by simp [foot, hx])⟩

theorem SubInv.frame_sub {s s1 : AVLtree} {c : Category} {root : Nat} {t : Tree}
    (hs : SubInv s c root t) (hroot : avl_getRootType s1 c = avl_getRootType s c)
    (hf : ∀ a ∈ foot root t, s1.heap a = s.heap a) (hn : s.next ≤ s1.next) :
    SubInv s1 c root t :=
  { root_eq := hroot.trans hs.root_eq
    rep := hs.rep.frame_root hf
    nodup := hs.nodup
    root_lt := lt_of_lt_of_le hs.root_lt hn
    addr_lt := fun a ha => lt_of_lt_of_le (hs.addr_lt a ha) hn
    ok := hs.ok
    ordered := hs.ordered
    size := le_trans hs.size hn
    next_ge := le_trans hs.next_ge hn }

theorem SubInv.root_mem {s : AVLtree} {c : Category} {root : Nat} {t : Tree}
    (_hs : SubInv s c root t) : root ∈ foot root t := by simp [foot]

theorem SubInv.foot_lt {s : AVLtree} {c : Category} {root : Nat} {t : Tree}
    (hs : SubInv s c root t) : ∀ x ∈ foot root t, x < s.next := by
  intro x hx
  simp only [foot, List.mem_cons] at hx
  rcases hx with e | e
  · rw [e]; exact hs.root_lt
  · exact hs.addr_lt x e

theorem Inv.roots_ne {s : AVLtree} {R : Category → Nat} {T : Category → Tree} (hI : Inv s R T)
    {c c1 : Category} (hc : c ≠ .unsupported) (hne : c1 ≠ c) {x : Nat}
    (hx : x ∈ foot (R c) (T c)) : avl_getRootType s c1 ≠ some x := by
  by_cases h1 : c1 = .unsupported
  · subst h1; simp [avl_getRootType]
  · rw [(hI.sub c1 h1).root_eq]
    intro e
    simp only [Option.some.injEq] at e
    exact hI.disj c c1 hc h1 (fun q => hne q.symm) x hx (by simp [foot, e])

theorem Inv.type_eq {s : AVLtree} {R : Category → Nat} {T : Category → Tree} (hI : Inv s R T)
    {c : Category} (hc : c ≠ .unsupported) :
    (if s.string_root = some (R c) then 'c' else 'a') = typeOf c := by
  by_cases e : c = .string
  · subst e
    have := (hI.sub .string hc).root_eq
    simp only [avl_getRootType] at this
    simp [this, typeOf]
  · have := @Inv.roots_ne _ _ _ hI c .string hc (fun q => e q.symm) (R c) (by simp [foot])
    simp only [avl_getRootType] at this
    simp [this, typeOf, e]

theorem Inv.fuel_ok {s : AVLtree} {c : Category} {root : Nat} {t : Tree}
    (hs : SubInv s c root t) {fuel : Nat} (hf : s.next ≤ fuel) : t.height + 1 ≤ fuel := by
  have := Tree.height_le_size t
  have := hs.size
  omega

end AVL

namespace AVL

theorem AllOK_ins {c : Category} {fresh : Nat} {id : Key} {d : Nat} {t : Tree}
    (hid : KeyOK c id) (h : AllOK c t) : AllOK c (t.ins fresh id d) := by
  intro x hx
  rcases Tree.mem_keys_ins.mp hx with e | e
  · rw [e]; exact hid
  · exact h x e

theorem RepRoot.of_rep {h : Heap} {root : Nat} {t : Tree} (hp : t.ptr = some root)
    (hr : Rep h t (some root)) : RepRoot h root t := by
  cases t with
  | nil => simp [Tree.ptr] at hp
  | node a l k d r =>
    simp only [Tree.ptr, Option.some.injEq] at hp
    exact ⟨hp, hr⟩

/-- The effect of `avl_insert` on the subtree of the key's category. -/
theorem insert_sub {s : AVLtree} {c : Category} {id : Key} {p : Nat} {root : Nat} {t : Tree}
    {fuel : Nat} (hstr : c = .string) (hid : KeyOK c id) (hs : SubInv s c root t)
    (htype : (if s.string_root = some root then 'c' else 'a') = typeOf c)
    (hf : s.next ≤ fuel) :
    ∃ s1, avl_insert fuel s (some p) id = some s1 ∧
      (∀ c1, avl_getRootType s1 c1 = avl_getRootType s c1) ∧
      s.next ≤ s1.next ∧ s1.next ≤ s.next + 1 ∧
      SubInv s1 c root (t.insRoot root s.next id p) ∧
      (∀ x, x ∉ foot root t → x < s.next → s1.heap x = s.heap x) ∧
      (∀ x ∈ foot root (t.insRoot root s.next id p), x ∈ foot root t ∨ x = s.next) := by
  have hc : c ≠ .unsupported := by rw [hstr]; decide
  have hty : typeOf c = 'c' := by rw [hstr]; rfl
  have hfuel := Inv.fuel_ok hs hf
  have hroot := hs.root_eq
  cases t with
  | nil =>
    have hcell : s.heap root = some (rootCell root) := hs.rep
    have hf1 : 1 ≤ fuel := by simpa [Tree.height] using hfuel
    obtain ⟨f, hf2⟩ : ∃ f, fuel = f + 1 := ⟨fuel - 1, by omega⟩
    subst hf2
    refine ⟨{ s with heap := s.heap.write root (cellOf .nil id p .nil (some root)) }, ?_,
      fun _ => rfl, le_refl _, Nat.le_succ _, ?_, ?_, ?_⟩
    · simp only [avl_insert, hid.1, hroot, htype, hty]
      rw [insert_loop_stop f id _ hcell (by simp [rootCell])]
      simp [hcell, rootCell, cellOf, calloc_sub, Tree.ptr]
    · exact
        { root_eq := hroot
          rep := ⟨rfl, Heap.write_same _ _ _, trivial, trivial⟩
          nodup := by simp [Tree.addrs]
          root_lt := hs.root_lt
          addr_lt := by
            intro a ha
            simp only [Tree.insRoot, Tree.addrs, List.append_nil, List.mem_singleton] at ha
            rw [ha]; exact hs.root_lt
          ok := by
            intro x hx
            simp only [Tree.insRoot, Tree.keys, Tree.post, List.nil_append, List.map_cons,
              List.map_nil, List.mem_singleton] at hx
            rw [hx]; exact hid
          ordered := by simp [Tree.insRoot, Tree.Ordered, Tree.keys, Tree.post]
          size := by have := hs.next_ge; simp only [Tree.insRoot, Tree.size] at this ⊢; omega
          next_ge := hs.next_ge }
    · intro x hx _
      have : x ≠ root := fun e => hx (by simp [foot, e])
      simp [Heap.write, this]
    · intro x hx
      simp only [foot, Tree.insRoot, Tree.addrs, List.append_nil, List.mem_cons,
        List.mem_singleton, or_self, List.not_mem_nil, or_false] at hx ⊢
      exact Or.inl hx
  | node a l k d r =>
    obtain ⟨ea, hrep⟩ := hs.rep
    subst ea
    obtain ⟨hp, q, e1, e2, e3, e4⟩ := insert_loop_rep hc hid.1 (.node a l k d r) (some a) fuel
      (by simp) hrep hs.nodup hs.addr_lt (fun x hx => (hs.ok x hx).1) hfuel
    have hfresh : s.next ∉ (Tree.node a l k d r).addrs := fun h => by
      have := hs.addr_lt _ h; omega
    refine ⟨{ s with heap := hp.write s.next (cellOf .nil id p .nil (some q)), next := s.next + 1 },
      ?_, fun _ => rfl, Nat.le_succ _, le_refl _, ?_, ?_, ?_⟩
    · simp only [avl_insert, hid.1, hroot, htype, hty]
      simp only [Tree.ptr] at e1
      rw [← hty, e1]
      simp [e2, cellOf, calloc_sub, Tree.ptr]
    · have hperm := Tree.ins_addrs_perm s.next id p (.node a l k d r)
      exact
        { root_eq := hroot
          rep := RepRoot.of_rep (Tree.ins_ptr _ _ _ _ _ _ _ _) (e3 p)
          nodup := by
            simp only [Tree.insRoot]
            rw [hperm.nodup_iff]
            exact List.nodup_cons.mpr ⟨hfresh, hs.nodup⟩
          root_lt := Nat.lt_succ_of_lt hs.root_lt
          addr_lt := by
            intro x hx
            simp only [Tree.insRoot] at hx
            rw [hperm.mem_iff, List.mem_cons] at hx
            rcases hx with e | e
            · rw [e]; exact Nat.lt_succ_self _
            · exact Nat.lt_succ_of_lt (hs.addr_lt x e)
          ok := AllOK_ins hid hs.ok
          ordered := Tree.ins_ordered _ _ _ _ hs.ordered
          size := by
            have := hs.size
            simp only [Tree.insRoot, Tree.ins_size]
            show _ ≤ s.next + 1
            omega
          next_ge := Nat.le_succ_of_le hs.next_ge }
    · intro x hx hlt
      have hx1 : x ∉ (Tree.node a l k d r).addrs := fun e => hx (by simp [foot, e])
      have hx2 : x ≠ s.next := by omega
      show (hp.write s.next _) x = s.heap x
      rw [Heap.write_other _ _ _ _ hx2]
      exact e4 x hx1 hx2
    · intro x hx
      have hperm := Tree.ins_addrs_perm s.next id p (.node a l k d r)
      simp only [foot, Tree.insRoot, List.mem_cons] at hx ⊢
      rcases hx with e | e
      · exact Or.inl (Or.inl e)
      · rw [hperm.mem_iff, List.mem_cons] at e
        rcases e with e | e
        · exact Or.inr e
        · exact Or.inl (Or.inr e)

end AVL

namespace AVL

/-- Replacing one subtree of a container that satisfies the invariant. -/
theorem Inv.update {s s1 : AVLtree} {R : Category → Nat} {T : Category → Tree} (hI : Inv s R T)
    {c : Category} (hc : c ≠ .unsupported) {root1 : Nat} {t1 : Tree}
    (hroots : ∀ c1, c1 ≠ c → avl_getRootType s1 c1 = avl_getRootType s c1)
    (hn : s.next ≤ s1.next)
    (hsub : SubInv s1 c root1 t1)
    (hframe : ∀ x, x ∉ foot (R c) (T c) → x < s.next → s1.heap x = s.heap x)
    (hfoot : ∀ x ∈ foot root1 t1, x ∈ foot (R c) (T c) ∨ s.next ≤ x) :
    Inv s1 (Function.update R c root1) (Function.update T c t1) := by
  constructor
  · intro c1 hc1
    by_cases e : c1 = c
    · subst e
      simpa using hsub
    · rw [Function.update_noteq e, Function.update_noteq e]
      refine (hI.sub c1 hc1).frame_sub (hroots c1 e) ?_ hn
      intro x hx
      exact hframe x (fun h => hI.disj c1 c hc1 hc e x hx h) ((hI.sub c1 hc1).foot_lt x hx)
  · intro c2 c3 h2 h3 hne x hx
    by_cases e2 : c2 = c
    · subst e2
      have e3 : c3 ≠ c2 := fun q => hne q.symm
      rw [Function.update_same, Function.update_same] at hx
      rw [Function.update_noteq e3, Function.update_noteq e3]
      rcases hfoot x hx with h | h
      · exact hI.disj c2 c3 h2 h3 hne x h
      · intro hx3
        have := (hI.sub c3 h3).foot_lt x hx3
        omega
    · rw [Function.update_noteq e2, Function.update_noteq e2] at hx
      by_cases e3 : c3 = c
      · subst e3
        rw [Function.update_same, Function.update_same]
        intro hx3
        rcases hfoot x hx3 with h | h
        · exact hI.disj c2 c3 h2 h3 hne x hx h
        · have := (hI.sub c2 h2).foot_lt x hx
          omega
      · rw [Function.update_noteq e3, Function.update_noteq e3]
        exact hI.disj c2 c3 h2 h3 hne x hx

theorem insert_inv {s : AVLtree} {R : Category → Nat} {T : Category → Tree} {id : Key} {p : Nat}
    {fuel : Nat} (hI : Inv s R T) (hstr : id.category = .string) (hv : id.valid = true)
    (hf : s.next ≤ fuel) :
    ∃ s1, avl_insert fuel s (some p) id = some s1 ∧
      Inv s1 R (Function.update T id.category
        ((T id.category).insRoot (R id.category) s.next id p)) ∧
      s.next ≤ s1.next ∧ s1.next ≤ s.next + 1 := by
  have hc : id.category ≠ .unsupported := by rw [hstr]; decide
  obtain ⟨s1, e1, e2, e3, e4, e5, e6, e7⟩ := insert_sub (p := p) hstr ⟨rfl, hv⟩ (hI.sub _ hc)
    (hI.type_eq hc) hf
  refine ⟨s1, e1, ?_, e3, e4⟩
  have := hI.update hc (fun c1 _ => e2 c1) e3 e5 e6
    (fun x hx => (e7 x hx).imp (fun h => h) (fun h => le_of_eq h.symm))
  simpa using this

end AVL

namespace AVL

/-- The loop of `avl_search` and `avl_remove` on a subtree that satisfies the invariant. -/
theorem search_loop_sub {s : AVLtree} {c : Category} {id : Key} {root : Nat} {t : Tree}
    {fuel : Nat} (hc : c ≠ .unsupported) (hid : id.category = c) (hs : SubInv s c root t)
    (hf : s.next ≤ fuel) :
    avl_search_loop fuel s (some root) none id (typeOf c) =
      some (match t.find id with
        | none => (none, none)
        | some (a, _, d) => (some a, some d)) := by
  have hfuel := Inv.fuel_ok hs hf
  cases t with
  | nil =>
    have hcell : s.heap root = some (rootCell root) := hs.rep
    obtain ⟨f, hf2⟩ : ∃ f, fuel = f + 1 := ⟨fuel - 1, by omega⟩
    subst hf2
    cases f <;> simp [avl_search_loop, avl_compare, hcell, rootCell, calloc_sub, Tree.find]
  | node a l k d r =>
    obtain ⟨ea, hrep⟩ := hs.rep
    subst ea
    exact search_loop_rep hc hid (.node a l k d r) (some a) fuel hrep
      (fun x hx => (hs.ok x hx).1) (by omega)

theorem SubInv.del {s s1 : AVLtree} {c : Category} {root root1 : Nat} {t : Tree} (a : Nat)
    (hc : c ≠ .unsupported) (hs : SubInv s c root t) (hroot : avl_getRootType s1 c = some root1)
    (hn : s1.next = s.next) (hrep : RepRoot s1.heap root1 (t.del a))
    (hr1 : root1 ∈ t.addrs) : SubInv s1 c root1 (t.del a) :=
  { root_eq := hroot
    rep := hrep
    nodup := hs.nodup.sublist (Tree.del_addrs a t)
    root_lt := hn ▸ hs.addr_lt root1 hr1
    addr_lt := fun x hx => hn ▸ hs.addr_lt x ((Tree.del_addrs a t).subset hx)
    ok := fun x hx => hs.ok x (Tree.mem_keys_del hx)
    ordered := Tree.del_ordered hc a t hs.ok hs.ordered
    size := by
      have h1 := (Tree.del_addrs a t).length_le
      rw [Tree.size_eq_length_addrs, Tree.size_eq_length_addrs] at h1
      have := hs.size
      omega
    next_ge := hn ▸ hs.next_ge }

/-- The effect of `avl_removeNode` on the subtree that holds the node. -/
theorem removeNode_sub {s : AVLtree} {c : Category} {root : Nat} {t : Tree} {a : Nat}
    {fuel : Nat} (hc : c ≠ .unsupported) (hs : SubInv s c root t) (hmem : a ∈ t.addrs)
    (hothers : ∀ c1, c1 ≠ c → ∀ x ∈ foot root t, avl_getRootType s c1 ≠ some x)
    (hfuel : t.height ≤ fuel) :
    ∃ s1 root1, avl_removeNode fuel s a = some s1 ∧ s1.next = s.next ∧
      (∀ c1, c1 ≠ c → avl_getRootType s1 c1 = avl_getRootType s c1) ∧
      SubInv s1 c root1 (t.del a) ∧ root1 ∈ t.addrs ∧
      ∀ y, y ∉ t.addrs → s1.heap y = s.heap y := by
  cases t with
  | nil => simp [Tree.addrs] at hmem
  | node b l kb db r =>
    obtain ⟨eb, hrep⟩ := hs.rep
    subst eb
    by_cases e : a = b
    · subst e
      obtain ⟨s1, root1, e1, e2, e3, e4, e5, e6, e7⟩ := @removeNode_root _ _ _ _ _ _ _ fuel hc hrep
        hs.nodup hs.root_eq (fun c1 h1 => hothers c1 h1 a (by simp [foot])) hfuel
      rw [← Tree.del_root] at e5
      exact ⟨s1, root1, e1, e4, e3, hs.del a hc e2 e4 e5 e6, e6, e7⟩
    · have hroots : ∀ c1, avl_getRootType s c1 ≠ some a := by
        intro c1
        by_cases h1 : c1 = c
        · subst h1
          rw [hs.root_eq]
          intro q
          exact e (Option.some.inj q).symm
        · exact hothers c1 h1 a (by simp [foot, hmem])
      obtain ⟨h1, e1, e2, e3, e4⟩ := @removeNode_inner _ _ fuel hroots _ (some b) hrep
        hs.nodup hmem (by simp only [Tree.ptr]; exact fun q => e (Option.some.inj q).symm) hfuel
      have hbm : b ∈ (Tree.node b l kb db r).addrs := by
        rw [Tree.mem_addrs_node]; exact Or.inl rfl
      exact ⟨{ s with heap := h1 }, b, e1, rfl, fun _ _ => rfl,
        @SubInv.del _ { s with heap := h1 } _ _ _ _ a hc hs hs.root_eq rfl (RepRoot.of_rep e3 e2) hbm,
        hbm, e4⟩

theorem remove_inv {s : AVLtree} {R : Category → Nat} {T : Category → Tree} {id : Key}
    {fuel : Nat} (hI : Inv s R T) (hc : id.category ≠ .unsupported) (hf : s.next ≤ fuel) :
    ∃ s1 R1, avl_remove fuel s id = some s1 ∧ s1.next = s.next ∧
      Inv s1 R1 (Function.update T id.category ((T id.category).removed id)) := by
  have hs := hI.sub _ hc
  have hloop := search_loop_sub hc rfl hs hf
  have hfuel := Inv.fuel_ok hs hf
  cases hfind : (T id.category).find id with
  | none =>
    refine ⟨s, R, ?_, rfl, ?_⟩
    · simp only [avl_remove, hs.root_eq, hI.type_eq hc, hloop, hfind, Option.some_bind]
    · simpa [Tree.removed, hfind] using hI
  | some res =>
    obtain ⟨a, k, d⟩ := res
    have hmem := (Tree.find_some _ a k d hfind).1
    have hstep : avl_remove fuel s id = avl_removeNode fuel s a := by
      simp only [avl_remove, hs.root_eq, hI.type_eq hc, hloop, hfind, Option.some_bind]
    have hrm : (T id.category).removed id = (T id.category).del a := by
      simp only [Tree.removed, hfind]
    rw [hstep, hrm]
    obtain ⟨s1, root1, e1, e2, e3, e4, e5, e6⟩ := @removeNode_sub _ _ _ _ _ fuel hc hs hmem
      (fun c1 h1 x hx => hI.roots_ne hc h1 hx) (by omega)
    refine ⟨s1, Function.update R id.category root1, e1, e2, ?_⟩
    refine hI.update hc e3 (le_of_eq e2.symm) e4 ?_ ?_
    · intro x hx _
      exact e6 x (fun h => hx (by simp [foot, h]))
    · intro x hx
      left
      simp only [foot, List.mem_cons] at hx ⊢
      rcases hx with h | h
      · exact Or.inr (h ▸ e5)
      · exact Or.inr ((Tree.del_addrs a _).subset h)

end AVL

namespace AVL

/-! ## A larger loop budget does not change a result -/

theorem insert_loop_mono_succ : ∀ (fuel : Nat) (s : AVLtree) (node : Option Nat) (id : Key)
    (type : Char) (r : AVLtree × Nat), avl_insert_loop fuel s node id type = some r →
    avl_insert_loop (fuel + 1) s node id type = some r := by
  intro fuel
  induction fuel with
  | zero => intro s node id type r h; simp [avl_insert_loop] at h
  | succ f ih =>
    intro s node id type r h
    rw [avl_insert_loop] at h ⊢
    cases node with
    | none => simp at h
    | some a =>
      simp only [Option.some_bind] at h ⊢
      cases hc : s.heap a with
      | none => simp [hc] at h
      | some n =>
        simp only [hc, Option.some_bind] at h ⊢
        by_cases hl : n.isLeaf = 0
        · simp only [hl, if_true] at h ⊢
          cases hfw : avl_forward s a id type with
          | none => simp [hfw] at h
          | some q =>
            simp only [hfw, Option.some_bind] at h ⊢
            exact ih _ _ _ _ _ h
        · simp only [hl, if_false] at h ⊢
          exact h

theorem insert_loop_mono {fuel fuel1 : Nat} (hle : fuel ≤ fuel1) {s : AVLtree}
    {node : Option Nat} {id : Key} {type : Char} {r : AVLtree × Nat}
    (h : avl_insert_loop fuel s node id type = some r) :
    avl_insert_loop fuel1 s node id type = some r := by
  induction hle with
  | refl => exact h
  | step _ ih => exact insert_loop_mono_succ _ _ _ _ _ _ ih

theorem search_loop_mono_succ : ∀ (fuel : Nat) (s : AVLtree) (node DATA : Option Nat) (id : Key)
    (type : Char) (r : Option Nat × Option Nat),
    avl_search_loop fuel s node DATA id type = some r →
    avl_search_loop (fuel + 1) s node DATA id type = some r := by
  intro fuel
  induction fuel with
  | zero =>
    intro s node DATA id type r h
    cases DATA <;> cases node <;> simp_all [avl_search_loop]
  | succ f ih =>
    intro s node DATA id type r h
    cases DATA with
    | some v => simpa [avl_search_loop] using h
    | none =>
      cases node with
      | none => simpa [avl_search_loop] using h
      | some a =>
        simp only [avl_search_loop] at h ⊢
        cases hc : avl_compare s a none id type with
        | none => simp [hc] at h
        | some q =>
          simp only [hc, Option.some_bind] at h ⊢
          exact ih _ _ _ _ _ _ h

theorem search_loop_mono {fuel fuel1 : Nat} (hle : fuel ≤ fuel1) {s : AVLtree}
    {node DATA : Option Nat} {id : Key} {type : Char} {r : Option Nat × Option Nat}
    (h : avl_search_loop fuel s node DATA id type = some r) :
    avl_search_loop fuel1 s node DATA id type = some r := by
  induction hle with
  | refl => exact h
  | step _ ih => exact search_loop_mono_succ _ _ _ _ _ _ _ ih

theorem biggest_mono_succ : ∀ (fuel : Nat) (h : Heap) (i_node r : Nat),
    biggest fuel h i_node = some r → biggest (fuel + 1) h i_node = some r := by
  intro fuel
  induction fuel with
  | zero => intro h i r e; simp [biggest] at e
  | succ f ih =>
    intro h i r e
    rw [biggest] at e ⊢
    cases hc : h i with
    | none => simp [hc] at e
    | some n =>
      simp only [hc, Option.some_bind] at e ⊢
      cases hr : n.Rchild with
      | none => simpa [hr] using e
      | some q =>
        simp only [hr] at e ⊢
        exact ih _ _ _ e

theorem biggest_mono {fuel fuel1 : Nat} (hle : fuel ≤ fuel1) {h : Heap} {i_node r : Nat}
    (e : biggest fuel h i_node = some r) : biggest fuel1 h i_node = some r := by
  induction hle with
  | refl => exact e
  | step _ ih => exact biggest_mono_succ _ _ _ _ ih

theorem avl_insert_mono {fuel fuel1 : Nat} (hle : fuel ≤ fuel1) {s s1 : AVLtree}
    {DATA : Option Nat} {id : Key} (h : avl_insert fuel s DATA id = some s1) :
    avl_insert fuel1 s DATA id = some s1 := by
  simp only [avl_insert] at h ⊢
  cases hr : avl_getRootType s id.category with
  | none => simpa [hr] using h
  | some node =>
    simp only [hr] at h ⊢
    cases hl : avl_insert_loop fuel s (some node) id
        (if s.string_root = some node then 'c' else 'a') with
    | none => simp [hl] at h
    | some q =>
      rw [insert_loop_mono hle hl]
      rw [hl] at h
      exact h

theorem avl_search_mono {fuel fuel1 : Nat} (hle : fuel ≤ fuel1) {s : AVLtree}
    {id : Key} {r : Option Nat} (h : avl_search fuel s id = some r) :
    avl_search fuel1 s id = some r := by
  simp only [avl_search] at h ⊢
  cases hr : avl_getRootType s id.category with
  | none => simpa [hr] using h
  | some node =>
    simp only [hr] at h ⊢
    cases hl : avl_search_loop fuel s (some node) none id
        (if s.string_root = some node then 'c' else 'a') with
    | none => simp [hl] at h
    | some q =>
      rw [search_loop_mono hle hl]
      rw [hl] at h
      exact h

theorem avl_removeNode_mono {fuel fuel1 : Nat} (hle : fuel ≤ fuel1) {s s1 : AVLtree}
    {node : Nat} (h : avl_removeNode fuel s node = some s1) :
    avl_removeNode fuel1 s node = some s1 := by
  simp only [avl_removeNode] at h ⊢
  cases h0 : s.heap.setContent node none none with
  | none => simp [h0] at h
  | some hp0 =>
    simp only [h0, Option.some_bind] at h ⊢
    cases hn : hp0 node with
    | none => simp [hn] at h
    | some n =>
      simp only [hn, Option.some_bind] at h ⊢
      by_cases hb : n.Lchild ≠ none ∧ n.Rchild ≠ none
      · rw [if_pos hb] at h ⊢
        cases hl : n.Lchild with
        | none => simp [hl] at h
        | some l =>
          simp only [hl, Option.some_bind] at h ⊢
          cases hbg : biggest fuel hp0 l with
          | none => simp [hbg] at h
          | some m =>
            rw [biggest_mono hle hbg]
            rw [hbg] at h
            exact h
      · rw [if_neg hb] at h ⊢
        exact h

theorem avl_remove_mono {fuel fuel1 : Nat} (hle : fuel ≤ fuel1) {s s1 : AVLtree}
    {id : Key} (h : avl_remove fuel s id = some s1) :
    avl_remove fuel1 s id = some s1 := by
  simp only [avl_remove] at h ⊢
  cases hr : avl_getRootType s id.category with
  | none => simpa [hr] using h
  | some node =>
    simp only [hr] at h ⊢
    cases hl : avl_search_loop fuel s (some node) none id
        (if s.string_root = some node then 'c' else 'a') with
    | none => simp [hl] at h
    | some q =>
      rw [search_loop_mono hle hl]
      rw [hl] at h
      simp only [Option.some_bind] at h ⊢
      cases hq : q.1 with
      | none => simpa [hq] using h
      | some found =>
        simp only [hq] at h ⊢
        exact avl_removeNode_mono hle h

end AVL

namespace AVL

theorem insert_unsupported {fuel : Nat} {s : AVLtree} {DATA : Option Nat} {id : Key}
    (h : id.category = .unsupported) : avl_insert fuel s DATA id = some s := by
  simp [avl_insert, h, avl_getRootType]

theorem remove_unsupported {fuel : Nat} {s : AVLtree} {id : Key}
    (h : id.category = .unsupported) : avl_remove fuel s id = some s := by
  simp [avl_remove, h, avl_getRootType]

/-- The call `avl_insert` with a numeric key is a fault: the macro reads the
key's bytes at the address that the key value is. -/
theorem insert_numeric_fault {s : AVLtree} {R : Category → Nat} {T : Category → Tree}
    (hI : Inv s R T) {id : Key} (hc : id.category ≠ .unsupported)
    (hn : id.category ≠ .string) (fuel : Nat) (DATA : Option Nat) :
    avl_insert fuel s DATA id = none := by
  have hs := hI.sub _ hc
  have hty : typeOf id.category = 'a' := by simp [typeOf, hn]
  simp only [avl_insert, hs.root_eq, hI.type_eq hc, hty]
  cases avl_insert_loop fuel s (some (R id.category)) id 'a' with
  | none => rfl
  | some r =>
    simp only [Option.some_bind]
    cases r.1.heap r.2 with
    | none => rfl
    | some n => simp

/-- A call `avl_insert` that returns with a key of a supported category has a
string key. -/
theorem insert_some_string {s s1 : AVLtree} {R : Category → Nat} {T : Category → Tree}
    (hI : Inv s R T) {id : Key} (hc : id.category ≠ .unsupported) {fuel : Nat}
    {DATA : Option Nat} (h : avl_insert fuel s DATA id = some s1) : id.category = .string := by
  by_contra hn
  rw [insert_numeric_fault hI hc hn] at h
  cases h

/-- The invariant after a call of `avl_insert` that returns. -/
theorem insert_inv_of_eq {s s1 : AVLtree} {R : Category → Nat} {T : Category → Tree} {id : Key}
    {p : Nat} {fuel : Nat} (hI : Inv s R T) (hc : id.category ≠ .unsupported)
    (hv : id.valid = true) (h : avl_insert fuel s (some p) id = some s1) :
    Inv s1 R (Function.update T id.category
        ((T id.category).insRoot (R id.category) s.next id p)) ∧
      s.next ≤ s1.next ∧ s1.next ≤ s.next + 1 := by
  obtain ⟨s2, e1, e2⟩ := @insert_inv _ _ _ _ p (max fuel s.next) hI
    (insert_some_string hI hc h) hv (le_max_right _ _)
  rw [avl_insert_mono (le_max_left _ _) h] at e1
  cases e1
  exact e2

/-- The invariant after a call of `avl_remove` that returns. -/
theorem remove_inv_of_eq {s s1 : AVLtree} {R : Category → Nat} {T : Category → Tree} {id : Key}
    {fuel : Nat} (hI : Inv s R T) (hc : id.category ≠ .unsupported)
    (h : avl_remove fuel s id = some s1) :
    s1.next = s.next ∧
      ∃ R1, Inv s1 R1 (Function.update T id.category ((T id.category).removed id)) := by
  obtain ⟨s2, R1, e1, e2, e3⟩ := @remove_inv _ _ _ _ (max fuel s.next) hI hc (le_max_right _ _)
  rw [avl_remove_mono (le_max_left _ _) h] at e1
  cases e1
  exact ⟨e2, R1, e3⟩

theorem reachable_inv {s : AVLtree} (h : Reachable s) : ∃ R T, Inv s R T := by
  induction h with
  | create => exact ⟨_, _, inv_create⟩
  | insert fuel k p _ hv he ih =>
    obtain ⟨R, T, hI⟩ := ih
    by_cases hc : k.category = .unsupported
    · rw [insert_unsupported hc] at he
      cases he
      exact ⟨R, T, hI⟩
    · exact ⟨_, _, (insert_inv_of_eq hI hc hv he).1⟩
  | remove fuel k _ _ he ih =>
    obtain ⟨R, T, hI⟩ := ih
    by_cases hc : k.category = .unsupported
    · rw [remove_unsupported hc] at he
      cases he
      exact ⟨R, T, hI⟩
    · obtain ⟨_, R1, h1⟩ := remove_inv_of_eq hI hc he
      exact ⟨_, _, h1⟩

theorem builtByInserts_reachable {s : AVLtree} (h : BuiltByInserts s) : Reachable s := by
  induction h with
  | create => exact Reachable.create
  | insert fuel k p _ hv he ih => exact Reachable.insert fuel k p ih hv he

/-- The invariant of reachable containers, with the fact that only the
string subtree ever holds a key: `avl_insert` of a numeric key never returns. -/
theorem reachable_strings {s : AVLtree} (h : Reachable s) :
    ∃ R T, Inv s R T ∧ ∀ c, c ≠ .string → T c = .nil := by
  induction h with
  | create => exact ⟨_, _, inv_create, fun _ _ => rfl⟩
  | insert fuel k p _ hv he ih =>
    obtain ⟨R, T, hI, hT⟩ := ih
    by_cases hc : k.category = .unsupported
    · rw [insert_unsupported hc] at he
      cases he
      exact ⟨R, T, hI, hT⟩
    · have hstr := insert_some_string hI hc he
      refine ⟨_, _, (insert_inv_of_eq hI hc hv he).1, ?_⟩
      intro c hcs
      rw [Function.update_noteq (by rw [hstr]; exact hcs)]
      exact hT c hcs
  | remove fuel k _ _ he ih =>
    obtain ⟨R, T, hI, hT⟩ := ih
    by_cases hc : k.category = .unsupported
    · rw [remove_unsupported hc] at he
      cases he
      exact ⟨R, T, hI, hT⟩
    · obtain ⟨_, R1, h1⟩ := remove_inv_of_eq hI hc he
      refine ⟨_, _, h1, ?_⟩
      intro c hcs
      by_cases e : c = k.category
      · subst e
        rw [Function.update_same, hT _ hcs]
        rfl
      · rw [Function.update_noteq e]
        exact hT c hcs

/-- The result of `avl_search` in terms of the represented tree. -/
theorem search_inv {s : AVLtree} {R : Category → Nat} {T : Category → Tree} {id : Key}
    {fuel : Nat} (hI : Inv s R T) (hc : id.category ≠ .unsupported) (hf : s.next ≤ fuel) :
    avl_search fuel s id = some (((T id.category).find id).map fun r => r.2.2) := by
  have hs := hI.sub _ hc
  simp only [avl_search, hs.root_eq, hI.type_eq hc, search_loop_sub hc rfl hs hf,
    Option.map_some']
  cases (T id.category).find id with
  | none => rfl
  | some r => rfl

/-- The result of `avl_traverse` in terms of the represented tree. -/
theorem traverse_inv {s : AVLtree} {R : Category → Nat} {T : Category → Tree} {c : Category}
    {fuel : Nat} (hI : Inv s R T) (hc : c ≠ .unsupported) (hf : s.next ≤ fuel) :
    avl_traverse fuel s c = some (outOf (T c).ids (T c).datas) := by
  have hs := hI.sub _ hc
  have hfuel := Inv.fuel_ok hs hf
  simp only [avl_traverse, hs.root_eq]
  revert hs hfuel
  generalize T c = t
  intro hs hfuel
  cases t with
  | nil =>
    have hcell : s.heap (R c) = some (rootCell (R c)) := hs.rep
    obtain ⟨f, hf2⟩ : ∃ f, fuel = f + 1 := ⟨fuel - 1, by omega⟩
    subst hf2
    simp [avl_tTraverse, hcell, rootCell, calloc_sub, outOf, Tree.ids, Tree.datas, Tree.post]
  | node a l k d r =>
    obtain ⟨ea, hrep⟩ := hs.rep
    subst ea
    have := tTraverse_rep _ _ fuel [] [] hrep hfuel rfl
    simpa [outOf, Tree.ptr] using this

theorem outOf_pairs (P : List (Option Key)) (Q : List (Option Nat)) (h : P.length = Q.length) :
    (outOf P Q).pairs = P.zip Q := by
  simp [Out.pairs, outOf, h]

theorem outOf_keys (P : List (Option Key)) (Q : List (Option Nat)) :
    (outOf P Q).keys = P := by
  simp [Out.keys, outOf]

theorem Tree.zip_ids_datas (t : Tree) :
    t.ids.zip t.datas = t.post.map fun p => (some p.1, some p.2) := by
  simp only [Tree.ids, Tree.datas]
  induction t.post with
  | nil => rfl
  | cons x xs ih => simp [ih]

end AVL

namespace AVL

/-! ## Consequences for the public operations -/

theorem traverse_unsupported {fuel : Nat} {s : AVLtree} (hf : 1 ≤ fuel) :
    avl_traverse fuel s .unsupported = some emptyOut := by
  obtain ⟨f, hf2⟩ : ∃ f, fuel = f + 1 := ⟨fuel - 1, by omega⟩
  subst hf2
  simp [avl_traverse, avl_getRootType, avl_tTraverse, emptyOut]

theorem Inv.next_ge {s : AVLtree} {R : Category → Nat} {T : Category → Tree} (hI : Inv s R T) :
    5 ≤ s.next := (hI.sub .int (by decide)).next_ge

theorem count_ids (t : Tree) (k : Key) : t.ids.count (some k) = t.keys.count k := by
  simp only [Tree.ids, Tree.keys]
  induction t.post with
  | nil => rfl
  | cons x xs ih =>
    simp only [List.map_cons, List.count_cons, ih]
    by_cases e : x.1 = k <;> simp [e]

theorem Tree.find_none_of_not_mem {c : Category} (hc : c ≠ .unsupported) {t : Tree} {k : Key}
    (hok : AllOK c t) (hk : KeyOK c k) (hn : k ∉ t.keys) : t.find k = none := by
  cases h : t.find k with
  | none => rfl
  | some res =>
    obtain ⟨a, k1, d⟩ := res
    obtain ⟨_, h2, h3⟩ := Tree.find_some t a k1 d h
    have hk1 : k1 ∈ t.keys := by
      simp only [Tree.keys, List.mem_map]
      exact ⟨(k1, d), h2, rfl⟩
    have := Key.found_eq hc hk (hok k1 hk1) h3
    exact absurd (this ▸ hk1) hn

theorem Tree.find_removed_none {c : Category} (hc : c ≠ .unsupported) {t : Tree} {k : Key}
    (hnd : t.addrs.Nodup) (hok : AllOK c t) (hk : KeyOK c k) (h1 : t.keys.count k = 1) :
    (t.removed k).find k = none := by
  cases h : t.find k with
  | none => simp only [Tree.removed, h]
  | some res =>
    obtain ⟨a, k1, d⟩ := res
    simp only [Tree.removed, h]
    obtain ⟨_, h2, h3⟩ := Tree.find_some t a k1 d h
    have hk1 : k1 ∈ t.keys := by
      simp only [Tree.keys, List.mem_map]
      exact ⟨(k1, d), h2, rfl⟩
    have e := Key.found_eq hc hk (hok k1 hk1) h3
    subst e
    have hperm := List.Perm.map Prod.fst (Tree.find_del_post t a k d hnd h)
    have hcount := hperm.count_eq k
    simp only [List.map_cons, List.count_cons_self] at hcount
    have h0 : (t.del a).keys.count k = 0 := by
      simp only [Tree.keys] at h1 ⊢
      omega
    exact Tree.find_none_of_not_mem hc (fun x hx => hok x (Tree.mem_keys_del hx)) hk
      (List.count_eq_zero.mp h0)

end AVL

namespace AVL

theorem reachable_insertAll {fuel : Nat} : ∀ (kps : List (Key × Nat)) (s s1 : AVLtree),
    Reachable s → (∀ kp ∈ kps, kp.1.valid = true) → insertAll fuel s kps = some s1 →
    Reachable s1 := by
  intro kps
  induction kps with
  | nil =>
    intro s s1 hs _ h
    simp only [insertAll, Option.some.injEq] at h
    exact h ▸ hs
  | cons kp rest ih =>
    intro s s1 hs hv h
    obtain ⟨k, p⟩ := kp
    simp only [insertAll] at h
    cases h2 : avl_insert fuel s (some p) k with
    | none => simp [h2] at h
    | some s2 =>
      simp only [h2, Option.some_bind] at h
      exact ih s2 s1 (Reachable.insert fuel k p hs (hv (k, p) (by simp)) h2)
        (fun kp hkp => hv kp (by simp [hkp])) h

theorem reachable_exBAC : Reachable exBAC :=
  @reachable_insertAll 8 [(.str [98], 1), (.str [97], 2), (.str [99], 3)] _ _
    Reachable.create (by decide) rfl

end AVL

namespace AVL

theorem Tree.insRoot_post_perm (root fresh : Nat) (id : Key) (d : Nat) (t : Tree) :
    (t.insRoot root fresh id d).post.Perm ((id, d) :: t.post) := by
  cases t with
  | nil => simp [Tree.insRoot, Tree.post]
  | node a l k dd r => exact Tree.ins_post_perm fresh id d _

theorem Tree.find_insRoot {id : Key} (root fresh : Nat) (id2 : Key) (d2 : Nat) (t : Tree)
    (res : Nat × Key × Nat) (h : t.find id = some res) :
    (t.insRoot root fresh id2 d2).find id = some res := by
  cases t with
  | nil => simp [Tree.find] at h
  | node a l k dd r => exact Tree.find_ins fresh id2 d2 _ res h

theorem Tree.pairs_perm {t t1 : Tree} {x : Key × Nat} (h : t1.post.Perm (x :: t.post)) :
    (t1.ids.zip t1.datas).Perm ((some x.1, some x.2) :: t.ids.zip t.datas) := by
  rw [Tree.zip_ids_datas, Tree.zip_ids_datas]
  exact List.Perm.map _ h

theorem Tree.ids_datas_length (t : Tree) : t.ids.length = t.datas.length := by
  rw [Tree.ids_length, Tree.datas_length]

theorem outOf_c (P : List (Option Key)) (Q : List (Option Nat)) : (outOf P Q).c = P.length := rfl

/-- C6: in every reachable container (in particular one built by inserts
only) in which `avl_search` of `k` returns the payload `p1`, a further
`avl_insert` of `k` with the payload `p2` returns, the traversal counter of
the category grows by one, the pair `(k, p1)` is still in the traversal, and
`avl_search` of `k` still returns `p1`. -/
theorem C6_duplicate_shadows (s : AVLtree) (hs : Reachable s) (k : Key) (hv : k.valid = true)
    (p1 p2 : Nat) (fuel : Nat) (hf : s.next + 1 ≤ fuel)
    (h1 : avl_search fuel s k = some (some p1)) :
    ∃ s1 o o1, avl_insert fuel s (some p2) k = some s1 ∧
      avl_traverse fuel s k.category = some o ∧ avl_traverse fuel s1 k.category = some o1 ∧
      o1.c = o.c + 1 ∧ (some k, some p1) ∈ o1.pairs ∧
      avl_search fuel s1 k = some (some p1) := by
  obtain ⟨R, T, hI, hT⟩ := reachable_strings hs
  by_cases hc : k.category = .unsupported
  · exfalso
    simp [avl_search, hc, avl_getRootType] at h1
  · have hs0 := hI.sub _ hc
    rw [search_inv hI hc (by omega)] at h1
    have hstr : k.category = .string := by
      by_contra hn
      rw [hT _ hn] at h1
      simp [Tree.find] at h1
    obtain ⟨s1, e1, e2, e3, e4⟩ := @insert_inv _ _ _ _ p2 fuel hI hstr hv (by omega)
    cases hfind : (T k.category).find k with
    | none => simp [hfind] at h1
    | some res =>
      obtain ⟨a, k1, d⟩ := res
      simp only [hfind, Option.map_some', Option.some.injEq] at h1
      subst h1
      obtain ⟨_, g2, g3⟩ := Tree.find_some _ _ _ _ hfind
      have hk1 : k1 ∈ (T k.category).keys := by
        simp only [Tree.keys, List.mem_map]
        exact ⟨(k1, d), g2, rfl⟩
      have e := Key.found_eq hc ⟨rfl, hv⟩ (hs0.ok k1 hk1) g3
      subst e
      have hperm := Tree.insRoot_post_perm (R k.category) s.next k p2 (T k.category)
      refine ⟨s1, _, _, e1, traverse_inv hI hc (by omega), traverse_inv e2 hc (by omega), ?_, ?_,
        ?_⟩
      · simp only [Function.update_same, outOf_c, Tree.ids_length]
        rw [← Tree.post_length, hperm.length_eq, List.length_cons, Tree.post_length]
      · simp only [Function.update_same]
        rw [outOf_pairs _ _ (Tree.ids_datas_length _), Tree.zip_ids_datas, List.mem_map]
        exact ⟨(k, d), hperm.mem_iff.mpr (List.mem_cons_of_mem _ g2), rfl⟩
      · rw [search_inv e2 hc (by omega)]
        simp only [Function.update_same]
        rw [Tree.find_insRoot _ _ _ _ _ _ hfind]
        rfl

theorem C6_duplicate_shadows_witness :
    ∃ s1 o o1, avl_insert 8 exBAC (some 9) (.str [97]) = some s1 ∧
      avl_traverse 8 exBAC (Key.str [97]).category = some o ∧
      avl_traverse 8 s1 (Key.str [97]).category = some o1 ∧
      o1.c = o.c + 1 ∧ (some (.str [97]), some 2) ∈ o1.pairs ∧
      avl_search 8 s1 (.str [97]) = some (some 2) :=
  C6_duplicate_shadows exBAC reachable_exBAC (.str [97]) rfl 2 9 8 (by decide) (by decide)

/-- C10: in every reachable container, for every key `k` for which
`avl_search` returns the payload `p`, `avl_remove` of `k` returns, and the
traversal of the category afterwards has exactly one pair fewer: the previous
traversal is, up to order, the pair `(k, p)` followed by the new one. -/
theorem C10_remove_deletes_one_pair (s : AVLtree) (hs : Reachable s) (k : Key)
    (hv : k.valid = true) (p : Nat) (fuel : Nat) (hf : s.next ≤ fuel)
    (h1 : avl_search fuel s k = some (some p)) :
    ∃ s1 o o1, avl_remove fuel s k = some s1 ∧
      avl_traverse fuel s k.category = some o ∧ avl_traverse fuel s1 k.category = some o1 ∧
      o1.c + 1 = o.c ∧ o.pairs.Perm ((some k, some p) :: o1.pairs) := by
  obtain ⟨R, T, hI⟩ := reachable_inv hs
  by_cases hc : k.category = .unsupported
  · exfalso
    simp [avl_search, hc, avl_getRootType] at h1
  · have hs0 := hI.sub _ hc
    rw [search_inv hI hc hf] at h1
    obtain ⟨s1, R1, e1, e2, e3⟩ := @remove_inv _ _ _ k _ hI hc hf
    cases hfind : (T k.category).find k with
    | none => simp [hfind] at h1
    | some res =>
      obtain ⟨a, k1, d⟩ := res
      simp only [hfind, Option.map_some', Option.some.injEq] at h1
      subst h1
      obtain ⟨_, g2, g3⟩ := Tree.find_some _ _ _ _ hfind
      have hk1 : k1 ∈ (T k.category).keys := by
        simp only [Tree.keys, List.mem_map]
        exact ⟨(k1, d), g2, rfl⟩
      have e := Key.found_eq hc ⟨rfl, hv⟩ (hs0.ok k1 hk1) g3
      subst e
      have hperm := Tree.find_del_post _ _ _ _ hs0.nodup hfind
      have hrm : (T k.category).removed k = (T k.category).del a := by
        simp only [Tree.removed, hfind]
      refine ⟨s1, _, _, e1, traverse_inv hI hc hf, traverse_inv e3 hc (by omega), ?_, ?_⟩
      · simp only [Function.update_same, outOf_c, Tree.ids_length, hrm]
        rw [← Tree.post_length, ← Tree.post_length, hperm.length_eq, List.length_cons]
      · simp only [Function.update_same, hrm]
        rw [outOf_pairs _ _ (Tree.ids_datas_length _), outOf_pairs _ _ (Tree.ids_datas_length _)]
        exact Tree.pairs_perm hperm

theorem C10_remove_deletes_one_pair_witness :
    (∃ s1 o o1, avl_remove 8 exBAC (.str [98]) = some s1 ∧
      avl_traverse 8 exBAC (Key.str [98]).category = some o ∧
      avl_traverse 8 s1 (Key.str [98]).category = some o1 ∧
      o1.c + 1 = o.c ∧ o.pairs.Perm ((some (.str [98]), some 1) :: o1.pairs)) ∧
    ((avl_remove 8 exBAC (.str [98])).bind fun s1 =>
      (avl_traverse 8 s1 .string).map fun o1 => o1.c) = some 2 :=
  ⟨C10_remove_deletes_one_pair exBAC reachable_exBAC (.str [98]) rfl 1 8 (by decide) (by decide),
    by decide⟩

end AVL

namespace AVL

theorem insertAll_inv {c : Category} (hstr : c = .string) {fuel : Nat} :
    ∀ (kps : List (Key × Nat)) (s : AVLtree) (R : Category → Nat) (T : Category → Tree),
      Inv s R T → (∀ kp ∈ kps, kp.1.category = c ∧ kp.1.valid = true) →
      s.next + kps.length ≤ fuel →
      ∃ s1 T1, insertAll fuel s kps = some s1 ∧ Inv s1 R T1 ∧ s1.next ≤ s.next + kps.length ∧
        (T1 c).post.Perm (kps ++ (T c).post) ∧
        ∀ id res, (T c).find id = some res → (T1 c).find id = some res := by
  intro kps
  induction kps with
  | nil =>
    intro s R T hI _ _
    exact ⟨s, T, rfl, hI, le_refl _, List.Perm.refl _, fun _ _ h => h⟩
  | cons kp rest ih =>
    intro s R T hI hk hf
    obtain ⟨k, p⟩ := kp
    obtain ⟨hkc, hkv⟩ := hk (k, p) (by simp)
    simp only at hkc hkv
    simp only [List.length_cons] at hf
    have hc' : k.category = .string := hkc ▸ hstr
    obtain ⟨s2, e1, e2, e3, e4⟩ := @insert_inv _ _ _ _ p fuel hI hc' hkv (by omega)
    obtain ⟨s1, T1, f1, f2, f3, f4, f5⟩ := ih s2 R _ e2 (fun kp hkp => hk kp (by simp [hkp]))
      (by omega)
    refine ⟨s1, T1, ?_, f2, ?_, ?_, ?_⟩
    · simp only [insertAll, e1, Option.some_bind, f1]
    · simp only [List.length_cons]; omega
    · subst hkc
      simp only [Function.update_same] at f4
      have hperm := Tree.insRoot_post_perm (R k.category) s.next k p (T k.category)
      refine f4.trans ?_
      refine (List.Perm.append_left rest hperm).trans ?_
      simp only [List.cons_append]
      exact List.perm_middle
    · intro id res h
      subst hkc
      simp only [Function.update_same] at f5
      exact f5 id res (Tree.find_insRoot _ _ _ _ _ _ h)

/-- Traversal returns exactly what was inserted, for string keys: after
`avl_insert` of `N` (key, payload) pairs with pairwise distinct string keys
into a fresh container, and no removal, `avl_traverse` for the string
category returns with the counter at `N`, and the first `N` slots of the two
parallel arrays hold, position by position, the inserted pairs, each exactly
once. -/
theorem traverse_returns_inserted_strings (kps : List (Key × Nat))
    (hk : ∀ kp ∈ kps, kp.1.category = .string ∧ kp.1.valid = true)
    (hnd : (kps.map Prod.fst).Nodup) (fuel : Nat) (hf : kps.length + 5 ≤ fuel) :
    ∃ s o, insertAll fuel avl_createTree kps = some s ∧ avl_traverse fuel s .string = some o ∧
      o.c = kps.length ∧
      o.pairs.Perm (kps.map fun kp => (some kp.1, some kp.2)) ∧ o.pairs.Nodup := by
  have hc : Category.string ≠ .unsupported := by decide
  obtain ⟨s, T1, e1, e2, e3, e4, _⟩ := insertAll_inv rfl kps avl_createTree R0 (fun _ => .nil)
    inv_create hk (by show 5 + kps.length ≤ fuel; omega)
  have e3' : s.next ≤ 5 + kps.length := e3
  simp only [Tree.post, List.append_nil] at e4
  have hperm : ((T1 .string).ids.zip (T1 .string).datas).Perm
      (kps.map fun kp => (some kp.1, some kp.2)) := by
    rw [Tree.zip_ids_datas]
    exact List.Perm.map _ e4
  refine ⟨s, _, e1, traverse_inv e2 hc (by omega), ?_, ?_, ?_⟩
  · rw [outOf_c, Tree.ids_length, ← Tree.post_length, e4.length_eq]
  · rw [outOf_pairs _ _ (Tree.ids_datas_length _)]
    exact hperm
  · rw [outOf_pairs _ _ (Tree.ids_datas_length _), hperm.nodup_iff]
    have : (List.map (fun kp : Key × Nat => (some kp.1, some kp.2)) kps).map
        (fun q => q.1) = (kps.map Prod.fst).map some := by
      simp [List.map_map, Function.comp_def]
    refine List.Nodup.of_map (fun q : Option Key × Option Nat => q.1) ?_
    rw [this]
    exact hnd.map (Option.some_injective _)

theorem traverse_returns_inserted_strings_witness :
    ∃ s o, insertAll 8 avl_createTree [(.str [98], 1), (.str [97], 2), (.str [99], 3)] = some s ∧
      avl_traverse 8 s .string = some o ∧
      o.c = [(Key.str [98], 1), (Key.str [97], 2), (Key.str [99], 3)].length ∧
      o.pairs.Perm ([(Key.str [98], 1), (Key.str [97], 2), (Key.str [99], 3)].map
        fun kp => (some kp.1, some kp.2)) ∧ o.pairs.Nodup :=
  traverse_returns_inserted_strings [(.str [98], 1), (.str [97], 2), (.str [99], 3)]
    (by decide) (by decide) 8 (by decide)

/-- C8 (evaluation at the failing input): on a fresh container `avl_insert`
of the signed key 5 returns for no loop budget: the macro runs
`memcpy(node->ID, id, sizeof(typeof(id)))` with the key value 5 as the source
address. So a run of inserts of distinct signed keys returns no container
whose traversal could list them. -/
theorem C8_numeric_insert_faults :
    (∀ fuel, avl_insert fuel avl_createTree (some 1) (.int 5) = none) ∧
    ∀ fuel, insertAll fuel avl_createTree [(.int 5, 1), (.int 7, 2)] = none := by
  have h : ∀ fuel, avl_insert fuel avl_createTree (some 1) (.int 5) = none :=
    fun fuel => insert_numeric_fault inv_create (by decide) (by decide) fuel _
  exact ⟨h, fun fuel => by simp [insertAll, h]⟩

end AVL

namespace AVL

theorem postorder_rep {h : Heap} :
    ∀ (t : Tree) (par : Option Nat) (fuel : Nat), Rep h t par → t.height + 1 ≤ fuel →
      postorder fuel h t.ptr = some (t.post.map fun p => (some p.1, some p.2)) := by
  intro t
  induction t with
  | nil =>
    intro par fuel _ hf
    obtain ⟨f, hf2⟩ : ∃ f, fuel = f + 1 := ⟨fuel - 1, by omega⟩
    subst hf2
    simp [postorder, Tree.ptr, Tree.post]
  | node a l k d r ihl ihr =>
    intro par fuel hr hf
    obtain ⟨ha, hl, hrr⟩ := hr
    simp only [Tree.height] at hf
    obtain ⟨f, hf2⟩ : ∃ f, fuel = f + 1 := ⟨fuel - 1, by omega⟩
    subst hf2
    have e1 := ihl (some a) f hl (by omega)
    have e2 := ihr (some a) f hrr (by omega)
    simp only [Tree.ptr, postorder, ha, Option.some_bind]
    simp only [cellOf, ne_eq, not_true_eq_false, if_false, e1, e2, Option.some_bind,
      Option.map_some', Tree.post, List.map_append, List.map_cons, List.map_nil]

/-- C9: in every reachable container the sequence that `avl_traverse`
produces for a category is the reference post-order listing of the subtree
(left subtree, right subtree, then the node, an unoccupied node contributing
nothing); when the root is occupied its pair is the last element. -/
theorem C9_traversal_is_postorder (s : AVLtree) (hs : Reachable s) (c : Category) (fuel : Nat)
    (hf : s.next ≤ fuel) :
    ∃ o L, avl_traverse fuel s c = some o ∧
      postorder fuel s.heap (avl_getRootType s c) = some L ∧ o.pairs = L ∧ o.c = L.length ∧
      ∀ r n, avl_getRootType s c = some r → s.heap r = some n → n.isLeaf = 0 →
        L.getLast? = some (n.ID, n.data) := by
  obtain ⟨R, T, hI⟩ := reachable_inv hs
  have hn := hI.next_ge
  obtain ⟨f, hf2⟩ : ∃ f, fuel = f + 1 := ⟨fuel - 1, by omega⟩
  by_cases hc : c = .unsupported
  · subst hc
    refine ⟨emptyOut, [], traverse_unsupported (by omega), ?_, rfl, rfl, ?_⟩
    · subst hf2; simp [avl_getRootType, postorder]
    · intro r n h; simp [avl_getRootType] at h
  · have hs0 := hI.sub c hc
    have hfuel := Inv.fuel_ok hs0 hf
    refine ⟨_, (T c).post.map fun p => (some p.1, some p.2), traverse_inv hI hc hf, ?_, ?_, ?_, ?_⟩
    · rw [hs0.root_eq]
      cases ht : T c with
      | nil =>
        have hcell : s.heap (R c) = some (rootCell (R c)) := by
          have := hs0.rep; rw [ht] at this; exact this
        subst hf2
        simp [postorder, hcell, rootCell, Tree.post]
      | node a l k d r =>
        have hrep := hs0.rep
        rw [ht] at hrep hfuel
        obtain ⟨ea, hrep⟩ := hrep
        subst ea
        exact postorder_rep _ _ fuel hrep hfuel
    · rw [outOf_pairs _ _ (Tree.ids_datas_length _), Tree.zip_ids_datas]
    · rw [outOf_c, Tree.ids_length, List.length_map, Tree.post_length]
    · intro r n hr hcell hleaf
      rw [hs0.root_eq, Option.some.injEq] at hr
      subst hr
      cases ht : T c with
      | nil =>
        have := hs0.rep
        rw [ht] at this
        have h2 : s.heap (R c) = some (rootCell (R c)) := this
        rw [h2, Option.some.injEq] at hcell
        subst hcell
        simp [rootCell] at hleaf
      | node a l k d r =>
        have hrep := hs0.rep
        rw [ht] at hrep
        obtain ⟨ea, hrep⟩ := hrep
        subst ea
        rw [hrep.1, Option.some.injEq] at hcell
        subst hcell
        simp [Tree.post, cellOf]

theorem C9_traversal_is_postorder_witness :
    ∃ o L, avl_traverse 8 exBAC .string = some o ∧
      postorder 8 exBAC.heap (avl_getRootType exBAC .string) = some L ∧ o.pairs = L ∧
      o.c = L.length ∧
      ∀ r n, avl_getRootType exBAC .string = some r → exBAC.heap r = some n → n.isLeaf = 0 →
        L.getLast? = some (n.ID, n.data) :=
  C9_traversal_is_postorder exBAC reachable_exBAC .string 8 (by decide)

end AVL

namespace AVL

/-- A node of a represented subtree is the root of a represented tree that
inherits the order, the well-formedness of the keys and the height bound. -/
theorem inSubtree_rep {h : Heap} {c : Category} :
    ∀ (t : Tree) (par : Option Nat) (x : Nat), Rep h t par → t.Ordered → AllOK c t →
      InSubtree h t.ptr x →
      ∃ l k d r par1, Rep h (.node x l k d r) par1 ∧ (Tree.node x l k d r).Ordered ∧
        AllOK c (.node x l k d r) ∧ (Tree.node x l k d r).height ≤ t.height := by
  intro t
  induction t with
  | nil =>
    intro par x _ _ _ hin
    simp only [Tree.ptr] at hin
    cases hin
  | node a l k d r ihl ihr =>
    intro par x hr ho hok hin
    obtain ⟨okl, okr, _⟩ := Tree.AllOK_node hok
    simp only [Tree.ptr] at hin
    cases hin with
    | here => exact ⟨l, k, d, r, par, hr, ho, hok, le_refl _⟩
    | left hc hsub =>
      rw [hr.1, Option.some.injEq] at hc
      subst hc
      obtain ⟨l1, k1, d1, r1, p1, e1, e2, e3, e4⟩ := ihl (some a) x hr.2.1 ho.2.2.1 okl hsub
      refine ⟨l1, k1, d1, r1, p1, e1, e2, e3, ?_⟩
      simp only [Tree.height] at e4 ⊢
      omega
    | right hc hsub =>
      rw [hr.1, Option.some.injEq] at hc
      subst hc
      obtain ⟨l1, k1, d1, r1, p1, e1, e2, e3, e4⟩ := ihr (some a) x hr.2.2 ho.2.2.2 okr hsub
      refine ⟨l1, k1, d1, r1, p1, e1, e2, e3, ?_⟩
      simp only [Tree.height] at e4 ⊢
      omega

theorem Tree.mem_ids {t : Tree} {x : Key} : some x ∈ t.ids ↔ x ∈ t.keys := by
  simp only [Tree.ids, Tree.keys, List.mem_map, Option.some.injEq]

theorem tTraverse_child {s : AVLtree} {t : Tree} {par : Option Nat} {fuel : Nat}
    (hr : Rep s.heap t par) (hf : t.height + 1 ≤ fuel) :
    avl_tTraverse fuel s emptyOut t.ptr = some (outOf t.ids t.datas) := by
  have := tTraverse_rep t par fuel [] [] hr hf rfl
  simpa [outOf, emptyOut] using this

/-- C5: in every reachable container, for each occupied node of a subtree
(a node below the root pointer of a category that holds a key `k`), every key
that the traversal of its left child lists does not exceed `k` (the test of
`avl_forward` sends it to the left of `k`) and every key that the traversal
of its right child lists exceeds `k` (the test sends it to the right). -/
theorem C5_search_tree_ordering (s : AVLtree) (hs : Reachable s) (c : Category) (a : Nat)
    (n : AVLtree_sub) (k : Key) (fuel : Nat) (hf : s.next ≤ fuel)
    (hin : InSubtree s.heap (avl_getRootType s c) a) (ha : s.heap a = some n)
    (hk : n.ID = some k) :
    (∃ o, avl_tTraverse fuel s emptyOut n.Lchild = some o ∧
      ∀ x, some x ∈ o.keys → forwardRight x k (typeOf c) = some false) ∧
    (∃ o, avl_tTraverse fuel s emptyOut n.Rchild = some o ∧
      ∀ x, some x ∈ o.keys → forwardRight x k (typeOf c) = some true) := by
  obtain ⟨R, T, hI⟩ := reachable_inv hs
  by_cases hc : c = .unsupported
  · subst hc
    simp only [avl_getRootType] at hin
    cases hin
  · have hs0 := hI.sub c hc
    have hfuel := Inv.fuel_ok hs0 hf
    rw [hs0.root_eq] at hin
    cases ht : T c with
    | nil =>
      exfalso
      have hcell : s.heap (R c) = some (rootCell (R c)) := by
        have := hs0.rep; rw [ht] at this; exact this
      cases hin with
      | here =>
        rw [hcell, Option.some.injEq] at ha
        subst ha
        simp [rootCell, calloc_sub] at hk
      | left h1 h2 =>
        rw [hcell, Option.some.injEq] at h1
        subst h1
        simp only [rootCell, calloc_sub] at h2
        cases h2
      | right h1 h2 =>
        rw [hcell, Option.some.injEq] at h1
        subst h1
        simp only [rootCell, calloc_sub] at h2
        cases h2
    | node b bl bk bd br =>
      have hrep := hs0.rep
      have hord := hs0.ordered
      have hok := hs0.ok
      rw [ht] at hrep hfuel hord hok
      obtain ⟨eb, hrep⟩ := hrep
      subst eb
      obtain ⟨l1, k1, d1, r1, p1, e1, e2, e3, e4⟩ :=
        inSubtree_rep (.node _ bl bk bd br) _ a hrep hord hok hin
      obtain ⟨g1, g2, g3⟩ := e1
      rw [g1, Option.some.injEq] at ha
      subst ha
      simp only [cellOf, Option.some.injEq] at hk
      subst hk
      obtain ⟨okl, okr, okk⟩ := Tree.AllOK_node e3
      simp only [Tree.height] at e4 hfuel
      refine ⟨⟨_, tTraverse_child g2 (by omega), ?_⟩, ⟨_, tTraverse_child g3 (by omega), ?_⟩⟩
      · intro x hx
        rw [outOf_keys, Tree.mem_ids] at hx
        rw [forwardRight_eq hc (okl x hx).1 okk.1, e2.1 x hx]
      · intro x hx
        rw [outOf_keys, Tree.mem_ids] at hx
        rw [forwardRight_eq hc (okr x hx).1 okk.1, e2.2.1 x hx]

theorem C5_search_tree_ordering_witness :
    (∃ o, avl_tTraverse 8 exBAC emptyOut exBACRoot.Lchild = some o ∧
      ∀ x, some x ∈ o.keys → forwardRight x (.str [98]) (typeOf .string) = some false) ∧
    (∃ o, avl_tTraverse 8 exBAC emptyOut exBACRoot.Rchild = some o ∧
      ∀ x, some x ∈ o.keys → forwardRight x (.str [98]) (typeOf .string) = some true) :=
  C5_search_tree_ordering exBAC reachable_exBAC .string 4 exBACRoot (.str [98]) 8 (by decide)
    (InSubtree.here 4) (by decide) rfl

end AVL

namespace AVL

/-! ## The narrowing of `strcmp` to `char` in `avl_compare` -/

theorem builtByInserts_insertAll {fuel : Nat} : ∀ (kps : List (Key × Nat)) (s s1 : AVLtree),
    BuiltByInserts s → (∀ kp ∈ kps, kp.1.valid = true) → insertAll fuel s kps = some s1 →
    BuiltByInserts s1 := by
  intro kps
  induction kps with
  | nil =>
    intro s s1 hs _ h
    simp only [insertAll, Option.some.injEq] at h
    exact h ▸ hs
  | cons kp rest ih =>
    intro s s1 hs hv h
    obtain ⟨k, p⟩ := kp
    simp only [insertAll] at h
    cases h2 : avl_insert fuel s (some p) k with
    | none => simp [h2] at h
    | some s2 =>
      simp only [h2, Option.some_bind] at h
      exact ih s2 s1 (BuiltByInserts.insert fuel k p hs (hv (k, p) (by simp)) h2)
        (fun kp hkp => hv kp (by simp [hkp])) h

/-- C1: the round trip fails on a string key with a byte above 127.  The
container holds only "A"; after `avl_insert` of "é" with the payload 2,
where `avl_forward` descends to the right of "A" (`strcmp` returns 130),
`avl_search` of "é" descends to the left (130 narrowed to `char` is -126) and
returns `NULL`. -/
theorem C1_roundtrip_fails_on_high_byte :
    Reachable exA ∧
    (avl_traverse 8 exA .string).map Out.keys = some [some (.str [65])] ∧
    forwardRight (.str [195, 169]) (.str [65]) 'c' = some true ∧
    toChar (strcmp [195, 169] [65]) = -126 ∧
    ((avl_insert 8 exA (some 2) (.str [195, 169])).bind fun s1 =>
      avl_search 8 s1 (.str [195, 169])) = some none :=
  ⟨@reachable_insertAll 8 [(.str [65], 1)] _ _ Reachable.create (by decide) rfl,
    by decide, by decide, by decide, by decide⟩

/-- C2: search is not exact membership on a string key with a byte above
127.  The container holds "B" and "ñ" (the traversal lists both), and
`avl_search` of "ñ" returns `NULL`. -/
theorem C2_search_misses_held_key :
    Reachable exBN ∧
    (avl_traverse 8 exBN .string).map Out.pairs =
      some [(some (.str [195, 177]), some 2), (some (.str [66]), some 1)] ∧
    avl_search 8 exBN (.str [195, 177]) = some none :=
  ⟨@reachable_insertAll 8 [(.str [66], 1), (.str [195, 177], 2)] _ _
      Reachable.create (by decide) rfl,
    by decide, by decide⟩

/-- C4: removal changes the search result of another key when a string key
has a byte above 127.  The container holds "Ä" and "A"; `avl_search` of "A"
returns `NULL` before `avl_remove` of "Ä" and the payload 2 after it. -/
theorem C4_remove_changes_other_search :
    Reachable exAeA ∧
    avl_search 8 exAeA (.str [65]) = some none ∧
    ((avl_remove 8 exAeA (.str [195, 132])).bind fun s1 => avl_search 8 s1 (.str [65])) =
      some (some 2) :=
  ⟨@reachable_insertAll 8 [(.str [195, 132], 1), (.str [65], 2)] _ _
      Reachable.create (by decide) rfl,
    by decide, by decide⟩

/-- C7: removal does not expose the duplicate when the string key has a byte
above 127.  The container was built by inserting "A", then "é" twice with
the payloads 2 and 3; `avl_remove` of "é" followed by `avl_search` of "é"
returns `NULL`, not 3, and both pairs of "é" are still in the traversal. -/
theorem C7_remove_does_not_expose_duplicate :
    BuiltByInserts exAEE ∧
    ((avl_remove 8 exAEE (.str [195, 169])).bind fun s1 =>
      avl_search 8 s1 (.str [195, 169])) = some none ∧
    ((avl_remove 8 exAEE (.str [195, 169])).bind fun s1 =>
      (avl_traverse 8 s1 .string).map Out.pairs) =
      some [(some (.str [195, 169]), some 3), (some (.str [195, 169]), some 2),
        (some (.str [65]), some 1)] :=
  ⟨@builtByInserts_insertAll 8
      [(.str [65], 1), (.str [195, 169], 2), (.str [195, 169], 3)] _ _
      BuiltByInserts.create (by decide) rfl,
    by decide, by decide⟩

end AVL

namespace AVL

/-! ## Where the narrowing is harmless

For integer keys and for strings whose bytes are all below 128 the search of
`avl_compare` takes the direction of `avl_forward`; the properties below,
which fail on other strings, hold there. -/

theorem strcmp_small : ∀ (a b : List Nat), (∀ x ∈ a, x < 128) → (∀ x ∈ b, x < 128) →
    -127 ≤ strcmp a b ∧ strcmp a b ≤ 127 := by
  intro a
  induction a with
  | nil =>
    intro b _ hb
    cases b with
    | nil => simp [strcmp]
    | cons y ys =>
      have := hb y (by simp)
      simp only [strcmp]; omega
  | cons x xs ih =>
    intro b ha hb
    have hx := ha x (by simp)
    cases b with
    | nil => simp only [strcmp]; omega
    | cons y ys =>
      have hy := hb y (by simp)
      simp only [strcmp]
      split
      · exact ih ys (fun z hz => ha z (by simp [hz])) (fun z hz => hb z (by simp [hz]))
      · omega

theorem toChar_small {r : Int} (h1 : -128 ≤ r) (h2 : r ≤ 127) : toChar r = r := by
  simp only [toChar]; omega

theorem Key.narrowSafe_str {s : List Nat} (h : (Key.str s).narrowSafe = true) :
    ∀ x ∈ s, x < 128 := by
  intro x hx
  simp only [Key.narrowSafe, List.all_eq_true, decide_eq_true_eq] at h
  exact h x hx

theorem Key.searchDir_right_iff {c : Category} {a b : Key} (ha : a.category = c)
    (hb : b.category = c) (sa : a.narrowSafe = true) (sb : b.narrowSafe = true) :
    a.searchDir b = .right ↔ a.goesRight b = true := by
  cases a <;> cases b <;> simp only [Key.category] at ha hb <;> subst ha <;>
    first
    | (exact absurd hb (by decide))
    | skip
  · simp only [Key.searchDir, Key.goesRight, decide_eq_true_eq]
    split_ifs <;> simp_all
  · simp only [Key.searchDir, Key.goesRight, decide_eq_true_eq]
    split_ifs <;> simp_all
  · rename_i x y
    have hb := strcmp_small x y (Key.narrowSafe_str sa) (Key.narrowSafe_str sb)
    have e : toChar (AVL.strcmp x y) = AVL.strcmp x y := toChar_small (by omega) hb.2
    simp only [Key.searchDir, Key.goesRight, decide_eq_true_eq, e]
    split_ifs with h1 h2
    · simpa using h1
    · simp only [reduceCtorEq, false_iff]; omega
    · simp only [reduceCtorEq, false_iff]; omega
  · simp [Key.searchDir, Key.goesRight]

theorem Key.searchDir_self (a : Key) : a.searchDir a = .found := by
  cases a <;> simp [Key.searchDir, strcmp_self, toChar]

end AVL

namespace AVL

namespace Tree

theorem Agrees_node {id : Key} {a : Nat} {l : Tree} {k : Key} {d : Nat} {r : Tree}
    (h : Agrees id (node a l k d r)) :
    Agrees id l ∧ Agrees id r ∧ (id.searchDir k = .right ↔ id.goesRight k = true) :=
  ⟨fun x hx => h x (mem_keys_node.mpr (Or.inl hx)),
   fun x hx => h x (mem_keys_node.mpr (Or.inr (Or.inl hx))),
   h k (mem_keys_node.mpr (Or.inr (Or.inr rfl)))⟩

theorem agrees_of_narrowSafe {c : Category} {id : Key} {t : Tree} (hok : AllOK c t)
    (hk : id.category = c) (s1 : id.narrowSafe = true)
    (s2 : ∀ x ∈ t.keys, x.narrowSafe = true) : Agrees id t :=
  fun x hx => Key.searchDir_right_iff hk (hok x hx).1 s1 (s2 x hx)

theorem find_ins_self {c : Category} (hc : c ≠ .unsupported) (fresh : Nat) {id : Key}
    (d : Nat) (hk : KeyOK c id) :
    ∀ t : Tree, AllOK c t → Agrees id t → id ∉ t.keys →
      (t.ins fresh id d).find id = some (fresh, id, d) := by
  intro t
  induction t with
  | nil => intro _ _ _; simp [ins, find, Key.searchDir_self]
  | node a l k dd r ihl ihr =>
    intro hok hag hn
    obtain ⟨okl, okr, okk⟩ := AllOK_node hok
    obtain ⟨agl, agr, agk⟩ := Agrees_node hag
    rw [mem_keys_node] at hn
    have hne : id.searchDir k ≠ .found := fun h =>
      hn (Or.inr (Or.inr (Key.found_eq hc hk okk h)))
    by_cases hg : id.goesRight k = true
    · simp only [ins, hg, if_true, find, agk.mpr hg]
      exact ihr okr agr (fun h => hn (Or.inr (Or.inl h)))
    · have hnr : id.searchDir k ≠ .right := fun h => hg (agk.mp h)
      have hl : id.searchDir k = .left := by
        cases hd : id.searchDir k with
        | right => exact absurd hd hnr
        | left => rfl
        | found => exact absurd hd hne
      simp only [ins, hg, if_false, find, hl]
      exact ihl okl agl (fun h => hn (Or.inl h))

theorem find_insRoot_self {c : Category} (hc : c ≠ .unsupported) (root fresh : Nat) {id : Key}
    (d : Nat) (hk : KeyOK c id) (t : Tree) (hok : AllOK c t) (hag : Agrees id t)
    (hn : id ∉ t.keys) :
    ∃ a, (t.insRoot root fresh id d).find id = some (a, id, d) := by
  cases t with
  | nil => exact ⟨root, by simp [insRoot, find, Key.searchDir_self]⟩
  | node a l k dd r => exact ⟨fresh, find_ins_self hc fresh d hk _ hok hag hn⟩

theorem find_of_mem {c : Category} (hc : c ≠ .unsupported) {id : Key} (hk : KeyOK c id) :
    ∀ t : Tree, AllOK c t → t.Ordered → Agrees id t → id ∈ t.keys →
      ∃ a d, t.find id = some (a, id, d) := by
  intro t
  induction t with
  | nil => intro _ _ _ h; simp [keys, post] at h
  | node a l k dd r ihl ihr =>
    intro hok hord hag hm
    obtain ⟨okl, okr, okk⟩ := AllOK_node hok
    obtain ⟨agl, agr, agk⟩ := Agrees_node hag
    obtain ⟨o1, o2, o3, o4⟩ := hord
    rw [mem_keys_node] at hm
    cases hd : id.searchDir k with
    | found =>
      have := Key.found_eq hc hk okk hd
      subst this
      exact ⟨a, dd, by simp only [find, hd]⟩
    | right =>
      have hg := agk.mp hd
      simp only [find, hd]
      rcases hm with h | h | h
      · rw [o1 id h] at hg; exact absurd hg (by decide)
      · exact ihr okr o4 agr h
      · subst h; rw [Key.searchDir_self] at hd; exact absurd hd (by decide)
    | left =>
      have hg : id.goesRight k ≠ true := fun h => by
        rw [agk.mpr h] at hd; exact absurd hd (by decide)
      simp only [find, hd]
      rcases hm with h | h | h
      · exact ihl okl o3 agl h
      · exact absurd (o2 id h) hg
      · subst h; rw [Key.searchDir_self] at hd; exact absurd hd (by decide)

end Tree

/-- Insert/search round trip where the narrowing is harmless: in every
reachable container whose string subtree holds only narrow-safe keys, for
every narrow-safe string key `k` that the subtree does not hold, `avl_insert`
of `(k, p)` followed by `avl_search` of `k` returns `p`. -/
theorem roundtrip_of_narrow_safe (s : AVLtree) (hs : Reachable s) (k : Key)
    (hv : k.valid = true) (hstr : k.category = .string) (p : Nat) (fuel : Nat)
    (hf : s.next + 1 ≤ fuel) (o : Out) (ho : avl_traverse fuel s k.category = some o)
    (hn : some k ∉ o.keys) (hk : k.narrowSafe = true)
    (hsafe : ∀ x, some x ∈ o.keys → x.narrowSafe = true) :
    ∃ s1, avl_insert fuel s (some p) k = some s1 ∧ avl_search fuel s1 k = some (some p) := by
  have hc : k.category ≠ .unsupported := by rw [hstr]; decide
  obtain ⟨R, T, hI⟩ := reachable_inv hs
  have hs0 := hI.sub _ hc
  rw [traverse_inv hI hc (by omega)] at ho
  cases ho
  rw [outOf_keys] at hn hsafe
  obtain ⟨s1, e1, e2, e3, e4⟩ := @insert_inv _ _ _ _ p fuel hI hstr hv (by omega)
  refine ⟨s1, e1, ?_⟩
  rw [search_inv e2 hc (by omega)]
  simp only [Function.update_same]
  have hag := Tree.agrees_of_narrowSafe hs0.ok rfl hk (fun x hx => hsafe x (Tree.mem_ids.mpr hx))
  obtain ⟨a, ha⟩ := Tree.find_insRoot_self hc (R k.category) s.next p ⟨rfl, hv⟩ _ hs0.ok hag
    (fun h => hn (Tree.mem_ids.mpr h))
  rw [ha]
  rfl

/-- Search is exact membership where the narrowing is harmless: in every
reachable container whose subtree of the key's category holds only
narrow-safe keys, for every narrow-safe key `k`, `avl_search` returns `NULL`
exactly when the traversal does not list `k`, and a payload it returns is
paired with `k` in the traversal. -/
theorem search_exact_of_narrow_safe (s : AVLtree) (hs : Reachable s) (k : Key)
    (hv : k.valid = true) (hc : k.category ≠ .unsupported) (fuel : Nat)
    (hf : s.next ≤ fuel) (o : Out) (ho : avl_traverse fuel s k.category = some o)
    (hk : k.narrowSafe = true) (hsafe : ∀ x, some x ∈ o.keys → x.narrowSafe = true) :
    (avl_search fuel s k = some none ↔ some k ∉ o.keys) ∧
    ∀ p, avl_search fuel s k = some (some p) → (some k, some p) ∈ o.pairs := by
  obtain ⟨R, T, hI⟩ := reachable_inv hs
  have hs0 := hI.sub _ hc
  rw [traverse_inv hI hc hf] at ho
  cases ho
  rw [outOf_keys] at hsafe
  rw [outOf_keys, outOf_pairs _ _ (Tree.ids_datas_length _), search_inv hI hc hf,
    Tree.zip_ids_datas, Tree.mem_ids]
  have hag := Tree.agrees_of_narrowSafe hs0.ok rfl hk (fun x hx => hsafe x (Tree.mem_ids.mpr hx))
  constructor
  · constructor
    · intro h hm
      obtain ⟨a, d, e⟩ := Tree.find_of_mem hc ⟨rfl, hv⟩ _ hs0.ok hs0.ordered hag hm
      rw [e] at h
      simp at h
    · intro h
      rw [Tree.find_none_of_not_mem hc hs0.ok ⟨rfl, hv⟩ h]
      rfl
  · intro p h
    cases hfind : (T k.category).find k with
    | none => rw [hfind] at h; simp at h
    | some res =>
      obtain ⟨a, k1, d⟩ := res
      rw [hfind] at h
      simp only [Option.map_some', Option.some.injEq] at h
      subst h
      obtain ⟨_, g2, g3⟩ := Tree.find_some _ _ _ _ hfind
      have hk1 : k1 ∈ (T k.category).keys := by
        simp only [Tree.keys, List.mem_map]
        exact ⟨(k1, d), g2, rfl⟩
      have e := Key.found_eq hc ⟨rfl, hv⟩ (hs0.ok k1 hk1) g3
      subst e
      rw [List.mem_map]
      exact ⟨(k, d), g2, rfl⟩

end AVL

namespace AVL

namespace Tree

theorem not_mem_of_gt_left {id k : Key} {l : Tree} (ho : ∀ x ∈ l.keys, x.goesRight k = false)
    (hg : id.goesRight k = true) : id ∉ l.keys := fun h => by
  rw [ho id h] at hg; exact absurd hg (by decide)

theorem not_mem_of_le_right {id k : Key} {r : Tree} (ho : ∀ x ∈ r.keys, x.goesRight k = true)
    (hg : id.goesRight k ≠ true) : id ∉ r.keys := fun h => hg (ho id h)

theorem searchDir_cases {c : Category} (hc : c ≠ .unsupported) {id k : Key} (hk : KeyOK c id)
    (hkk : KeyOK c k) (hne : id ≠ k) (hag : id.searchDir k = .right ↔ id.goesRight k = true) :
    (id.searchDir k = .right ∧ id.goesRight k = true) ∨
    (id.searchDir k = .left ∧ id.goesRight k ≠ true) := by
  cases hd : id.searchDir k with
  | right => exact Or.inl ⟨rfl, hag.mp hd⟩
  | left => exact Or.inr ⟨rfl, fun h => by rw [hag.mpr h] at hd; exact absurd hd (by decide)⟩
  | found => exact absurd (Key.found_eq hc hk hkk hd) hne

theorem lookup_none_of_not_mem {c : Category} (hc : c ≠ .unsupported) {t : Tree} {k : Key}
    (hok : AllOK c t) (hk : KeyOK c k) (hn : k ∉ t.keys) : t.lookup k = none := by
  simp only [lookup, find_none_of_not_mem hc hok hk hn, Option.map_none']

theorem lookup_node_right {id k : Key} (a : Nat) (l : Tree) (d : Nat) (r : Tree)
    (h : id.searchDir k = .right) : (node a l k d r).lookup id = r.lookup id := by
  simp only [lookup, find, h]

theorem lookup_node_left {id k : Key} (a : Nat) (l : Tree) (d : Nat) (r : Tree)
    (h : id.searchDir k = .left) : (node a l k d r).lookup id = l.lookup id := by
  simp only [lookup, find, h]

theorem lookup_node_found {id k : Key} (a : Nat) (l : Tree) (d : Nat) (r : Tree)
    (h : id.searchDir k = .found) : (node a l k d r).lookup id = some d := by
  simp only [lookup, find, h, Option.map_some']

theorem lookup_delMax {c : Category} (hc : c ≠ .unsupported) {id : Key} (hk : KeyOK c id) :
    ∀ l : Tree, AllOK c l → l.Ordered → Agrees id l → ∀ k1 d1, l.maxKD = some (k1, d1) →
      (id = k1 → l.lookup id = some d1) ∧ (id ≠ k1 → l.delMax.lookup id = l.lookup id) := by
  intro l
  induction l with
  | nil => intro _ _ _ k1 d1 h; simp [maxKD] at h
  | node b bl bk bd br _ ihr =>
    intro hok hord hag k1 d1 hm
    obtain ⟨okl, okr, okb⟩ := AllOK_node hok
    obtain ⟨_, agr, agb⟩ := Agrees_node hag
    obtain ⟨o1, o2, _, o4⟩ := hord
    cases br with
    | nil =>
      simp only [maxKD, Option.some.injEq, Prod.mk.injEq] at hm
      obtain ⟨e1, e2⟩ := hm
      subst e1 e2
      constructor
      · intro e
        subst e
        exact lookup_node_found _ _ _ _ (Key.searchDir_self _)
      · intro hne
        simp only [delMax]
        rcases searchDir_cases hc hk okb hne agb with ⟨h1, h2⟩ | ⟨h1, _⟩
        · rw [lookup_node_right _ _ _ _ h1]
          simp only [lookup, find, Option.map_none']
          exact lookup_none_of_not_mem hc okl hk (not_mem_of_gt_left o1 h2)
        · rw [lookup_node_left _ _ _ _ h1]
    | node ra rl rk rd rr =>
      have hm' : (node ra rl rk rd rr).maxKD = some (k1, d1) := by simpa [maxKD] using hm
      have hk1 : k1 ∈ (node ra rl rk rd rr).keys := maxKD_mem hm'
      obtain ⟨i1, i2⟩ := ihr okr o4 agr k1 d1 hm'
      have hdm : (node b bl bk bd (node ra rl rk rd rr)).delMax =
          node b bl bk bd (node ra rl rk rd rr).delMax := rfl
      constructor
      · intro e
        have hg : id.goesRight bk = true := e ▸ o2 k1 hk1
        rw [lookup_node_right _ _ _ _ (agb.mpr hg)]
        exact i1 e
      · intro hne
        rw [hdm]
        by_cases hb : id = bk
        · subst hb
          rw [lookup_node_found _ _ _ _ (Key.searchDir_self _),
            lookup_node_found _ _ _ _ (Key.searchDir_self _)]
        · rcases searchDir_cases hc hk okb hb agb with ⟨h1, _⟩ | ⟨h1, _⟩
          · rw [lookup_node_right _ _ _ _ h1, lookup_node_right _ _ _ _ h1]
            exact i2 hne
          · rw [lookup_node_left _ _ _ _ h1, lookup_node_left _ _ _ _ h1]

theorem lookup_delRoot {c : Category} (hc : c ≠ .unsupported) {id : Key} (hk : KeyOK c id)
    (x : Nat) (l : Tree) (k : Key) (d : Nat) (r : Tree) (hok : AllOK c (node x l k d r))
    (hord : (node x l k d r).Ordered) (hag : Agrees id (node x l k d r)) (hne : id ≠ k) :
    (node x l k d r).delRoot.lookup id = (node x l k d r).lookup id := by
  obtain ⟨okl, okr, okx⟩ := AllOK_node hok
  obtain ⟨agl, agr, agx⟩ := Agrees_node hag
  obtain ⟨o1, o2, o3, o4⟩ := hord
  have hcase := searchDir_cases hc hk okx hne agx
  cases l with
  | nil =>
    cases r with
    | nil =>
      rcases hcase with ⟨h1, _⟩ | ⟨h1, _⟩
      · rw [lookup_node_right _ _ _ _ h1]; rfl
      · rw [lookup_node_left _ _ _ _ h1]; rfl
    | node ra rl rk rd rr =>
      simp only [delRoot]
      rcases hcase with ⟨h1, _⟩ | ⟨h1, h2⟩
      · rw [lookup_node_right _ _ _ _ h1]
      · rw [lookup_node_left _ _ _ _ h1]
        rw [lookup_none_of_not_mem hc okr hk (not_mem_of_le_right o2 h2)]
        rfl
  | node la ll lk ld lr =>
    cases r with
    | nil =>
      simp only [delRoot]
      rcases hcase with ⟨h1, h2⟩ | ⟨h1, _⟩
      · rw [lookup_node_right _ _ _ _ h1]
        rw [lookup_none_of_not_mem hc okl hk (not_mem_of_gt_left o1 h2)]
        rfl
      · rw [lookup_node_left _ _ _ _ h1]
    | node ra rl rk rd rr =>
      obtain ⟨k1, d1, e1, _⟩ := delMax_post (node la ll lk ld lr) (by simp)
      simp only [delRoot, e1]
      have hk1 : k1 ∈ (node la ll lk ld lr).keys := maxKD_mem e1
      have okk1 := okl k1 hk1
      obtain ⟨i1, i2⟩ := lookup_delMax hc hk _ okl o3 agl k1 d1 e1
      have hle := delMax_le_max _ k1 d1 okl o3 e1
      rcases hcase with ⟨h1, h2⟩ | ⟨h1, h2⟩
      · -- the key exceeds the removed key, hence the promoted one
        rw [lookup_node_right _ _ _ _ h1]
        have hg : id.goesRight k1 = true :=
          Key.goesRight_of_gt_of_not hc hk okx okk1 h2 (o1 k1 hk1)
        rw [lookup_node_right _ _ _ _ ((agl k1 hk1).mpr hg)]
      · rw [lookup_node_left _ _ _ _ h1]
        by_cases hb : id = k1
        · rw [i1 hb]
          subst hb
          exact lookup_node_found _ _ _ _ (Key.searchDir_self _)
        · rcases searchDir_cases hc hk okk1 hb (agl k1 hk1) with ⟨g1, g2⟩ | ⟨g1, _⟩
          · rw [lookup_node_right _ _ _ _ g1]
            rw [lookup_none_of_not_mem hc okr hk (not_mem_of_le_right o2 h2)]
            symm
            refine lookup_none_of_not_mem hc okl hk ?_
            intro hm
            -- every key of the left subtree is the biggest one or below it
            obtain ⟨k2, d2, e2, e3⟩ := delMax_post (node la ll lk ld lr) (by simp)
            rw [e1] at e2
            simp only [Option.some.injEq, Prod.mk.injEq] at e2
            obtain ⟨r1, r2⟩ := e2
            subst r1 r2
            have hperm := List.Perm.map Prod.fst e3
            have : id ∈ k1 :: (node la ll lk ld lr).delMax.keys := by
              simp only [keys] at hm ⊢
              have := hperm.mem_iff.mp hm
              simpa using this
            rcases List.mem_cons.mp this with q | q
            · exact hb q
            · rw [hle id q] at g2; exact absurd g2 (by decide)
          · rw [lookup_node_left _ _ _ _ g1]
            exact i2 hb

theorem lookup_del_other {c : Category} (hc : c ≠ .unsupported) {id k : Key} (hk : KeyOK c id)
    (hkk : KeyOK c k) (hne : id ≠ k) :
    ∀ t : Tree, AllOK c t → t.Ordered → Agrees id t → t.addrs.Nodup →
      ∀ a k1 d1, t.find k = some (a, k1, d1) → (t.del a).lookup id = t.lookup id := by
  intro t
  induction t with
  | nil => intro _ _ _ _ a k1 d1 h; simp [find] at h
  | node b l kb db r ihl ihr =>
    intro hok hord hag hnd a k1 d1 hf
    obtain ⟨okl, okr, okb⟩ := AllOK_node hok
    obtain ⟨agl, agr, agb⟩ := Agrees_node hag
    rw [nodup_node] at hnd
    obtain ⟨⟨hbl, hbr⟩, hndl, hndr, hdisj⟩ := hnd
    simp only [find] at hf
    cases hd : k.searchDir kb with
    | found =>
      simp only [hd, Option.some.injEq, Prod.mk.injEq] at hf
      obtain ⟨h1, h2, h3⟩ := hf
      subst h1 h2 h3
      have e := Key.found_eq hc hkk okb hd
      subst e
      rw [del_root]
      exact lookup_delRoot hc hk _ _ _ _ _ hok hord hag hne
    | right =>
      simp only [hd] at hf
      have hm := (find_some r a k1 d1 hf).1
      have hab : a ≠ b := fun e => hbr (e ▸ hm)
      rw [del_ne hab, del_not_mem a l (fun e => hdisj e hm)]
      have ih := ihr okr hord.2.2.2 agr hndr a k1 d1 hf
      cases hd2 : id.searchDir kb with
      | right => rw [lookup_node_right _ _ _ _ hd2, lookup_node_right _ _ _ _ hd2]; exact ih
      | left => rw [lookup_node_left _ _ _ _ hd2, lookup_node_left _ _ _ _ hd2]
      | found => rw [lookup_node_found _ _ _ _ hd2, lookup_node_found _ _ _ _ hd2]
    | left =>
      simp only [hd] at hf
      have hm := (find_some l a k1 d1 hf).1
      have hab : a ≠ b := fun e => hbl (e ▸ hm)
      rw [del_ne hab, del_not_mem a r (fun e => hdisj hm e)]
      have ih := ihl okl hord.2.2.1 agl hndl a k1 d1 hf
      cases hd2 : id.searchDir kb with
      | right => rw [lookup_node_right _ _ _ _ hd2, lookup_node_right _ _ _ _ hd2]
      | left => rw [lookup_node_left _ _ _ _ hd2, lookup_node_left _ _ _ _ hd2]; exact ih
      | found => rw [lookup_node_found _ _ _ _ hd2, lookup_node_found _ _ _ _ hd2]

end Tree

end AVL

namespace AVL

/-- Removal leaves other searches unchanged where the narrowing is harmless:
in every reachable container whose subtree of the category holds only
narrow-safe keys, for all keys `k` and `k1` of that category with `k1`
narrow-safe and different from `k`, `avl_search` of `k1` after `avl_remove` of
`k` returns what it returned before. -/
theorem remove_frame_of_narrow_safe (s : AVLtree) (hs : Reachable s) (k k1 : Key)
    (hv : k.valid = true) (hv1 : k1.valid = true) (hcat : k1.category = k.category)
    (hne : k1 ≠ k) (fuel : Nat) (hf : s.next ≤ fuel) (o : Out)
    (ho : avl_traverse fuel s k.category = some o) (hk1 : k1.narrowSafe = true)
    (hsafe : ∀ x, some x ∈ o.keys → x.narrowSafe = true) :
    ∃ s1, avl_remove fuel s k = some s1 ∧ avl_search fuel s1 k1 = avl_search fuel s k1 := by
  obtain ⟨R, T, hI⟩ := reachable_inv hs
  by_cases hc : k.category = .unsupported
  · exact ⟨s, remove_unsupported hc, rfl⟩
  · have hc1 : k1.category ≠ .unsupported := hcat ▸ hc
    have hs0 := hI.sub _ hc
    rw [traverse_inv hI hc hf] at ho
    cases ho
    rw [outOf_keys] at hsafe
    obtain ⟨s1, R1, e1, e2, e3⟩ := @remove_inv _ _ _ k _ hI hc hf
    refine ⟨s1, e1, ?_⟩
    rw [search_inv e3 hc1 (by omega), search_inv hI hc1 hf, hcat]
    simp only [Function.update_same]
    have hag := Tree.agrees_of_narrowSafe hs0.ok hcat hk1
      (fun x hx => hsafe x (Tree.mem_ids.mpr hx))
    congr 1
    cases hfind : (T k.category).find k with
    | none => simp only [Tree.removed, hfind]
    | some res =>
      obtain ⟨a, k2, d2⟩ := res
      simp only [Tree.removed, hfind]
      exact Tree.lookup_del_other hc ⟨hcat, hv1⟩ ⟨rfl, hv⟩ hne _ hs0.ok hs0.ordered hag
        hs0.nodup a k2 d2 hfind

theorem insertAll_append (fuel : Nat) : ∀ (xs ys : List (Key × Nat)) (s : AVLtree),
    insertAll fuel s (xs ++ ys) = (insertAll fuel s xs).bind fun s1 => insertAll fuel s1 ys := by
  intro xs
  induction xs with
  | nil => intro ys s; rfl
  | cons x xs ih =>
    intro ys s
    obtain ⟨k, p⟩ := x
    simp only [List.cons_append, insertAll]
    cases avl_insert fuel s (some p) k with
    | none => rfl
    | some s1 => exact ih ys s1

/-- Removal exposes the duplicate where the narrowing is harmless: when the
narrow-safe string keys are inserted into a fresh
container, the key `k` exactly twice, first with the payload `p1` and later
with `p2`, `avl_remove` of `k` followed by `avl_search` of `k` returns `p2`. -/
theorem remove_exposes_duplicate_of_narrow_safe (A B C : List (Key × Nat)) (k : Key)
    (p1 p2 : Nat) (hstr : k.category = .string)
    (hk : ∀ kp ∈ A ++ (k, p1) :: (B ++ (k, p2) :: C),
      kp.1.category = k.category ∧ kp.1.valid = true ∧ kp.1.narrowSafe = true)
    (hA : k ∉ A.map Prod.fst) (hB : k ∉ B.map Prod.fst) (hC : k ∉ C.map Prod.fst)
    (fuel : Nat) (hf : (A ++ (k, p1) :: (B ++ (k, p2) :: C)).length + 5 ≤ fuel) :
    ∃ s s1, insertAll fuel avl_createTree (A ++ (k, p1) :: (B ++ (k, p2) :: C)) = some s ∧
      avl_remove fuel s k = some s1 ∧ avl_search fuel s1 k = some (some p2) := by
  have hc : k.category ≠ .unsupported := by rw [hstr]; decide
  have hkk := hk (k, p1) (by simp)
  simp only [true_and] at hkk
  have hlen : (A ++ (k, p1) :: (B ++ (k, p2) :: C)).length
      = A.length + (1 + (B ++ (k, p2) :: C).length) := by
    simp only [List.append_assoc, List.length_append, List.length_cons]
    omega
  rw [hlen] at hf
  -- the keys before the first insertion of `k`
  obtain ⟨sA, TA, a1, a2, a3, a4, _⟩ := @insertAll_inv _ hstr fuel A avl_createTree R0
    (fun _ => .nil) inv_create (fun kp hkp => ⟨(hk kp (by simp [hkp])).1, (hk kp (by simp [hkp])).2.1⟩)
    (by show 5 + A.length ≤ fuel; omega)
  have a3' : sA.next ≤ 5 + A.length := a3
  simp only [Tree.post, List.append_nil] at a4
  have hsA := a2.sub _ hc
  have hnotin : k ∉ (TA k.category).keys := by
    simp only [Tree.keys]
    rw [(List.Perm.map Prod.fst a4).mem_iff]
    exact hA
  have hsafeA : ∀ x ∈ (TA k.category).keys, x.narrowSafe = true := by
    intro x hx
    simp only [Tree.keys] at hx
    rw [(List.Perm.map Prod.fst a4).mem_iff, List.mem_map] at hx
    obtain ⟨kp, h1, h2⟩ := hx
    exact h2 ▸ (hk kp (by simp [h1])).2.2
  -- the first insertion of `k`
  obtain ⟨s2, b1, b2, b3, b4⟩ := @insert_inv _ _ _ _ p1 fuel a2 hstr hkk.1 (by omega)
  obtain ⟨ad, hfd⟩ := Tree.find_insRoot_self hc (R0 k.category) sA.next p1 ⟨rfl, hkk.1⟩ _
    hsA.ok (Tree.agrees_of_narrowSafe hsA.ok rfl hkk.2 hsafeA) hnotin
  have hperm2 := Tree.insRoot_post_perm (R0 k.category) sA.next k p1 (TA k.category)
  -- the remaining insertions
  obtain ⟨s3, T3, c1, c2, c3, c4, c5⟩ := @insertAll_inv _ hstr fuel (B ++ (k, p2) :: C) s2 R0 _ b2
    (fun kp hkp => ⟨(hk kp (by
        simp only [List.mem_append, List.mem_cons] at hkp ⊢; tauto)).1,
      (hk kp (by simp only [List.mem_append, List.mem_cons] at hkp ⊢; tauto)).2.1⟩)
    (by omega)
  simp only [Function.update_same] at c4 c5
  have hfind3 := c5 k _ hfd
  have hs3 := c2.sub _ hc
  -- the removal
  obtain ⟨s4, R4, d1, d2, d3⟩ := @remove_inv _ _ _ k fuel c2 hc (by omega)
  have hrm : (T3 k.category).removed k = (T3 k.category).del ad := by
    simp only [Tree.removed, hfind3]
  have hs4 := d3.sub _ hc
  simp only [Function.update_same, hrm] at hs4
  have hperm3 := Tree.find_del_post _ _ _ _ hs3.nodup hfind3
  -- the pairs that are left
  have hrest : ((T3 k.category).del ad).post.Perm (B ++ (k, p2) :: C ++ A) := by
    have h1 : ((k, p1) :: ((T3 k.category).del ad).post).Perm
        ((k, p1) :: (B ++ (k, p2) :: C ++ A)) := by
      refine hperm3.symm.trans (c4.trans ?_)
      refine (List.Perm.append_left _ (hperm2.trans (List.Perm.cons _ a4))).trans ?_
      exact List.perm_middle
    exact h1.cons_inv
  have hsafe4 : ∀ x ∈ ((T3 k.category).del ad).keys, x.narrowSafe = true := by
    intro x hx
    simp only [Tree.keys] at hx
    rw [(List.Perm.map Prod.fst hrest).mem_iff, List.mem_map] at hx
    obtain ⟨kp, h1, h2⟩ := hx
    exact h2 ▸ (hk kp (by
      simp only [List.mem_append, List.mem_cons] at h1 ⊢; tauto)).2.2
  have hmem4 : k ∈ ((T3 k.category).del ad).keys := by
    simp only [Tree.keys]
    rw [(List.Perm.map Prod.fst hrest).mem_iff]
    simp
  obtain ⟨a5, d5, hfind5⟩ := Tree.find_of_mem hc ⟨rfl, hkk.1⟩ _ hs4.ok hs4.ordered
    (Tree.agrees_of_narrowSafe hs4.ok rfl hkk.2 hsafe4) hmem4
  have hd5 : d5 = p2 := by
    have h1 := (Tree.find_some _ _ _ _ hfind5).2.1
    rw [hrest.mem_iff] at h1
    simp only [List.mem_append, List.mem_cons, Prod.mk.injEq, true_and] at h1
    rcases h1 with (h | h | h) | h
    · exact absurd (List.mem_map.mpr ⟨(k, d5), h, rfl⟩) hB
    · exact h
    · exact absurd (List.mem_map.mpr ⟨(k, d5), h, rfl⟩) hC
    · exact absurd (List.mem_map.mpr ⟨(k, d5), h, rfl⟩) hA
  subst hd5
  refine ⟨s3, s4, ?_, d1, ?_⟩
  · rw [insertAll_append, a1]
    simp only [Option.some_bind, List.cons_append, insertAll, b1]
    exact c1
  · rw [search_inv d3 hc (by omega)]
    simp only [Function.update_same, hrm, hfind5, Option.map_some']

end AVL

namespace AVL

theorem exBACOut_narrowSafe : ∀ x, some x ∈ exBACOut.keys → x.narrowSafe = true := by
  intro x hx
  simp only [exBACOut, Out.keys, List.take, List.mem_cons, Option.some.injEq,
    List.not_mem_nil, or_false] at hx
  rcases hx with h | h | h <;> subst h <;> rfl

theorem roundtrip_of_narrow_safe_witness :
    ∃ s1, avl_insert 8 exBAC (some 4) (.str [100]) = some s1 ∧
      avl_search 8 s1 (.str [100]) = some (some 4) :=
  roundtrip_of_narrow_safe exBAC reachable_exBAC (.str [100]) rfl (by decide) 4 8 (by decide)
    exBACOut (by decide) (by decide) rfl exBACOut_narrowSafe

theorem search_exact_of_narrow_safe_witness :
    (avl_search 8 exBAC (.str [97]) = some none ↔ some (.str [97]) ∉ exBACOut.keys) ∧
    ∀ p, avl_search 8 exBAC (.str [97]) = some (some p) →
      (some (.str [97]), some p) ∈ exBACOut.pairs :=
  search_exact_of_narrow_safe exBAC reachable_exBAC (.str [97]) rfl (by decide) 8 (by decide)
    exBACOut (by decide) rfl exBACOut_narrowSafe

theorem remove_frame_of_narrow_safe_witness :
    ∃ s1, avl_remove 8 exBAC (.str [98]) = some s1 ∧
      avl_search 8 s1 (.str [97]) = avl_search 8 exBAC (.str [97]) :=
  remove_frame_of_narrow_safe exBAC reachable_exBAC (.str [98]) (.str [97]) rfl rfl rfl
    (by decide) 8 (by decide) exBACOut (by decide) rfl exBACOut_narrowSafe

theorem remove_exposes_duplicate_of_narrow_safe_witness :
    ∃ s s1, insertAll 9 avl_createTree
        ([(.str [98], 1)] ++ (.str [97], 2) :: ([(.str [99], 3)] ++ (.str [97], 4) :: [])) = some s ∧
      avl_remove 9 s (.str [97]) = some s1 ∧ avl_search 9 s1 (.str [97]) = some (some 4) :=
  remove_exposes_duplicate_of_narrow_safe [(.str [98], 1)] [(.str [99], 3)] [] (.str [97]) 2 4
    (by decide) (by decide) (by decide) (by decide) (by decide) 9 (by decide)

end AVL

namespace AVL

/-! ## Absent keys, fresh containers, unsupported keys -/

/-- C11: in every reachable container, for every well-formed key `k` that no
occupied node of the matching subtree holds (the traversal of its category
does not list it), `avl_remove` of `k` returns the container itself: the
four root pointers, the allocation state and every cell of the heap are
unchanged. -/
theorem C11_remove_absent_is_noop (s : AVLtree) (hs : Reachable s) (k : Key)
    (hv : k.valid = true) (fuel : Nat) (hf : s.next ≤ fuel) (o : Out)
    (ho : avl_traverse fuel s k.category = some o) (hn : some k ∉ o.keys) :
    avl_remove fuel s k = some s := by
  obtain ⟨R, T, hI⟩ := reachable_inv hs
  by_cases hc : k.category = .unsupported
  · exact remove_unsupported hc
  · rw [traverse_inv hI hc hf] at ho
    cases ho
    rw [outOf_keys] at hn
    have hs0 := hI.sub _ hc
    have hk : k ∉ (T k.category).keys := by
      intro hmem
      apply hn
      simp only [Tree.ids, List.mem_map]
      simp only [Tree.keys, List.mem_map] at hmem
      obtain ⟨x, hx, e⟩ := hmem
      exact ⟨x, hx, by rw [e]⟩
    have hfind := Tree.find_none_of_not_mem hc hs0.ok ⟨rfl, hv⟩ hk
    have hloop := @search_loop_sub s _ k _ _ fuel hc rfl hs0 hf
    rw [hfind] at hloop
    simp only [avl_remove, hs0.root_eq, hI.type_eq hc, hloop, Option.some_bind]

theorem C11_remove_absent_is_noop_witness :
    avl_remove 8 exBAC (.str [100]) = some exBAC :=
  C11_remove_absent_is_noop exBAC reachable_exBAC (.str [100]) rfl 8 (by decide) exBACOut
    (by decide) (by decide)

/-- C13: on the container returned by `avl_createTree`, for every key `k`,
every category `c` and every positive loop budget, `avl_search` of `k`
returns not-found, `avl_remove` of `k` returns the container unchanged, and
`avl_traverse` of `c` returns the counter zero and no pair. -/
theorem C13_empty_subtree_behaviour (k : Key) (c : Category) (fuel : Nat) :
    avl_search (fuel + 1) avl_createTree k = some none ∧
    avl_remove (fuel + 1) avl_createTree k = some avl_createTree ∧
    ∃ o, avl_traverse (fuel + 1) avl_createTree c = some o ∧ o.c = 0 ∧ o.pairs = [] := by
  refine ⟨?_, ?_, ?_⟩
  · cases k <;> cases fuel <;>
      simp [avl_search, avl_getRootType, Key.category, avl_createTree, avl_search_loop,
        avl_compare, rootCell, calloc_sub]
  · cases k <;> cases fuel <;>
      simp [avl_remove, avl_getRootType, Key.category, avl_createTree, avl_search_loop,
        avl_compare, rootCell, calloc_sub]
  · refine ⟨emptyOut, ?_, rfl, rfl⟩
    cases c <;>
      simp [avl_traverse, avl_getRootType, avl_createTree, avl_tTraverse, rootCell, calloc_sub,
        emptyOut]

/-- C15: for a key whose type is none of the supported categories, in any
container, `avl_getRootType` yields `NULL`, `avl_insert` and `avl_remove`
return the container unchanged, `avl_search` returns not-found and
`avl_traverse` returns the counter zero and no pair. -/
theorem C15_unsupported_category (s : AVLtree) (k : Key) (hk : k.category = .unsupported)
    (DATA : Option Nat) (fuel : Nat) :
    avl_getRootType s k.category = none ∧
    avl_insert fuel s DATA k = some s ∧
    avl_remove fuel s k = some s ∧
    avl_search fuel s k = some none ∧
    ∃ o, avl_traverse (fuel + 1) s k.category = some o ∧ o.c = 0 ∧ o.pairs = [] := by
  refine ⟨by rw [hk]; rfl, insert_unsupported hk, remove_unsupported hk, ?_, emptyOut, ?_, rfl, rfl⟩
  · simp [avl_search, hk, avl_getRootType]
  · rw [hk]
    exact traverse_unsupported (by omega)

theorem C15_unsupported_category_witness :
    avl_getRootType exBAC (Key.other 7).category = none ∧
    avl_insert 8 exBAC (some 1) (.other 7) = some exBAC ∧
    avl_remove 8 exBAC (.other 7) = some exBAC ∧
    avl_search 8 exBAC (.other 7) = some none ∧
    ∃ o, avl_traverse (8 + 1) exBAC (Key.other 7).category = some o ∧ o.c = 0 ∧ o.pairs = [] :=
  C15_unsupported_category exBAC (.other 7) rfl (some 1) 8

end AVL

namespace AVL

/-! ## Termination of the search -/

theorem levels_rep {h : Heap} :
    ∀ (t : Tree) (par : Option Nat) (fuel : Nat), Rep h t par → t.height + 1 ≤ fuel →
      levels fuel h t.ptr = some t.height := by
  intro t
  induction t with
  | nil =>
    intro par fuel _ hf
    obtain ⟨f, hf2⟩ : ∃ f, fuel = f + 1 := ⟨fuel - 1, by omega⟩
    subst hf2
    simp [levels, Tree.ptr, Tree.height]
  | node a l k d r ihl ihr =>
    intro par fuel hr hf
    obtain ⟨ha, hl, hrr⟩ := hr
    simp only [Tree.height] at hf
    obtain ⟨f, hf2⟩ : ∃ f, fuel = f + 1 := ⟨fuel - 1, by omega⟩
    subst hf2
    have e1 := ihl (some a) f hl (by omega)
    have e2 := ihr (some a) f hrr (by omega)
    simp only [Tree.ptr, levels, ha, Option.some_bind]
    simp only [cellOf, e1, e2, Option.some_bind, Option.map_some', Tree.height]

theorem search_loop_exNull :
    ∀ fuel, avl_search_loop fuel exNull (some 4) none (.str [97]) 'c' = none := by
  intro fuel
  induction fuel with
  | zero => rfl
  | succ f ih =>
    have e : avl_compare exNull 4 none (.str [97]) 'c' = some (some 4, none) := by decide
    simp only [avl_search_loop, e, Option.some_bind]
    exact ih

theorem reachableAny_exNull : ReachableAny exNull :=
  ReachableAny.insert 8 (.str [97]) none ReachableAny.create rfl rfl

/-- C12 (as stated, refuted): the container obtained from `avl_createTree`
by inserting the string key "a" with a `NULL` payload reference is reachable
by inserts of any payload reference, and `avl_search` of that key returns
for no loop budget: the loop `while(!DATA && node)` stays at the node found,
whose payload is `NULL`. -/
theorem C12_search_loops_on_null_payload :
    ReachableAny exNull ∧ ∀ fuel, avl_search fuel exNull (.str [97]) = none := by
  refine ⟨reachableAny_exNull, ?_⟩
  intro fuel
  have e := search_loop_exNull fuel
  have e1 : avl_getRootType exNull (Key.str [97]).category = some 4 := rfl
  have e2 : exNull.string_root = some 4 := rfl
  simp only [avl_search, e1, e2]
  simp [e]

/-- C12 (amended): in every container reachable from `avl_createTree` by
inserts of non-null payload references and removes, for every key, the
search returns: at once with not-found when the key has no subtree, and
otherwise within `hgt + 1` iterations of its loop (one node visited per
iteration), `hgt` being the height of the matching subtree, with a payload
or not-found. -/
theorem C12_search_terminates (s : AVLtree) (hs : Reachable s) (k : Key) (fuel : Nat)
    (hf : s.next ≤ fuel) :
    (avl_getRootType s k.category = none → avl_search 0 s k = some none) ∧
    ∀ root, avl_getRootType s k.category = some root →
      ∃ hgt r, levels fuel s.heap (some root) = some (hgt + 1) ∧
        avl_search (hgt + 1) s k = some r := by
  obtain ⟨R, T, hI⟩ := reachable_inv hs
  refine ⟨fun h => by simp [avl_search, h], ?_⟩
  intro root hroot
  have hc : k.category ≠ .unsupported := by
    intro h
    rw [h] at hroot
    simp [avl_getRootType] at hroot
  have hs0 := hI.sub _ hc
  have hre : R k.category = root := by
    have := hs0.root_eq
    rw [hroot] at this
    exact (Option.some.inj this).symm
  subst hre
  have hty := hI.type_eq hc
  have hrep := hs0.rep
  have hfu := Inv.fuel_ok hs0 hf
  cases ht : T k.category with
  | nil =>
    rw [ht] at hrep
    simp only [RepRoot] at hrep
    obtain ⟨f, hf2⟩ : ∃ f, fuel = f + 2 := ⟨fuel - 2, by have := hs0.next_ge; omega⟩
    subst hf2
    refine ⟨0, none, ?_, ?_⟩
    · simp [levels, hrep, rootCell, calloc_sub]
    · simp [avl_search, hroot, avl_search_loop, avl_compare, hrep, rootCell, calloc_sub]
  | node a l k1 d r =>
    rw [ht] at hrep hfu
    simp only [RepRoot] at hrep
    obtain ⟨ha, hrep⟩ := hrep
    subst ha
    have hl := levels_rep _ _ fuel hrep hfu
    have hkeys : ∀ x ∈ (Tree.node (R k.category) l k1 d r).keys, x.category = k.category := by
      intro x hx
      have := hs0.ok
      rw [ht] at this
      exact (this x hx).1
    have hsl := @search_loop_rep s _ k hc rfl _ _ (Tree.node (R k.category) l k1 d r).height hrep hkeys
      (Nat.le_refl _)
    simp only [Tree.height, Tree.ptr] at hsl hl
    have hres : ∃ r0, avl_search (max l.height r.height + 1) s k = some r0 := by
      simp only [avl_search, hroot, hty]
      rw [hsl]
      exact ⟨_, rfl⟩
    obtain ⟨r0, hr0⟩ := hres
    exact ⟨max l.height r.height, r0, hl, hr0⟩

theorem C12_search_terminates_witness :
    (avl_getRootType exBAC (Key.str [97]).category = none →
      avl_search 0 exBAC (.str [97]) = some none) ∧
    ∀ root, avl_getRootType exBAC (Key.str [97]).category = some root →
      ∃ hgt r, levels 8 exBAC.heap (some root) = some (hgt + 1) ∧
        avl_search (hgt + 1) exBAC (.str [97]) = some r :=
  C12_search_terminates exBAC reachable_exBAC (.str [97]) 8 (by decide)

end AVL

namespace AVL

/-! ## The node at an address of a represented tree -/

/-- The node at an address `x` below the root of a represented tree: the
subtree that hangs there is represented, and `x` is the root of the tree or
the child of a node `p` of the tree whose slot points to it. -/
theorem rep_at {h : Heap} :
    ∀ (t : Tree) (par : Option Nat) (x : Nat), Rep h t par → t.addrs.Nodup →
      InSubtree h t.ptr x →
      ∃ l k d r par1, Rep h (.node x l k d r) par1 ∧
        (∀ y ∈ (Tree.node x l k d r).addrs, y ∈ t.addrs) ∧
        (Tree.node x l k d r).addrs.Nodup ∧
        (Tree.node x l k d r).height ≤ t.height ∧
        ((t = .node x l k d r ∧ par1 = par) ∨
          ∃ p pc isLeft, par1 = some p ∧ p ∈ t.addrs ∧ h p = some pc ∧
            InSubtree h t.ptr p ∧ p ∉ (Tree.node x l k d r).addrs ∧ t.ptr ≠ some x ∧
            SlotOf pc (.node x l k d r) isLeft) := by
  intro t
  induction t with
  | nil =>
    intro par x _ _ hin
    simp only [Tree.ptr] at hin
    cases hin
  | node a l k d r ihl ihr =>
    intro par x hr hnd hin
    have hnd0 := hnd
    rw [Tree.nodup_node] at hnd
    obtain ⟨⟨hal, har⟩, hndl, hndr, hdisj⟩ := hnd
    simp only [Tree.ptr] at hin
    cases hin with
    | here => exact ⟨l, k, d, r, par, hr, fun y hy => hy, hnd0, le_refl _, Or.inl ⟨rfl, rfl⟩⟩
    | left hc hsub =>
      rw [hr.1, Option.some.injEq] at hc
      subst hc
      obtain ⟨l1, k1, d1, r1, p1, e1, e2, e3, e4, e5⟩ := ihl (some a) x hr.2.1 hndl hsub
      have hxl : x ∈ l.addrs := e2 x (by rw [Tree.mem_addrs_node]; exact Or.inl rfl)
      have hxa : x ≠ a := fun e => hal (e ▸ hxl)
      refine ⟨l1, k1, d1, r1, p1, e1, ?_, e3, ?_, Or.inr ?_⟩
      · intro y hy
        rw [Tree.mem_addrs_node]
        exact Or.inr (Or.inl (e2 y hy))
      · simp only [Tree.height] at e4 ⊢
        omega
      · rcases e5 with ⟨el, ep⟩ | ⟨p, pc, isLeft, f1, f2, f3, f4, f5, _, f7⟩
        · refine ⟨a, _, true, ep, ?_, hr.1, InSubtree.here a, ?_, ?_, ?_⟩
          · rw [Tree.mem_addrs_node]; exact Or.inl rfl
          · rw [← el]; exact hal
          · simpa [Tree.ptr] using hxa.symm
          · simp only [SlotOf, if_true, cellOf, el]
        · refine ⟨p, pc, isLeft, f1, ?_, f3, InSubtree.left hr.1 f4, f5, ?_, f7⟩
          · rw [Tree.mem_addrs_node]; exact Or.inr (Or.inl f2)
          · simpa [Tree.ptr] using hxa.symm
    | right hc hsub =>
      rw [hr.1, Option.some.injEq] at hc
      subst hc
      obtain ⟨l1, k1, d1, r1, p1, e1, e2, e3, e4, e5⟩ := ihr (some a) x hr.2.2 hndr hsub
      have hxr : x ∈ r.addrs := e2 x (by rw [Tree.mem_addrs_node]; exact Or.inl rfl)
      have hxa : x ≠ a := fun e => har (e ▸ hxr)
      refine ⟨l1, k1, d1, r1, p1, e1, ?_, e3, ?_, Or.inr ?_⟩
      · intro y hy
        rw [Tree.mem_addrs_node]
        exact Or.inr (Or.inr (e2 y hy))
      · simp only [Tree.height] at e4 ⊢
        omega
      · rcases e5 with ⟨el, ep⟩ | ⟨p, pc, isLeft, f1, f2, f3, f4, f5, _, f7⟩
        · refine ⟨a, _, false, ep, ?_, hr.1, InSubtree.here a, ?_, ?_, ?_⟩
          · rw [Tree.mem_addrs_node]; exact Or.inl rfl
          · rw [← el]; exact har
          · simpa [Tree.ptr] using hxa.symm
          · simp only [SlotOf, Bool.false_eq_true, if_false, cellOf, el, true_and]
            intro y hy hly
            exact hdisj (Tree.ptr_mem_addrs hly) (el ▸ hy)
        · refine ⟨p, pc, isLeft, f1, ?_, f3, InSubtree.right hr.1 f4, f5, ?_, f7⟩
          · rw [Tree.mem_addrs_node]; exact Or.inr (Or.inr f2)
          · simpa [Tree.ptr] using hxa.symm

/-- The nodes below the root pointer of a subtree: the root cell alone when
the subtree is empty, else nodes of the represented tree. -/
theorem repRoot_at {h : Heap} {root : Nat} {t : Tree} (hr : RepRoot h root t) {x : Nat}
    (hin : InSubtree h (some root) x) :
    (t = .nil ∧ x = root ∧ h root = some (rootCell root)) ∨
      (t.ptr = some root ∧ Rep h t (some root) ∧ InSubtree h t.ptr x) := by
  cases t with
  | nil =>
    simp only [RepRoot] at hr
    refine Or.inl ⟨rfl, ?_, hr⟩
    cases hin with
    | here => rfl
    | left hc hsub =>
      rw [hr, Option.some.injEq] at hc
      subst hc
      simp only [rootCell, calloc_sub] at hsub
      cases hsub
    | right hc hsub =>
      rw [hr, Option.some.injEq] at hc
      subst hc
      simp only [rootCell, calloc_sub] at hsub
      cases hsub
  | node a l k d r =>
    simp only [RepRoot] at hr
    obtain ⟨ha, hr⟩ := hr
    subst ha
    exact Or.inr ⟨rfl, hr, hin⟩

theorem inSubtree_foot {h : Heap} {root : Nat} {t : Tree} (hr : RepRoot h root t)
    (hnd : t.addrs.Nodup) {x : Nat} (hin : InSubtree h (some root) x) : x ∈ foot root t := by
  rcases repRoot_at hr hin with ⟨_, e, _⟩ | ⟨e1, e2, e3⟩
  · simp [foot, e]
  · obtain ⟨l, k, d, r, p1, _, f2, _⟩ := rep_at t _ x e2 hnd e3
    simp only [foot, List.mem_cons]
    exact Or.inr (f2 x (by rw [Tree.mem_addrs_node]; exact Or.inl rfl))

end AVL

namespace AVL

/-! ## Category isolation -/

/-- The call `avl_remove`, with what it leaves alone: the root pointers of
the other categories and every cell outside the tree of the key's category. -/
theorem remove_effect {s : AVLtree} {R : Category → Nat} {T : Category → Tree} {id : Key}
    {fuel : Nat} (hI : Inv s R T) (hc : id.category ≠ .unsupported) (hf : s.next ≤ fuel) :
    ∃ s1 R1, avl_remove fuel s id = some s1 ∧ s1.next = s.next ∧
      Inv s1 R1 (Function.update T id.category ((T id.category).removed id)) ∧
      (∀ c1, c1 ≠ id.category → avl_getRootType s1 c1 = avl_getRootType s c1) ∧
      ∀ y, y ∉ (T id.category).addrs → s1.heap y = s.heap y := by
  have hs := hI.sub _ hc
  have hloop := search_loop_sub hc rfl hs hf
  have hfuel := Inv.fuel_ok hs hf
  cases hfind : (T id.category).find id with
  | none =>
    refine ⟨s, R, ?_, rfl, ?_, fun _ _ => rfl, fun _ _ => rfl⟩
    · simp only [avl_remove, hs.root_eq, hI.type_eq hc, hloop, hfind, Option.some_bind]
    · simpa [Tree.removed, hfind] using hI
  | some res =>
    obtain ⟨a, k, d⟩ := res
    have hmem := (Tree.find_some _ a k d hfind).1
    have hstep : avl_remove fuel s id = avl_removeNode fuel s a := by
      simp only [avl_remove, hs.root_eq, hI.type_eq hc, hloop, hfind, Option.some_bind]
    have hrm : (T id.category).removed id = (T id.category).del a := by
      simp only [Tree.removed, hfind]
    rw [hstep, hrm]
    obtain ⟨s1, root1, e1, e2, e3, e4, e5, e6⟩ := @removeNode_sub _ _ _ _ _ fuel hc hs hmem
      (fun c1 h1 x hx => hI.roots_ne hc h1 hx) (by omega)
    refine ⟨s1, Function.update R id.category root1, e1, e2, ?_, e3, e6⟩
    refine hI.update hc e3 (le_of_eq e2.symm) e4 ?_ ?_
    · intro x hx _
      exact e6 x (fun h => hx (by simp [foot, h]))
    · intro x hx
      left
      simp only [foot, List.mem_cons] at hx ⊢
      rcases hx with h | h
      · exact Or.inr (h ▸ e5)
      · exact Or.inr ((Tree.del_addrs a _).subset h)

/-- The call `avl_insert`, with what it leaves alone: the four root pointers
and every allocated cell outside the subtree of the key's category. -/
theorem insert_effect {s : AVLtree} {R : Category → Nat} {T : Category → Tree} {id : Key}
    {p : Nat} {fuel : Nat} (hI : Inv s R T) (hstr : id.category = .string)
    (hv : id.valid = true) (hf : s.next ≤ fuel) :
    ∃ s1, avl_insert fuel s (some p) id = some s1 ∧
      Inv s1 R (Function.update T id.category
        ((T id.category).insRoot (R id.category) s.next id p)) ∧
      s.next ≤ s1.next ∧ s1.next ≤ s.next + 1 ∧
      (∀ c1, avl_getRootType s1 c1 = avl_getRootType s c1) ∧
      ∀ x, x ∉ foot (R id.category) (T id.category) → x < s.next → s1.heap x = s.heap x := by
  have hc : id.category ≠ .unsupported := by rw [hstr]; decide
  obtain ⟨s1, e1, e2, e3, e4, e5, e6, e7⟩ := insert_sub (p := p) hstr ⟨rfl, hv⟩ (hI.sub _ hc)
    (hI.type_eq hc) hf
  refine ⟨s1, e1, ?_, e3, e4, e2, e6⟩
  have := hI.update hc (fun c1 _ => e2 c1) e3 e5 e6
    (fun x hx => (e7 x hx).imp (fun h => h) (fun h => le_of_eq h.symm))
  simpa using this

/-- A subtree whose root pointer, cells and represented tree are the same in
two containers gives the same results. -/
theorem untouched_of {s s1 : AVLtree} {R R1 : Category → Nat} {T T1 : Category → Tree}
    (hI : Inv s R T) (hI1 : Inv s1 R1 T1) {c : Category} {fuel : Nat} (hf : s.next ≤ fuel)
    (hf1 : s1.next ≤ fuel) (hroot : avl_getRootType s1 c = avl_getRootType s c)
    (hT : T1 c = T c)
    (hframe : c ≠ .unsupported → ∀ x ∈ foot (R c) (T c), s1.heap x = s.heap x) :
    Untouched fuel s s1 c := by
  by_cases hc : c = .unsupported
  · subst hc
    refine ⟨rfl, ?_, ?_, emptyOut, ?_, ?_⟩
    · intro a ha
      simp only [avl_getRootType] at ha
      cases ha
    · intro k hk
      exact ⟨none, by simp [avl_search, hk, avl_getRootType],
        by simp [avl_search, hk, avl_getRootType]⟩
    · exact traverse_unsupported (by have := hI.next_ge; omega)
    · exact traverse_unsupported (by have := hI.next_ge; omega)
  · have hs0 := hI.sub c hc
    refine ⟨hroot, ?_, ?_, _, traverse_inv hI hc hf, ?_⟩
    · intro a ha
      rw [hs0.root_eq] at ha
      exact hframe hc a (inSubtree_foot hs0.rep hs0.nodup ha)
    · intro k hk
      subst hk
      refine ⟨_, search_inv hI hc hf, ?_⟩
      rw [search_inv hI1 hc hf1, hT]
    · rw [traverse_inv hI1 hc hf1, hT]

/-- In every reachable container `avl_insert` of a numeric key returns for no
loop budget: the macro runs `memcpy(node->ID, id, sizeof(typeof(id)))` with
the key value as the source address. -/
theorem numeric_insert_faults (s : AVLtree) (hs : Reachable s) (k : Key)
    (hk : k.category = .int ∨ k.category = .uint) (fuel : Nat) (DATA : Option Nat) :
    avl_insert fuel s DATA k = none := by
  obtain ⟨R, T, hI⟩ := reachable_inv hs
  rcases hk with h | h
  · exact insert_numeric_fault hI (by rw [h]; decide) (by rw [h]; decide) fuel DATA
  · exact insert_numeric_fault hI (by rw [h]; decide) (by rw [h]; decide) fuel DATA

theorem numeric_insert_faults_witness : avl_insert 8 exBAC (some 4) (.uint 7) = none :=
  numeric_insert_faults exBAC reachable_exBAC (.uint 7) (Or.inr rfl) 8 (some 4)

/-- Category isolation of the calls that return: in every reachable
container, for every well-formed key `k` and every category `c` other than
the category of `k`, `avl_insert` of `k` (with a payload `p`), when `k` is a
string or of no supported type, and `avl_remove` of `k` return, and each
leaves the subtree of `c` as it was: the same root pointer, the same cell at
every node below it, the same result of `avl_search` for every key of `c` and
the same result of `avl_traverse` for `c`. -/
theorem category_isolation (s : AVLtree) (hs : Reachable s) (k : Key)
    (hv : k.valid = true) (p : Nat) (c : Category) (hc : c ≠ k.category) (fuel : Nat)
    (hf : s.next + 1 ≤ fuel) :
    (k.category = .string ∨ k.category = .unsupported →
      ∃ s1, avl_insert fuel s (some p) k = some s1 ∧ Untouched fuel s s1 c) ∧
    (∃ s2, avl_remove fuel s k = some s2 ∧ Untouched fuel s s2 c) := by
  obtain ⟨R, T, hI⟩ := reachable_inv hs
  by_cases hk : k.category = .unsupported
  · have hU : Untouched fuel s s c :=
      untouched_of hI hI (by omega) (by omega) rfl rfl (fun _ _ _ => rfl)
    exact ⟨fun _ => ⟨s, insert_unsupported hk, hU⟩, ⟨s, remove_unsupported hk, hU⟩⟩
  · have hfr : ∀ c0, c0 ≠ .unsupported → c0 ≠ k.category →
        ∀ x ∈ foot (R c0) (T c0), x ∉ foot (R k.category) (T k.category) ∧ x < s.next :=
      fun c0 h0 h1 x hx => ⟨hI.disj c0 _ h0 hk h1 x hx, (hI.sub c0 h0).foot_lt x hx⟩
    constructor
    · intro hcat
      have hstr : k.category = .string := hcat.resolve_right hk
      obtain ⟨s1, e1, e2, e3, e4, e5, e6⟩ := @insert_effect _ _ _ k p fuel hI hstr hv (by omega)
      refine ⟨s1, e1, untouched_of hI e2 (by omega) (by omega) (e5 c) ?_ ?_⟩
      · exact Function.update_noteq hc _ _
      · intro h0 x hx
        exact e6 x (hfr c h0 hc x hx).1 (hfr c h0 hc x hx).2
    · obtain ⟨s2, R1, e1, e2, e3, e4, e5⟩ := @remove_effect _ _ _ k fuel hI hk (by omega)
      refine ⟨s2, e1, untouched_of hI e3 (by omega) (by omega) (e4 c hc) ?_ ?_⟩
      · exact Function.update_noteq hc _ _
      · intro h0 x hx
        apply e5
        intro hmem
        exact (hfr c h0 hc x hx).1 (by simp [foot, hmem])

theorem category_isolation_witness :
    ((Key.str [100]).category = .string ∨ (Key.str [100]).category = .unsupported →
      ∃ s1, avl_insert 8 exBAC (some 4) (.str [100]) = some s1 ∧ Untouched 8 exBAC s1 .int) ∧
    (∃ s2, avl_remove 8 exBAC (.str [100]) = some s2 ∧ Untouched 8 exBAC s2 .int) :=
  category_isolation exBAC reachable_exBAC (.str [100]) rfl 4 .int (by decide) 8 (by decide)

/-- C14 (evaluation at the failing input): in the container that holds the
string keys "b", "a", "c", `avl_insert` of the signed key 7 returns for no
loop budget (the macro runs `memcpy(node->ID, id, sizeof(typeof(id)))` with
the key value 7 as the source address), so there is no container after the
call in which the string subtree could be the same; before the call
`avl_search` of "a" returns its payload. -/
theorem C14_numeric_insert_faults :
    Reachable exBAC ∧ avl_search 8 exBAC (.str [97]) = some (some 2) ∧
      ∀ fuel, avl_insert fuel exBAC (some 4) (.int 7) = none := by
  refine ⟨reachable_exBAC, by decide, ?_⟩
  intro fuel
  obtain ⟨R, T, hI⟩ := reachable_inv reachable_exBAC
  exact insert_numeric_fault hI (by decide) (by decide) fuel _

end AVL

namespace AVL

/-! ## Removal of the last key -/

theorem Tree.ptr_eq_none {t : Tree} (h : t.ptr = none) : t = .nil := by
  cases t with
  | nil => rfl
  | node a l k d r => simp [Tree.ptr] at h

end AVL

namespace AVL

/-! ## Reading a represented tree off the heap -/

theorem subtree_rep {h : Heap} :
    ∀ (t : Tree) (par : Option Nat) (fuel : Nat), Rep h t par → t.height + 1 ≤ fuel →
      subtree fuel h t.ptr = some t := by
  intro t
  induction t with
  | nil =>
    intro par fuel _ hf
    obtain ⟨f, hf2⟩ : ∃ f, fuel = f + 1 := ⟨fuel - 1, by omega⟩
    subst hf2
    simp [subtree, Tree.ptr]
  | node a l k d r ihl ihr =>
    intro par fuel hr hf
    obtain ⟨ha, hl, hrr⟩ := hr
    simp only [Tree.height] at hf
    obtain ⟨f, hf2⟩ : ∃ f, fuel = f + 1 := ⟨fuel - 1, by omega⟩
    subst hf2
    have e1 := ihl (some a) f hl (by omega)
    have e2 := ihr (some a) f hrr (by omega)
    simp only [Tree.ptr, subtree, ha, Option.some_bind]
    simp only [cellOf, e1, e2, Option.some_bind, Option.map_some']

theorem walk_rep {h : Heap} :
    ∀ (t : Tree) (par : Option Nat) (fuel : Nat), Rep h t par → t.height + 1 ≤ fuel →
      walk fuel h t.ptr = some t.addrs := by
  intro t
  induction t with
  | nil =>
    intro par fuel _ hf
    obtain ⟨f, hf2⟩ : ∃ f, fuel = f + 1 := ⟨fuel - 1, by omega⟩
    subst hf2
    simp [walk, Tree.ptr, Tree.addrs]
  | node a l k d r ihl ihr =>
    intro par fuel hr hf
    obtain ⟨ha, hl, hrr⟩ := hr
    simp only [Tree.height] at hf
    obtain ⟨f, hf2⟩ : ∃ f, fuel = f + 1 := ⟨fuel - 1, by omega⟩
    subst hf2
    have e1 := ihl (some a) f hl (by omega)
    have e2 := ihr (some a) f hrr (by omega)
    simp only [Tree.ptr, walk, ha, Option.some_bind]
    simp only [cellOf, e1, e2, Option.some_bind, Option.map_some', Tree.addrs]

/-- Two heaps that represent the same tree hold the same cells at its nodes. -/
theorem Rep.agree {h h1 : Heap} :
    ∀ (t : Tree) (par : Option Nat), Rep h t par → Rep h1 t par →
      ∀ y ∈ t.addrs, h1 y = h y := by
  intro t
  induction t with
  | nil => intro par _ _ y hy; simp [Tree.addrs] at hy
  | node a l k d r ihl ihr =>
    intro par hr hr1 y hy
    rw [Tree.mem_addrs_node] at hy
    rcases hy with e | e | e
    · rw [e, hr.1, hr1.1]
    · exact ihl _ hr.2.1 hr1.2.1 y e
    · exact ihr _ hr.2.2 hr1.2.2 y e

theorem mem_inSubtree {h : Heap} :
    ∀ (t : Tree) (par : Option Nat) (x : Nat), Rep h t par → x ∈ t.addrs →
      InSubtree h t.ptr x := by
  intro t
  induction t with
  | nil => intro par x _ hx; simp [Tree.addrs] at hx
  | node a l k d r ihl ihr =>
    intro par x hr hx
    rw [Tree.mem_addrs_node] at hx
    simp only [Tree.ptr]
    rcases hx with e | e | e
    · rw [e]; exact InSubtree.here a
    · exact InSubtree.left hr.1 (ihl _ x hr.2.1 e)
    · exact InSubtree.right hr.1 (ihr _ x hr.2.2 e)

theorem Tree.height_delMax : ∀ l : Tree, l.delMax.height ≤ l.height := by
  intro l
  induction l with
  | nil => simp [Tree.delMax]
  | node a l k d r _ ihr =>
    cases r with
    | nil => simp only [Tree.delMax, Tree.height]; omega
    | node ra rl rk rd rr =>
      simp only [Tree.delMax, Tree.height] at ihr ⊢
      omega

theorem Tree.ptr_some {t : Tree} {a : Nat} (h : t.ptr = some a) :
    ∃ l k d r, t = .node a l k d r := by
  cases t with
  | nil => simp [Tree.ptr] at h
  | node b l k d r =>
    simp only [Tree.ptr, Option.some.injEq] at h
    exact ⟨l, k, d, r, by rw [h]⟩

/-- The subtree of a category of a container that satisfies the invariant,
at a node below its root pointer: the empty root cell, or a represented
node of the tree of the category. -/
theorem inv_at {s : AVLtree} {R : Category → Nat} {T : Category → Tree} (hI : Inv s R T)
    {c : Category} {x : Nat} (hin : InSubtree s.heap (avl_getRootType s c) x) :
    c ≠ .unsupported ∧ avl_getRootType s c = some (R c) ∧
      ((T c = .nil ∧ x = R c ∧ s.heap x = some (rootCell x)) ∨
        ((T c).ptr = some (R c) ∧ Rep s.heap (T c) (some (R c)) ∧ InSubtree s.heap (T c).ptr x)) := by
  have hc : c ≠ .unsupported := by
    intro h
    rw [h] at hin
    simp only [avl_getRootType] at hin
    cases hin
  have hs0 := hI.sub c hc
  refine ⟨hc, hs0.root_eq, ?_⟩
  rw [hs0.root_eq] at hin
  rcases repRoot_at hs0.rep hin with ⟨e1, e2, e3⟩ | h
  · exact Or.inl ⟨e1, e2, by rw [e2]; exact e3⟩
  · exact Or.inr h

end AVL

namespace AVL

/-! ## Children of a node after insertions -/

/-- C16 (as stated, refuted): the container built by inserting the string
keys "b" then "a" has, at the root of its string subtree, an occupied node
with a left child and no right child. -/
theorem C16_occupied_node_with_one_child :
    BuiltByInserts exBA ∧ avl_getRootType exBA .string = some 4 ∧
      ∃ n, exBA.heap 4 = some n ∧ n.isLeaf = 0 ∧ n.ID = some (.str [98]) ∧
        n.Lchild = some 5 ∧ n.Rchild = none :=
  ⟨@builtByInserts_insertAll 8 [(.str [98], 1), (.str [97], 2)] _ _ BuiltByInserts.create
    (by decide) rfl, rfl, _, rfl, rfl, rfl, rfl, rfl⟩

/-- C16 (amended): in every container built from `avl_createTree` by
inserts, a node that has a child is occupied and has one or two children,
each of them an occupied node whose parent link is the node; and
`avl_checkChild`, by which insertion prepares its descent past a node,
provides the child on the side asked for only, leaving the link to the other
child as it is. -/
theorem C16_children_are_occupied (s : AVLtree) (hs : BuiltByInserts s) (c : Category)
    (x : Nat) (n : AVLtree_sub) (hin : InSubtree s.heap (avl_getRootType s c) x)
    (hx : s.heap x = some n) :
    (∀ ch, n.Lchild = some ch ∨ n.Rchild = some ch →
      n.isLeaf = 0 ∧ n.ID ≠ none ∧
        ∃ m, s.heap ch = some m ∧ m.isLeaf = 0 ∧ m.ID ≠ none ∧ m.parent = some x) ∧
    (∃ s1 n1, avl_checkChild s x 'l' = some s1 ∧ s1.heap x = some n1 ∧
      n1.Lchild ≠ none ∧ n1.Rchild = n.Rchild) ∧
    (∃ s1 n1, avl_checkChild s x 'r' = some s1 ∧ s1.heap x = some n1 ∧
      n1.Rchild ≠ none ∧ n1.Lchild = n.Lchild) := by
  obtain ⟨R, T, hI⟩ := reachable_inv (builtByInserts_reachable hs)
  obtain ⟨hc, hroot, hcase⟩ := inv_at hI hin
  have hs0 := hI.sub c hc
  have hlt : x < s.next := by
    apply hs0.foot_lt
    rw [hroot] at hin
    exact inSubtree_foot hs0.rep hs0.nodup hin
  have hne : x ≠ s.next := by omega
  refine ⟨?_, ?_, ?_⟩
  · intro ch hch
    rcases hcase with ⟨_, _, e3⟩ | ⟨_, e2, e3⟩
    · rw [hx, Option.some.injEq] at e3
      subst e3
      simp [rootCell, calloc_sub] at hch
    · obtain ⟨l, k, d, r, par1, f1, _⟩ := rep_at _ _ x e2 hs0.nodup e3
      have hcell := f1.1
      rw [hx, Option.some.injEq] at hcell
      subst hcell
      refine ⟨rfl, by simp [cellOf], ?_⟩
      simp only [cellOf] at hch
      rcases hch with h | h
      · obtain ⟨l1, k1, d1, r1, e⟩ := Tree.ptr_some h
        subst e
        exact ⟨_, f1.2.1.1, rfl, by simp [cellOf], rfl⟩
      · obtain ⟨l1, k1, d1, r1, e⟩ := Tree.ptr_some h
        subst e
        exact ⟨_, f1.2.2.1, rfl, by simp [cellOf], rfl⟩
  · cases hl : n.Lchild with
    | none =>
      refine ⟨{ s with
          heap := (s.heap.write x { n with Lchild := some s.next }).write s.next
                    { calloc_sub with isLeaf := 1, parent := some x }
          next := s.next + 1 }, { n with Lchild := some s.next },
        by simp [avl_checkChild, hx, hl], ?_, ?_, rfl⟩
      · simp [Heap.write, hne]
      · simp
    | some l =>
      exact ⟨s, n, by simp [avl_checkChild, hx, hl], hx, by simp [hl], rfl⟩
  · cases hr : n.Rchild with
    | none =>
      refine ⟨{ s with
          heap := (s.heap.write x { n with Rchild := some s.next }).write s.next
                    { calloc_sub with isLeaf := 1, parent := some x }
          next := s.next + 1 }, { n with Rchild := some s.next },
        by simp [avl_checkChild, hx, hr], ?_, ?_, rfl⟩
      · simp [Heap.write, hne]
      · simp
    | some r =>
      exact ⟨s, n, by simp [avl_checkChild, hx, hr], hx, by simp [hr], rfl⟩

theorem C16_children_are_occupied_witness :
    (∀ ch, exBACRoot.Lchild = some ch ∨ exBACRoot.Rchild = some ch →
      exBACRoot.isLeaf = 0 ∧ exBACRoot.ID ≠ none ∧
        ∃ m, exBAC.heap ch = some m ∧ m.isLeaf = 0 ∧ m.ID ≠ none ∧ m.parent = some 4) ∧
    (∃ s1 n1, avl_checkChild exBAC 4 'l' = some s1 ∧ s1.heap 4 = some n1 ∧
      n1.Lchild ≠ none ∧ n1.Rchild = exBACRoot.Rchild) ∧
    (∃ s1 n1, avl_checkChild exBAC 4 'r' = some s1 ∧ s1.heap 4 = some n1 ∧
      n1.Rchild ≠ none ∧ n1.Lchild = exBACRoot.Lchild) :=
  C16_children_are_occupied exBAC
    (@builtByInserts_insertAll 8 [(.str [98], 1), (.str [97], 2), (.str [99], 3)] _ _
      BuiltByInserts.create (by decide) rfl)
    .string 4 exBACRoot (InSubtree.here 4) rfl

end AVL

namespace AVL

/-! ## Removal of a node with two children -/

theorem Key.goesRight_self (k : Key) : k.goesRight k = false := by
  cases h : k.goesRight k with
  | false => rfl
  | true => exact absurd (Key.goesRight_asymm h) (by rw [h]; decide)

/-- No key of an ordered tree exceeds the key of its biggest node. -/
theorem Tree.le_maxKD {c : Category} {l : Tree} {k1 : Key} {d1 : Nat} (hok : AllOK c l)
    (ho : l.Ordered) (hm : l.maxKD = some (k1, d1)) : ∀ y ∈ l.keys, y.goesRight k1 = false := by
  intro y hy
  have hne : l ≠ .nil := by
    intro e
    rw [e] at hm
    simp [Tree.maxKD] at hm
  obtain ⟨k2, d2, e1, e2⟩ := Tree.delMax_post l hne
  rw [hm, Option.some.injEq, Prod.mk.injEq] at e1
  obtain ⟨ek, ed⟩ := e1
  subst ek
  subst ed
  have hy1 : y ∈ (((k1, d1) :: l.delMax.post).map Prod.fst) :=
    (List.Perm.map Prod.fst e2).subset hy
  simp only [List.map_cons, List.mem_cons] at hy1
  rcases hy1 with e | e
  · rw [e]; exact Key.goesRight_self k1
  · exact Tree.delMax_le_max l k1 d1 hok ho hm y e

/-- C17: in every reachable container, for every node `x` below the root
pointer of a category whose subtree reads `node x l k d r` with both `l` and
`r` non-empty, `avl_removeNode` of `x` returns; the biggest node `P` of `l`
(the end of the chain of right children from the left child of `x`) holds a
key `kP` that no key of `l` exceeds, and afterwards the subtree at `x` reads
`node x l.delMax kP dP r`: the node at `x` holds the key and payload of `P`,
the right subtree is unchanged and the left subtree is the former one with
`P` replaced by its left child. The parent link of `x`, the root pointers
and every cell outside the subtree are unchanged. -/
theorem C17_two_children_removal (s : AVLtree) (hs : Reachable s) (c : Category) (x : Nat)
    (l r : Tree) (k : Key) (d : Nat) (fuel : Nat) (hf : s.next ≤ fuel)
    (hin : InSubtree s.heap (avl_getRootType s c) x)
    (hsub : subtree fuel s.heap (some x) = some (.node x l k d r))
    (hl : l ≠ .nil) (hr : r ≠ .nil) :
    ∃ s1 kP dP, avl_removeNode fuel s x = some s1 ∧ l.maxKD = some (kP, dP) ∧
      (∀ y ∈ l.keys, y.goesRight kP = false) ∧
      subtree fuel s1.heap (some x) = some (.node x l.delMax kP dP r) ∧
      (∀ c1, avl_getRootType s1 c1 = avl_getRootType s c1) ∧
      (∀ y, y ∉ (Tree.node x l k d r).addrs → s1.heap y = s.heap y) ∧
      ∃ n n1, s.heap x = some n ∧ s1.heap x = some n1 ∧ n1.parent = n.parent := by
  obtain ⟨R, T, hI⟩ := reachable_inv hs
  obtain ⟨hc, hroot, hcase⟩ := inv_at hI hin
  have hs0 := hI.sub c hc
  have hfuel := Inv.fuel_ok hs0 hf
  obtain ⟨f0, hf0⟩ : ∃ f0, fuel = f0 + 1 := ⟨fuel - 1, by omega⟩
  rcases hcase with ⟨_, _, e3⟩ | ⟨_, e2, e3⟩
  · rw [hf0] at hsub
    simp [subtree, e3, rootCell, calloc_sub] at hsub
  · obtain ⟨l1, k1, d1, r1, par1, f1, f2, f3, f4, _⟩ := rep_at _ _ x e2 hs0.nodup e3
    obtain ⟨l2, k2, d2, r2, par2, g1, g2, g3, g4⟩ :=
      @inSubtree_rep s.heap c _ _ x e2 hs0.ordered hs0.ok e3
    have hsub1 := subtree_rep _ _ fuel f1 (by omega)
    have hsub2 := subtree_rep _ _ fuel g1 (by omega)
    simp only [Tree.ptr] at hsub1 hsub2
    rw [hsub, Option.some.injEq] at hsub1 hsub2
    rw [← hsub1] at f1 f2 f3 f4
    rw [← hsub2] at g2 g3
    clear hsub1 hsub2 g1 g4
    cases l with
    | nil => exact absurd rfl hl
    | node la ll lk ld lr =>
      cases r with
      | nil => exact absurd rfl hr
      | node ra rl rk rd rr =>
        obtain ⟨h1, a1, a2, a3⟩ := @removeNode_two s x la ra ll lr rl rr lk rk k ld rd d par1
          fuel f1 f3 (by omega)
        obtain ⟨kP, dP, b1, _⟩ := Tree.delMax_post (.node la ll lk ld lr) (by simp)
        rw [Tree.delRoot_two _ _ _ _ _ _ _ _ _ _ _ _ _ kP dP b1] at a2
        have okl := (Tree.AllOK_node g3).1
        refine ⟨_, kP, dP, a1, b1, Tree.le_maxKD okl g2.2.2.1 b1, ?_, fun _ => rfl, a3,
          _, _, f1.1, a2.1, rfl⟩
        refine subtree_rep _ _ fuel a2 ?_
        have := Tree.height_delMax (.node la ll lk ld lr)
        simp only [Tree.height] at f4 this ⊢
        omega

theorem C17_two_children_removal_witness :
    ∃ s1 kP dP, avl_removeNode 8 exBAC 4 = some s1 ∧
      (Tree.node 5 .nil (.str [97]) 2 .nil).maxKD = some (kP, dP) ∧
      (∀ y ∈ (Tree.node 5 .nil (.str [97]) 2 .nil).keys, y.goesRight kP = false) ∧
      subtree 8 s1.heap (some 4) =
        some (.node 4 (Tree.node 5 .nil (.str [97]) 2 .nil).delMax kP dP
          (.node 6 .nil (.str [99]) 3 .nil)) ∧
      (∀ c1, avl_getRootType s1 c1 = avl_getRootType exBAC c1) ∧
      (∀ y, y ∉ (Tree.node 4 (.node 5 .nil (.str [97]) 2 .nil) (.str [98]) 1
          (.node 6 .nil (.str [99]) 3 .nil)).addrs → s1.heap y = exBAC.heap y) ∧
      ∃ n n1, exBAC.heap 4 = some n ∧ s1.heap 4 = some n1 ∧ n1.parent = n.parent :=
  C17_two_children_removal exBAC reachable_exBAC .string 4 (.node 5 .nil (.str [97]) 2 .nil)
    (.node 6 .nil (.str [99]) 3 .nil) (.str [98]) 1 8 (by decide) (InSubtree.here 4) (by decide)
    (by simp) (by simp)

end AVL

namespace AVL

/-! ## Removal of a node with one child -/

/-- The tree that takes the place of a node with exactly one child is that
child's tree. -/
theorem Tree.delRoot_one {x ch : Nat} {l r : Tree} {k : Key} {d : Nat}
    (h : (l.ptr = some ch ∧ r.ptr = none) ∨ (l.ptr = none ∧ r.ptr = some ch)) :
    ∃ cl ck cd cr, (Tree.node x l k d r).delRoot = .node ch cl ck cd cr ∧
      (l = .node ch cl ck cd cr ∨ r = .node ch cl ck cd cr) := by
  rcases h with ⟨h1, h2⟩ | ⟨h1, h2⟩
  · obtain ⟨cl, ck, cd, cr, e⟩ := Tree.ptr_some h1
    have e2 := Tree.ptr_eq_none h2
    subst e
    subst e2
    exact ⟨cl, ck, cd, cr, rfl, Or.inl rfl⟩
  · obtain ⟨cl, ck, cd, cr, e⟩ := Tree.ptr_some h2
    have e1 := Tree.ptr_eq_none h1
    subst e
    subst e1
    exact ⟨cl, ck, cd, cr, rfl, Or.inr rfl⟩

theorem setSlot_eq {pc : AVLtree_sub} {t : Tree} {x : Nat} {isLeft : Bool} (hx : x ∈ t.addrs)
    (hp : t.ptr = some x) (hs : SlotOf pc t isLeft) (v : Option Nat) :
    (pc.Lchild = some x ∨ pc.Rchild = some x) ∧
      setSlot pc v isLeft =
        if pc.Lchild = some x then { pc with Lchild := v } else { pc with Rchild := v } := by
  cases isLeft with
  | true =>
    simp only [SlotOf, if_true, hp] at hs
    simp [setSlot, hs]
  | false =>
    simp only [SlotOf, Bool.false_eq_true, if_false, hp] at hs
    have := hs.2 x hx
    simp [setSlot, hs.1, this]

/-- C18: in every reachable container, for every node `x` below the root
pointer of a category that has exactly one child `ch`, `avl_removeNode` of
`x` returns and leaves every cell of the subtree below `ch` unchanged. When
`x` is not the root (its parent link is another node `p`), the slot of `p`
that held `x` holds `ch`, the parent link of `ch` is `p`, the rest of the
cell of `ch` is unchanged and so are the four root pointers. When `x` is the
root of the category, the root pointer of the category is `ch`, `ch` is its
own parent, and the other three root pointers are unchanged. -/
theorem C18_one_child_removal (s : AVLtree) (hs : Reachable s) (c : Category) (x : Nat)
    (n : AVLtree_sub) (ch : Nat) (fuel : Nat) (hf : s.next ≤ fuel)
    (hin : InSubtree s.heap (avl_getRootType s c) x) (hx : s.heap x = some n)
    (hone : (n.Lchild = some ch ∧ n.Rchild = none) ∨ (n.Lchild = none ∧ n.Rchild = some ch)) :
    ∃ s1 cc, avl_removeNode fuel s x = some s1 ∧ s.heap ch = some cc ∧
      (∀ y, InSubtree s.heap (some ch) y → y ≠ ch → s1.heap y = s.heap y) ∧
      (n.parent ≠ some x →
        ∃ p pc, n.parent = some p ∧ s.heap p = some pc ∧
          (pc.Lchild = some x ∨ pc.Rchild = some x) ∧
          s1.heap p = some (if pc.Lchild = some x then { pc with Lchild := some ch }
            else { pc with Rchild := some ch }) ∧
          s1.heap ch = some { cc with parent := some p } ∧
          ∀ c1, avl_getRootType s1 c1 = avl_getRootType s c1) ∧
      (n.parent = some x →
        avl_getRootType s c = some x ∧ avl_getRootType s1 c = some ch ∧
          s1.heap ch = some { cc with parent := some ch } ∧
          ∀ c1, c1 ≠ c → avl_getRootType s1 c1 = avl_getRootType s c1) := by
  obtain ⟨R, T, hI⟩ := reachable_inv hs
  obtain ⟨hc, hroot, hcase⟩ := inv_at hI hin
  have hs0 := hI.sub c hc
  have hfuel := Inv.fuel_ok hs0 hf
  rcases hcase with ⟨_, _, e3⟩ | ⟨e1, e2, e3⟩
  · rw [hx, Option.some.injEq] at e3
    subst e3
    simp [rootCell, calloc_sub] at hone
  · obtain ⟨l, k, d, r, par1, f1, f2, f3, f4, f5⟩ := rep_at _ _ x e2 hs0.nodup e3
    have hcell := f1.1
    rw [hx, Option.some.injEq] at hcell
    subst hcell
    simp only [cellOf] at hone
    obtain ⟨cl, ck, cd, cr, hdel, hchild⟩ := @Tree.delRoot_one x ch l r k d hone
    have hxmem : x ∈ (Tree.node x l k d r).addrs := by
      rw [Tree.mem_addrs_node]; exact Or.inl rfl
    -- the child's tree is represented below `x`, with its nodes among those of the subtree
    have hrepc : Rep s.heap (.node ch cl ck cd cr) (some x) := by
      rcases hchild with e | e
      · rw [← e]; exact f1.2.1
      · rw [← e]; exact f1.2.2
    have hndc : (Tree.node ch cl ck cd cr).addrs.Nodup := by
      rw [Tree.nodup_node] at f3
      rcases hchild with e | e
      · rw [← e]; exact f3.2.1
      · rw [← e]; exact f3.2.2.1
    have hsubc : ∀ y ∈ (Tree.node ch cl ck cd cr).addrs, y ∈ (Tree.node x l k d r).addrs := by
      intro y hy
      rw [Tree.mem_addrs_node]
      rcases hchild with e | e
      · rw [← e] at hy; exact Or.inr (Or.inl hy)
      · rw [← e] at hy; exact Or.inr (Or.inr hy)
    have hframe : ∀ (h1 : Heap) (q : Option Nat), Rep h1 (.node ch cl ck cd cr) q →
        ∀ y, InSubtree s.heap (some ch) y → y ≠ ch → h1 y = s.heap y := by
      intro h1 q hq y hy hne
      obtain ⟨_, _, _, _, _, _, g2, _⟩ := rep_at _ _ y hrepc hndc hy
      have hym := g2 y (by rw [Tree.mem_addrs_node]; exact Or.inl rfl)
      rw [Tree.mem_addrs_node] at hym
      rcases hym with e | e | e
      · exact absurd e hne
      · exact Rep.agree _ _ hrepc.2.1 hq.2.1 y e
      · exact Rep.agree _ _ hrepc.2.2 hq.2.2 y e
    rcases f5 with ⟨g1, g2⟩ | ⟨p, pc, isLeft, g1, g2, g3, g4, g5, g6, g7⟩
    · -- `x` is the root of the category
      rw [g1] at e1
      simp only [Tree.ptr, Option.some.injEq] at e1
      subst g2
      rw [← e1] at f1 hroot
      obtain ⟨s1, root1, a1, a2, a3, a4, a5, a6, a7⟩ := @removeNode_root s x l r k d c fuel hc f1
        f3 hroot (fun c1 h1 => hI.roots_ne hc h1 (by rw [← e1]; simp [foot])) (by omega)
      rw [hdel] at a5
      simp only [RepRoot] at a5
      obtain ⟨a8, a5⟩ := a5
      subst a8
      refine ⟨s1, _, a1, hrepc.1, hframe _ _ a5, ?_, ?_⟩
      · intro hne
        rw [e1] at hne
        exact absurd rfl hne
      · intro _
        exact ⟨hroot, a2, by rw [a5.1, e1]; rfl, a3⟩
    · -- `x` is a child of the node `p`
      subst g1
      have hpx : p ≠ x := fun e => g5 (e ▸ hxmem)
      have hroots : ∀ c1, avl_getRootType s c1 ≠ some x := by
        intro c1
        by_cases h1 : c1 = c
        · rw [h1, hroot]
          intro e
          rw [e1] at g6
          exact g6 e
        · refine hI.roots_ne hc h1 ?_
          simp only [foot, List.mem_cons]
          exact Or.inr (f2 x hxmem)
      obtain ⟨h1, a1, a2, a3, a4⟩ := @removeNode_child s x p l r k d pc isLeft fuel f1 g3 g5 f3
        g7 hroots (by omega)
      rw [hdel] at a2 a3
      obtain ⟨b1, b2⟩ := @setSlot_eq pc _ x isLeft hxmem rfl g7 (some ch)
      refine ⟨_, _, a1, hrepc.1, hframe _ _ a2, ?_, ?_⟩
      · intro _
        refine ⟨p, pc, rfl, g3, b1, ?_, ?_, fun _ => rfl⟩
        · simp only [Tree.ptr] at a3
          show h1 p = _
          rw [a3, b2]
        · show h1 ch = _
          rw [a2.1]
          rfl
      · intro e
        simp only [cellOf, Option.some.injEq] at e
        exact absurd e hpx

theorem C18_one_child_removal_witness :
    ∃ s1 cc, avl_removeNode 8 exCBA 5 = some s1 ∧ exCBA.heap 6 = some cc ∧
      (∀ y, InSubtree exCBA.heap (some 6) y → y ≠ 6 → s1.heap y = exCBA.heap y) ∧
      (exCBAMid.parent ≠ some 5 →
        ∃ p pc, exCBAMid.parent = some p ∧ exCBA.heap p = some pc ∧
          (pc.Lchild = some 5 ∨ pc.Rchild = some 5) ∧
          s1.heap p = some (if pc.Lchild = some 5 then { pc with Lchild := some 6 }
            else { pc with Rchild := some 6 }) ∧
          s1.heap 6 = some { cc with parent := some p } ∧
          ∀ c1, avl_getRootType s1 c1 = avl_getRootType exCBA c1) ∧
      (exCBAMid.parent = some 5 →
        avl_getRootType exCBA .string = some 5 ∧ avl_getRootType s1 .string = some 6 ∧
          s1.heap 6 = some { cc with parent := some 6 } ∧
          ∀ c1, c1 ≠ .string → avl_getRootType s1 c1 = avl_getRootType exCBA c1) :=
  C18_one_child_removal exCBA
    (@reachable_insertAll 8 [(.str [99], 1), (.str [98], 2), (.str [97], 3)] _ _
      Reachable.create (by decide) rfl) .string 5 exCBAMid 6 8 (by decide)
    (InSubtree.left (rfl : exCBA.heap 4 = some
      { ID := some (.str [99]), data := some 1, isLeaf := 0, balance := 0,
        Lchild := some 5, Rchild := none, parent := some 4 }) (InSubtree.here 5))
    rfl (Or.inl ⟨rfl, rfl⟩)

end AVL

namespace AVL

/-! ## Parent links -/

/-- C19: in every reachable container, for the subtree of every category:
the parent link of the root points to the root itself; every other node `x`
below the root has a parent link to a node `p` below the root, one of whose
child slots holds `x`, and `p` is the only node below the root with a child
slot that holds `x`; and the walk from the root down the child links
returns, meets no node twice and meets exactly the nodes below the root, so
the links form a tree without cycles (removals of nodes with two children
are among the steps that reach the container). -/
theorem C19_parent_links (s : AVLtree) (hs : Reachable s) (c : Category) (root : Nat)
    (fuel : Nat) (hf : s.next ≤ fuel) (hroot : avl_getRootType s c = some root) :
    (∃ rc, s.heap root = some rc ∧ rc.parent = some root) ∧
    (∀ x n, InSubtree s.heap (some root) x → x ≠ root → s.heap x = some n →
      ∃ p pc, n.parent = some p ∧ InSubtree s.heap (some root) p ∧ s.heap p = some pc ∧
        (pc.Lchild = some x ∨ pc.Rchild = some x) ∧
        ∀ q qc, InSubtree s.heap (some root) q → s.heap q = some qc →
          (qc.Lchild = some x ∨ qc.Rchild = some x) → q = p) ∧
    ∃ L, walk fuel s.heap (some root) = some L ∧ L.Nodup ∧
      ∀ x, InSubtree s.heap (some root) x ↔ x ∈ L := by
  obtain ⟨R, T, hI⟩ := reachable_inv hs
  have hc : c ≠ .unsupported := by
    intro h
    rw [h] at hroot
    simp [avl_getRootType] at hroot
  have hs0 := hI.sub c hc
  have hre : R c = root := by
    have := hs0.root_eq
    rw [hroot] at this
    exact (Option.some.inj this).symm
  have hrep := hs0.rep
  have hnd := hs0.nodup
  have hfuel := Inv.fuel_ok hs0 hf
  rw [hre] at hrep
  cases ht : T c with
  | nil =>
    rw [ht] at hrep
    have hcell : s.heap root = some (rootCell root) := hrep
    have honly : ∀ x, InSubtree s.heap (some root) x → x = root := by
      intro x hx
      rcases repRoot_at hrep hx with ⟨_, e, _⟩ | ⟨e, _, _⟩
      · exact e
      · simp [Tree.ptr] at e
    obtain ⟨f, hf2⟩ : ∃ f, fuel = f + 2 := ⟨fuel - 2, by have := hs0.next_ge; omega⟩
    subst hf2
    refine ⟨⟨_, hcell, rfl⟩, ?_, [root], ?_, by simp, ?_⟩
    · intro x n hx hne
      exact absurd (honly x hx) hne
    · simp [walk, hcell, rootCell, calloc_sub]
    · intro x
      constructor
      · intro hx
        simp [honly x hx]
      · intro hx
        simp only [List.mem_singleton] at hx
        rw [hx]
        exact InSubtree.here root
  | node a l k d r =>
    rw [ht] at hrep hnd hfuel
    simp only [RepRoot] at hrep
    obtain ⟨ha, hrep⟩ := hrep
    subst ha
    refine ⟨⟨_, hrep.1, rfl⟩, ?_, _, walk_rep _ _ fuel hrep hfuel, hnd, ?_⟩
    · intro x n hx hne hcellx
      obtain ⟨l1, k1, d1, r1, par1, f1, f2, f3, f4, f5⟩ := rep_at _ _ x hrep hnd hx
      rcases f5 with ⟨g1, _⟩ | ⟨p, pc, isLeft, g1, g2, g3, g4, g5, g6, g7⟩
      · simp only [Tree.node.injEq] at g1
        exact absurd g1.1.symm hne
      · have hxmem : x ∈ (Tree.node x l1 k1 d1 r1).addrs := by
          rw [Tree.mem_addrs_node]; exact Or.inl rfl
        have hn : n = cellOf l1 k1 d1 r1 par1 := by
          have := f1.1
          rw [hcellx, Option.some.injEq] at this
          exact this
        refine ⟨p, pc, by rw [hn, g1]; rfl, g4, g3,
          (@setSlot_eq pc _ x isLeft hxmem rfl g7 none).1, ?_⟩
        intro q qc hq hqc hslot
        obtain ⟨l2, k2, d2, r2, par2, u1, _⟩ := rep_at _ _ q hrep hnd hq
        have hq2 : qc = cellOf l2 k2 d2 r2 par2 := by
          have := u1.1
          rw [hqc, Option.some.injEq] at this
          exact this
        rw [hq2] at hslot
        simp only [cellOf] at hslot
        have hpar : n.parent = some q := by
          rcases hslot with e | e
          · obtain ⟨cl, ck, cd, cr, e1⟩ := Tree.ptr_some e
            rw [e1] at u1
            have := u1.2.1.1
            rw [hcellx, Option.some.injEq] at this
            rw [this]; rfl
          · obtain ⟨cl, ck, cd, cr, e1⟩ := Tree.ptr_some e
            rw [e1] at u1
            have := u1.2.2.1
            rw [hcellx, Option.some.injEq] at this
            rw [this]; rfl
        rw [hn, g1] at hpar
        simp only [cellOf, Option.some.injEq] at hpar
        exact hpar.symm
    · intro x
      constructor
      · intro hx
        obtain ⟨_, _, _, _, _, _, f2, _⟩ := rep_at _ _ x hrep hnd hx
        exact f2 x (by rw [Tree.mem_addrs_node]; exact Or.inl rfl)
      · intro hx
        exact mem_inSubtree _ _ x hrep hx

theorem C19_parent_links_witness :
    (∃ rc, exCBA.heap 4 = some rc ∧ rc.parent = some 4) ∧
    (∀ x n, InSubtree exCBA.heap (some 4) x → x ≠ 4 → exCBA.heap x = some n →
      ∃ p pc, n.parent = some p ∧ InSubtree exCBA.heap (some 4) p ∧ exCBA.heap p = some pc ∧
        (pc.Lchild = some x ∨ pc.Rchild = some x) ∧
        ∀ q qc, InSubtree exCBA.heap (some 4) q → exCBA.heap q = some qc →
          (qc.Lchild = some x ∨ qc.Rchild = some x) → q = p) ∧
    ∃ L, walk 8 exCBA.heap (some 4) = some L ∧ L.Nodup ∧
      ∀ x, InSubtree exCBA.heap (some 4) x ↔ x ∈ L :=
  C19_parent_links exCBA
    (@reachable_insertAll 8 [(.str [99], 1), (.str [98], 2), (.str [97], 3)] _ _
      Reachable.create (by decide) rfl) .string 4 8 (by decide) rfl

end AVL

namespace AVL

/-! ## The narrowing of the comparison result -/

/-- The narrowing keeps the result zero exactly when it is zero: on C
strings `avl_compare` reports a match exactly when `strcmp` returns 0. -/
theorem narrowing_zero_iff (a b : List Nat) (ha : validStr a) (hb : validStr b) :
    toChar (strcmp a b) = 0 ↔ strcmp a b = 0 := by
  have := strcmp_bounds a b ha hb
  simp only [toChar]
  omega

/-- The narrowing keeps the sign on strings of bytes below 128. -/
theorem narrowing_sign_of_small (a b : List Nat) (ha : ∀ x ∈ a, x < 128)
    (hb : ∀ x ∈ b, x < 128) : toChar (strcmp a b) = strcmp a b := by
  have := strcmp_small a b ha hb
  exact toChar_small (by omega) (by omega)

/-- C24 (evaluation at the failing input): for the strings "ñ" (bytes 195,
177) and "B", `strcmp` returns 129, which the narrowing to `char` turns into
-127; at the root "B" of the container holding "B", "A" (left child, address
5) and "ñ" (right child, address 6), `avl_forward` for "ñ" descends to the
right child and `avl_compare` for "ñ" descends to the left child. -/
theorem C24_narrowing_flips_sign :
    AVL.strcmp [195, 177] [66] = 129 ∧ toChar 129 = -127 ∧
    (avl_forward exBAN 4 (.str [195, 177]) 'c').map Prod.snd = some (some 6) ∧
    avl_compare exBAN 4 none (.str [195, 177]) 'c' = some (some 5, none) :=
  ⟨by decide, by decide, by decide, by decide⟩

/-! ## Occupancy -/

/-- C23: in every reachable container, for the subtree of every category:
at every node below the root pointer, `isLeaf` is 0 or 1, it is 1 exactly when
the key reference is `NULL`, and a node other than the root is occupied; the
root is unoccupied exactly when the traversal of the category lists no key;
hence the test `!node->isLeaf` of the loop of `avl_insert` fails at a node
exactly when the test `!node->ID` of `avl_compare` succeeds there: the loop
of `avl_insert` stops at such a node and `avl_compare` reports not-found. -/
theorem C23_occupancy_invariant (s : AVLtree) (hs : Reachable s) (c : Category) (root : Nat)
    (fuel : Nat) (hf : s.next ≤ fuel) (hroot : avl_getRootType s c = some root) :
    (∀ x n, InSubtree s.heap (some root) x → s.heap x = some n →
      (n.isLeaf = 0 ∨ n.isLeaf = 1) ∧ (n.isLeaf = 1 ↔ n.ID = none) ∧
      (x ≠ root → n.isLeaf = 0 ∧ n.ID ≠ none) ∧
      (n.isLeaf ≠ 0 ↔ n.ID = none) ∧
      (n.isLeaf ≠ 0 → ∀ f id type, avl_insert_loop (f + 1) s (some x) id type = some (s, x)) ∧
      (n.ID = none → ∀ DATA id type, avl_compare s x DATA id type = some (none, DATA))) ∧
    ∃ rc o, s.heap root = some rc ∧ avl_traverse fuel s c = some o ∧
      (rc.isLeaf = 1 ↔ o.keys = []) ∧ (rc.isLeaf = 1 ↔ o.c = 0) := by
  obtain ⟨R, T, hI⟩ := reachable_inv hs
  have hc : c ≠ .unsupported := by
    intro h
    rw [h] at hroot
    simp [avl_getRootType] at hroot
  have hs0 := hI.sub c hc
  have hre : R c = root := by
    have := hs0.root_eq
    rw [hroot] at this
    exact (Option.some.inj this).symm
  have hrep := hs0.rep
  have hnd := hs0.nodup
  rw [hre] at hrep
  constructor
  · intro x n hx hcell
    have hfun : (n.isLeaf ≠ 0 → ∀ f id type,
          avl_insert_loop (f + 1) s (some x) id type = some (s, x)) ∧
        (n.ID = none → ∀ DATA id type, avl_compare s x DATA id type = some (none, DATA)) := by
      constructor
      · intro h f id type
        simp [avl_insert_loop, hcell, h]
      · intro h DATA id type
        simp [avl_compare, hcell, h]
    rcases repRoot_at hrep hx with ⟨_, e2, e3⟩ | ⟨_, e2, e3⟩
    · subst e2
      rw [hcell, Option.some.injEq] at e3
      subst e3
      refine ⟨Or.inr rfl, by simp [rootCell, calloc_sub], fun h => absurd rfl h,
        by simp [rootCell, calloc_sub], ?_, ?_⟩
      · exact hfun.1
      · exact hfun.2
    · obtain ⟨l, k, d, r, par1, f1, _⟩ := rep_at _ _ x e2 hnd e3
      have := f1.1
      rw [hcell, Option.some.injEq] at this
      subst this
      refine ⟨Or.inl rfl, by simp [cellOf], fun _ => ⟨rfl, by simp [cellOf]⟩,
        by simp [cellOf], ?_, ?_⟩
      · exact hfun.1
      · exact hfun.2
  · have htr := traverse_inv hI hc hf
    cases ht : T c with
    | nil =>
      rw [ht] at hrep htr
      exact ⟨_, _, hrep, htr, by simp [rootCell, calloc_sub, outOf_keys, Tree.ids, Tree.post],
        by simp [rootCell, calloc_sub, outOf_c, Tree.ids, Tree.post]⟩
    | node a l k d r =>
      rw [ht] at hrep htr
      obtain ⟨ha, hrep⟩ := hrep
      subst ha
      refine ⟨_, _, hrep.1, htr, ?_, ?_⟩
      · simp [cellOf, outOf_keys, Tree.ids, Tree.post]
      · simp [cellOf, outOf_c, Tree.ids, Tree.post]

theorem C23_occupancy_invariant_witness :
    (∀ x n, InSubtree exBAC.heap (some 4) x → exBAC.heap x = some n →
      (n.isLeaf = 0 ∨ n.isLeaf = 1) ∧ (n.isLeaf = 1 ↔ n.ID = none) ∧
      (x ≠ 4 → n.isLeaf = 0 ∧ n.ID ≠ none) ∧
      (n.isLeaf ≠ 0 ↔ n.ID = none) ∧
      (n.isLeaf ≠ 0 → ∀ f id type,
        avl_insert_loop (f + 1) exBAC (some x) id type = some (exBAC, x)) ∧
      (n.ID = none → ∀ DATA id type, avl_compare exBAC x DATA id type = some (none, DATA))) ∧
    ∃ rc o, exBAC.heap 4 = some rc ∧ avl_traverse 8 exBAC .string = some o ∧
      (rc.isLeaf = 1 ↔ o.keys = []) ∧ (rc.isLeaf = 1 ↔ o.c = 0) :=
  C23_occupancy_invariant exBAC reachable_exBAC .string 4 8 (by decide) rfl

end AVL

namespace AVL

/-! ## Insertion followed by removal -/

/-- C21 (evaluation at the failing input): the container holds only "A";
the traversal does not list "é" (bytes 195, 169). After `avl_insert` of "é"
with the payload 2 and `avl_remove` of "é", the traversal lists two pairs and
the root has a right child: the removal, whose search descends to the left
of "A", has removed nothing. -/
theorem C21_insert_remove_leaves_node :
    Reachable exA ∧
    (avl_traverse 8 exA .string).map Out.pairs = some [(some (.str [65]), some 1)] ∧
    (exA.heap 4).map (fun n => n.Rchild) = some none ∧
    ((avl_insert 8 exA (some 2) (.str [195, 169])).bind fun s1 =>
      (avl_remove 8 s1 (.str [195, 169])).bind fun s2 =>
        (avl_traverse 8 s2 .string).map Out.pairs) =
      some [(some (.str [195, 169]), some 2), (some (.str [65]), some 1)] ∧
    ((avl_insert 8 exA (some 2) (.str [195, 169])).bind fun s1 =>
      (avl_remove 8 s1 (.str [195, 169])).bind fun s2 =>
        (s2.heap 4).map (fun n => n.Rchild)) = some (some 5) :=
  ⟨@reachable_insertAll 8 [(.str [65], 1)] _ _ Reachable.create (by decide) rfl,
    by decide, by decide, by decide, by decide⟩

/-- The tree after the new node of an insertion is removed again. -/
theorem Tree.del_ins (fresh : Nat) (id : Key) (d : Nat) :
    ∀ t : Tree, fresh ∉ t.addrs → (t.ins fresh id d).del fresh = t := by
  intro t
  induction t with
  | nil =>
    intro _
    simp [Tree.ins, Tree.del, Tree.delRoot]
  | node a l k dd r ihl ihr =>
    intro hf
    rw [Tree.mem_addrs_node] at hf
    have hfa : fresh ≠ a := fun e => hf (Or.inl e)
    have hfl : fresh ∉ l.addrs := fun e => hf (Or.inr (Or.inl e))
    have hfr : fresh ∉ r.addrs := fun e => hf (Or.inr (Or.inr e))
    simp only [Tree.ins]
    by_cases hg : id.goesRight k = true
    · rw [if_pos hg, Tree.del_ne hfa, ihr hfr, Tree.del_not_mem fresh l hfl]
    · rw [if_neg hg, Tree.del_ne hfa, ihl hfl, Tree.del_not_mem fresh r hfr]

/-- The call `avl_remove`, with the root pointer it leaves for the category
of the key: a node of the tree or the former root. -/
theorem remove_effect_root {s : AVLtree} {R : Category → Nat} {T : Category → Tree} {id : Key}
    {fuel : Nat} (hI : Inv s R T) (hc : id.category ≠ .unsupported) (hf : s.next ≤ fuel) :
    ∃ s1 R1, avl_remove fuel s id = some s1 ∧ s1.next = s.next ∧
      Inv s1 R1 (Function.update T id.category ((T id.category).removed id)) ∧
      (∀ c1, c1 ≠ id.category → avl_getRootType s1 c1 = avl_getRootType s c1) ∧
      (∀ y, y ∉ (T id.category).addrs → s1.heap y = s.heap y) ∧
      R1 id.category ∈ foot (R id.category) (T id.category) := by
  have hs := hI.sub _ hc
  have hloop := search_loop_sub hc rfl hs hf
  have hfuel := Inv.fuel_ok hs hf
  cases hfind : (T id.category).find id with
  | none =>
    refine ⟨s, R, ?_, rfl, ?_, fun _ _ => rfl, fun _ _ => rfl, by simp [foot]⟩
    · simp only [avl_remove, hs.root_eq, hI.type_eq hc, hloop, hfind, Option.some_bind]
    · simpa [Tree.removed, hfind] using hI
  | some res =>
    obtain ⟨a, k, d⟩ := res
    have hmem := (Tree.find_some _ a k d hfind).1
    have hstep : avl_remove fuel s id = avl_removeNode fuel s a := by
      simp only [avl_remove, hs.root_eq, hI.type_eq hc, hloop, hfind, Option.some_bind]
    have hrm : (T id.category).removed id = (T id.category).del a := by
      simp only [Tree.removed, hfind]
    rw [hstep, hrm]
    obtain ⟨s1, root1, e1, e2, e3, e4, e5, e6⟩ := @removeNode_sub _ _ _ _ _ fuel hc hs hmem
      (fun c1 h1 x hx => hI.roots_ne hc h1 hx) (by omega)
    refine ⟨s1, Function.update R id.category root1, e1, e2, ?_, e3, e6, ?_⟩
    · refine hI.update hc e3 (le_of_eq e2.symm) e4 ?_ ?_
      · intro x hx _
        exact e6 x (fun h => hx (by simp [foot, h]))
      · intro x hx
        left
        simp only [foot, List.mem_cons] at hx ⊢
        rcases hx with h | h
        · exact Or.inr (h ▸ e5)
        · exact Or.inr ((Tree.del_addrs a _).subset h)
    · simp only [Function.update_same, foot, List.mem_cons]
      exact Or.inr e5

end AVL

namespace AVL

theorem Tree.insRoot_addrs {root fresh : Nat} {id : Key} {d : Nat} {t : Tree} {x : Nat}
    (h : x ∈ (t.insRoot root fresh id d).addrs) : x ∈ foot root t ∨ x = fresh := by
  cases t with
  | nil =>
    simp only [Tree.insRoot, Tree.addrs, List.append_nil, List.mem_singleton] at h
    exact Or.inl (by simp [foot, h])
  | node a l k dd r =>
    simp only [Tree.insRoot] at h
    rw [(Tree.ins_addrs_perm fresh id d _).mem_iff, List.mem_cons] at h
    rcases h with e | e
    · exact Or.inr e
    · exact Or.inl (by simp only [foot, List.mem_cons]; exact Or.inr e)

/-- The tree of a subtree after an absent key is inserted and removed again,
when the search of `avl_compare` takes the directions of `avl_forward`. -/
theorem Tree.removed_insRoot {c : Category} (hc : c ≠ .unsupported) {root fresh : Nat}
    {id : Key} {d : Nat} (hk : KeyOK c id) {t : Tree} (hok : AllOK c t) (hag : Agrees id t)
    (hn : id ∉ t.keys) (hf : fresh ∉ t.addrs) :
    (t.insRoot root fresh id d).removed id = t := by
  cases t with
  | nil =>
    simp [Tree.insRoot, Tree.removed, Tree.find, Key.searchDir_self, Tree.del, Tree.delRoot]
  | node a l k dd r =>
    simp only [Tree.insRoot, Tree.removed]
    rw [Tree.find_ins_self hc fresh d hk _ hok hag hn]
    exact Tree.del_ins fresh id d _ hf

/-- Insert then remove is the identity where the narrowing is harmless: in
every reachable container whose string subtree holds only narrow-safe keys,
for every narrow-safe string key `k` that the traversal does not list and
every payload `p`, `avl_insert` of `k` followed by `avl_remove` of
`k` returns, and leaves the subtree of every category as it was: the same
root pointer, the same cell at every node below it, the same search and
traversal results. -/
theorem insert_remove_of_narrow_safe (s : AVLtree) (hs : Reachable s) (k : Key)
    (hv : k.valid = true) (hstr : k.category = .string) (p : Nat) (fuel : Nat)
    (hf : s.next + 1 ≤ fuel) (o : Out) (ho : avl_traverse fuel s k.category = some o)
    (hn : some k ∉ o.keys) (hk : k.narrowSafe = true)
    (hsafe : ∀ x, some x ∈ o.keys → x.narrowSafe = true) :
    ∃ s1 s2, avl_insert fuel s (some p) k = some s1 ∧ avl_remove fuel s1 k = some s2 ∧
      ∀ c, Untouched fuel s s2 c := by
  have hc : k.category ≠ .unsupported := by rw [hstr]; decide
  obtain ⟨R, T, hI⟩ := reachable_inv hs
  have hs0 := hI.sub _ hc
  rw [traverse_inv hI hc (by omega)] at ho
  cases ho
  rw [outOf_keys] at hn hsafe
  have hag := Tree.agrees_of_narrowSafe hs0.ok rfl hk (fun x hx => hsafe x (Tree.mem_ids.mpr hx))
  have hfresh : s.next ∉ (T k.category).addrs := fun h => by
    have := hs0.addr_lt _ h; omega
  obtain ⟨s1, e1, e2, e3, e4, e5, e6⟩ := @insert_effect _ _ _ k p fuel hI hstr hv (by omega)
  obtain ⟨s2, R2, r1, r2, r3, r4, r5, r6⟩ := @remove_effect_root _ _ _ k fuel e2 hc (by omega)
  simp only [Function.update_same, Function.update_idem] at r3 r5 r6
  rw [Tree.removed_insRoot hc ⟨rfl, hv⟩ hs0.ok hag (fun h => hn (Tree.mem_ids.mpr h)) hfresh,
    Function.update_eq_self] at r3
  refine ⟨s1, s2, e1, r1, ?_⟩
  intro c
  have hroot : c ≠ .unsupported → avl_getRootType s2 c = avl_getRootType s c ∧
      ∀ x ∈ foot (R c) (T c), s2.heap x = s.heap x := by
    intro h0
    by_cases hck : c = k.category
    · subst hck
      have hs2 := r3.sub _ hc
      have hrep2 := hs2.rep
      have hrep := hs0.rep
      cases ht : T k.category with
      | nil =>
        rw [ht] at hrep hrep2 r6
        simp only [Tree.insRoot, foot, Tree.addrs, List.append_nil, List.mem_cons,
          List.mem_singleton, or_self, List.not_mem_nil, or_false] at r6
        rw [r6] at hs2 hrep2
        refine ⟨by rw [hs2.root_eq, hs0.root_eq], ?_⟩
        intro x hx
        simp only [foot, Tree.addrs, List.mem_cons, List.not_mem_nil, or_false] at hx
        rw [hx]
        exact hrep2.trans hrep.symm
      | node a l k1 d r =>
        rw [ht] at hrep hrep2
        obtain ⟨ha, hrep⟩ := hrep
        obtain ⟨ha2, hrep2⟩ := hrep2
        refine ⟨by rw [hs2.root_eq, hs0.root_eq, ← ha, ← ha2], ?_⟩
        intro x hx
        rw [← ha2] at hrep2
        rw [← ha] at hrep hx
        apply Rep.agree _ _ hrep hrep2 x
        simp only [foot, List.mem_cons] at hx
        rcases hx with e | e
        · rw [e, Tree.mem_addrs_node]; exact Or.inl rfl
        · exact e
    · refine ⟨by rw [r4 c hck, e5 c], ?_⟩
      intro x hx
      have hx1 : x ∉ foot (R k.category) (T k.category) := hI.disj c _ h0 hc hck x hx
      have hx2 : x < s.next := (hI.sub c h0).foot_lt x hx
      rw [← e6 x hx1 hx2]
      apply r5
      intro hmem
      rcases Tree.insRoot_addrs hmem with h | h
      · exact hx1 h
      · omega
  by_cases h0 : c = .unsupported
  · subst h0
    exact untouched_of hI r3 (by omega) (by omega) rfl rfl (fun h => absurd rfl h)
  · exact untouched_of hI r3 (by omega) (by omega) (hroot h0).1 rfl (fun _ => (hroot h0).2)

theorem insert_remove_of_narrow_safe_witness :
    ∃ s1 s2, avl_insert 8 exBAC (some 4) (.str [100]) = some s1 ∧
      avl_remove 8 s1 (.str [100]) = some s2 ∧ ∀ c, Untouched 8 exBAC s2 c :=
  insert_remove_of_narrow_safe exBAC reachable_exBAC (.str [100]) rfl (by decide) 4 8
    (by decide) exBACOut (by decide) (by decide) rfl exBACOut_narrowSafe

end AVL

namespace AVL

/-! ## The search for another key after an insertion -/

theorem Tree.find_ins_none {id : Key} (fresh : Nat) {k : Key} (d : Nat)
    (hnf : id.searchDir k ≠ .found) :
    ∀ t : Tree, t.find id = none → (t.ins fresh k d).find id = none := by
  intro t
  induction t with
  | nil =>
    intro _
    simp only [Tree.ins, Tree.find]
    cases hd : id.searchDir k with
    | right => rfl
    | left => rfl
    | found => exact absurd hd hnf
  | node a l k1 dd r ihl ihr =>
    intro h
    simp only [Tree.find] at h
    simp only [Tree.ins]
    by_cases hg : k.goesRight k1 = true
    · rw [if_pos hg]
      simp only [Tree.find]
      cases hd : id.searchDir k1 with
      | right => rw [hd] at h; exact ihr h
      | left => rw [hd] at h; exact h
      | found => rw [hd] at h; simp at h
    · rw [if_neg hg]
      simp only [Tree.find]
      cases hd : id.searchDir k1 with
      | right => rw [hd] at h; exact h
      | left => rw [hd] at h; exact ihl h
      | found => rw [hd] at h; simp at h

/-- The payload found for a key other than the inserted one is the same
before and after the insertion. -/
theorem Tree.lookup_insRoot_other {id : Key} (root fresh : Nat) {k : Key} (d : Nat)
    (hnf : id.searchDir k ≠ .found) (t : Tree) :
    (t.insRoot root fresh k d).lookup id = t.lookup id := by
  cases t with
  | nil =>
    simp only [Tree.insRoot, Tree.lookup, Tree.find]
    cases hd : id.searchDir k with
    | right => rfl
    | left => rfl
    | found => exact absurd hd hnf
  | node a l k1 dd r =>
    simp only [Tree.insRoot, Tree.lookup]
    cases hf : (Tree.node a l k1 dd r).find id with
    | none => rw [Tree.find_ins_none fresh d hnf _ hf]
    | some res => rw [Tree.find_ins fresh k d _ res hf]

/-- The step `avl_compare` for a key does not read the payload reference of
a node that holds another key. -/
theorem compare_payload {s : AVLtree} {a : Nat} {m : AVLtree_sub} {k : Key} (d1 : Option Nat)
    (hm : s.heap a = some m) (hk : m.ID = some k) {id : Key} (hnf : id.searchDir k ≠ .found)
    (node : Nat) (DATA : Option Nat) (type : Char) :
    avl_compare { s with heap := s.heap.write a { m with data := d1 } } node DATA id type =
      avl_compare s node DATA id type := by
  by_cases hna : node = a
  · subst hna
    simp only [avl_compare, Heap.write_same, hm, Option.some_bind, hk]
    cases id <;> cases k <;>
      simp only [Key.searchDir, Key.strcmp, Key.gt, Key.lt, Key.eq, Option.map_none',
        Option.none_bind, Option.some_bind, Option.map_some', ite_self, ne_eq,
        not_true_eq_false] at hnf ⊢
    all_goals first
      | rfl
      | (split_ifs at hnf ⊢ <;> first | rfl | omega | simp_all)
  · simp only [avl_compare, Heap.write_other _ _ _ _ hna]

theorem search_loop_payload {s : AVLtree} {a : Nat} {m : AVLtree_sub} {k : Key}
    (d1 : Option Nat) (hm : s.heap a = some m) (hk : m.ID = some k) {id : Key}
    (hnf : id.searchDir k ≠ .found) (type : Char) :
    ∀ (fuel : Nat) (node DATA : Option Nat),
      avl_search_loop fuel { s with heap := s.heap.write a { m with data := d1 } } node DATA id
          type =
        avl_search_loop fuel s node DATA id type := by
  intro fuel
  induction fuel with
  | zero => intro node DATA; cases DATA <;> cases node <;> rfl
  | succ f ih =>
    intro node DATA
    cases DATA with
    | some d => cases node <;> rfl
    | none =>
      cases node with
      | none => rfl
      | some x =>
        simp only [avl_search_loop]
        rw [compare_payload d1 hm hk hnf]
        cases avl_compare s x none id type with
        | none => rfl
        | some r => simp only [Option.some_bind]; exact ih r.1 r.2

theorem search_payload {s : AVLtree} {a : Nat} {m : AVLtree_sub} {k : Key} (d1 : Option Nat)
    (hm : s.heap a = some m) (hk : m.ID = some k) {id : Key} (hnf : id.searchDir k ≠ .found)
    (fuel : Nat) :
    avl_search fuel { s with heap := s.heap.write a { m with data := d1 } } id =
      avl_search fuel s id := by
  have hroot : ∀ c, avl_getRootType
      { s with heap := s.heap.write a { m with data := d1 } } c = avl_getRootType s c :=
    fun c => by cases c <;> rfl
  simp only [avl_search, hroot]
  cases avl_getRootType s id.category with
  | none => rfl
  | some node =>
    simp only []
    rw [search_loop_payload d1 hm hk hnf]

end AVL

namespace AVL

/-! ## The shape of a subtree after an insertion -/

theorem Rep.cell_exists {h : Heap} :
    ∀ (t : Tree) (par : Option Nat) (x : Nat), Rep h t par → x ∈ t.addrs → ∃ n, h x = some n := by
  intro t
  induction t with
  | nil => intro par x _ hx; simp [Tree.addrs] at hx
  | node a l k d r ihl ihr =>
    intro par x hr hx
    rw [Tree.mem_addrs_node] at hx
    rcases hx with e | e | e
    · exact ⟨_, e ▸ hr.1⟩
    · exact ihl _ x hr.2.1 e
    · exact ihr _ x hr.2.2 e

theorem inSubtree_iff_addrs {h : Heap} {t : Tree} {par : Option Nat} (hr : Rep h t par)
    (hnd : t.addrs.Nodup) (x : Nat) : InSubtree h t.ptr x ↔ x ∈ t.addrs := by
  constructor
  · intro hx
    obtain ⟨_, _, _, _, _, _, f2, _⟩ := rep_at _ _ x hr hnd hx
    exact f2 x (by rw [Tree.mem_addrs_node]; exact Or.inl rfl)
  · exact mem_inSubtree _ _ x hr

/-- The nodes below a pointer are the same in two heaps whose cells have the
same child links. -/
theorem inSubtree_links {h h1 : Heap}
    (hl : ∀ x n, h x = some n → ∃ n1, h1 x = some n1 ∧ n1.Lchild = n.Lchild ∧
      n1.Rchild = n.Rchild) {root : Option Nat} {x : Nat} (hx : InSubtree h root x) :
    InSubtree h1 root x := by
  induction hx with
  | here a => exact InSubtree.here a
  | left hc _ ih =>
    obtain ⟨n1, e1, e2, _⟩ := hl _ _ hc
    exact InSubtree.left e1 (e2 ▸ ih)
  | right hc _ ih =>
    obtain ⟨n1, e1, _, e3⟩ := hl _ _ hc
    exact InSubtree.right e1 (e3 ▸ ih)

/-- The cells of a represented tree before and after `Tree.ins`. -/
theorem ins_cells {h h1 : Heap} {fresh : Nat} {id : Key} {d : Nat} :
    ∀ (t : Tree) (par : Option Nat), t ≠ .nil → Rep h t par → Rep h1 (t.ins fresh id d) par →
      (∃ q, h1 fresh = some (cellOf .nil id d .nil (some q))) ∧
      ∀ x ∈ t.addrs, ∃ n n1, h x = some n ∧ h1 x = some n1 ∧ n1.ID = n.ID ∧
        n1.data = n.data ∧ n1.isLeaf = n.isLeaf ∧ n1.parent = n.parent ∧
        (n1.Lchild = n.Lchild ∨ (n.Lchild = none ∧ n1.Lchild = some fresh)) ∧
        (n1.Rchild = n.Rchild ∨ (n.Rchild = none ∧ n1.Rchild = some fresh)) := by
  intro t
  induction t with
  | nil => intro par h0; exact absurd rfl h0
  | node a l k dd r ihl ihr =>
    intro par _ hr hr1
    simp only [Tree.ins] at hr1
    have hsame : ∀ (u : Tree) (q : Option Nat), Rep h u q → Rep h1 u q → ∀ x ∈ u.addrs,
        ∃ n n1, h x = some n ∧ h1 x = some n1 ∧ n1.ID = n.ID ∧
          n1.data = n.data ∧ n1.isLeaf = n.isLeaf ∧ n1.parent = n.parent ∧
          (n1.Lchild = n.Lchild ∨ (n.Lchild = none ∧ n1.Lchild = some fresh)) ∧
          (n1.Rchild = n.Rchild ∨ (n.Rchild = none ∧ n1.Rchild = some fresh)) := by
      intro u q hu hu1 x hx
      obtain ⟨n, hn⟩ := Rep.cell_exists u q x hu hx
      have := Rep.agree u q hu hu1 x hx
      exact ⟨n, n, hn, by rw [this, hn], rfl, rfl, rfl, rfl, Or.inl rfl, Or.inl rfl⟩
    by_cases hg : id.goesRight k = true
    · rw [if_pos hg] at hr1
      obtain ⟨h1a, h1l, h1r⟩ := hr1
      obtain ⟨ha, hl, hrr⟩ := hr
      cases r with
      | nil =>
        refine ⟨⟨a, h1r.1⟩, ?_⟩
        intro x hx
        rw [Tree.mem_addrs_node] at hx
        rcases hx with e | e | e
        · subst e
          exact ⟨_, _, ha, h1a, rfl, rfl, rfl, rfl, Or.inl rfl, Or.inr ⟨rfl, rfl⟩⟩
        · exact hsame l _ hl h1l x e
        · simp [Tree.addrs] at e
      | node ra rl rk rd rr =>
        obtain ⟨i1, i2⟩ := ihr (some a) (by simp) hrr h1r
        refine ⟨i1, ?_⟩
        intro x hx
        rw [Tree.mem_addrs_node] at hx
        rcases hx with e | e | e
        · subst e
          refine ⟨_, _, ha, h1a, rfl, rfl, rfl, rfl, Or.inl rfl, Or.inl ?_⟩
          show (Tree.ins fresh id d (Tree.node ra rl rk rd rr)).ptr = _
          rw [Tree.ins_ptr]
          rfl
        · exact hsame l _ hl h1l x e
        · exact i2 x e
    · rw [if_neg hg] at hr1
      obtain ⟨h1a, h1l, h1r⟩ := hr1
      obtain ⟨ha, hl, hrr⟩ := hr
      cases l with
      | nil =>
        refine ⟨⟨a, h1l.1⟩, ?_⟩
        intro x hx
        rw [Tree.mem_addrs_node] at hx
        rcases hx with e | e | e
        · subst e
          exact ⟨_, _, ha, h1a, rfl, rfl, rfl, rfl, Or.inr ⟨rfl, rfl⟩, Or.inl rfl⟩
        · simp [Tree.addrs] at e
        · exact hsame r _ hrr h1r x e
      | node la ll lk ld lr =>
        obtain ⟨i1, i2⟩ := ihl (some a) (by simp) hl h1l
        refine ⟨i1, ?_⟩
        intro x hx
        rw [Tree.mem_addrs_node] at hx
        rcases hx with e | e | e
        · subst e
          refine ⟨_, _, ha, h1a, rfl, rfl, rfl, rfl, Or.inl ?_, Or.inl rfl⟩
          show (Tree.ins fresh id d (Tree.node la ll lk ld lr)).ptr = _
          rw [Tree.ins_ptr]
          rfl
        · exact i2 x e
        · exact hsame r _ hrr h1r x e

/-- The address that `avl_insert` fills, whatever the payload reference. -/
theorem insert_at {s : AVLtree} {c : Category} {id : Key} {root : Nat} {t : Tree}
    {fuel : Nat} (hstr : c = .string) (hid : KeyOK c id) (hs : SubInv s c root t)
    (htype : (if s.string_root = some root then 'c' else 'a') = typeOf c)
    (hf : s.next ≤ fuel) (p : Nat) (DATA : Option Nat) :
    ∃ s1 n, avl_insert fuel s (some p) id = some s1 ∧
      s1.heap (t.insAddr root s.next) = some n ∧
      avl_insert fuel s DATA id =
        some { s1 with heap := s1.heap.write (t.insAddr root s.next) { n with data := DATA } } := by
  have hc : c ≠ .unsupported := by rw [hstr]; decide
  have hty : typeOf c = 'c' := by rw [hstr]; rfl
  have hfuel := Inv.fuel_ok hs hf
  have hroot := hs.root_eq
  cases t with
  | nil =>
    have hcell : s.heap root = some (rootCell root) := hs.rep
    have hf1 : 1 ≤ fuel := by simpa [Tree.height] using hfuel
    obtain ⟨f, hf2⟩ : ∃ f, fuel = f + 1 := ⟨fuel - 1, by omega⟩
    subst hf2
    simp only [avl_insert, hid.1, hroot, htype, hty, Tree.insAddr]
    rw [insert_loop_stop f id _ hcell (by simp [rootCell])]
    simp only [Option.some_bind, hcell, if_true]
    exact ⟨_, _, rfl, Heap.write_same _ _ _, by simp only [Heap.write_write]⟩
  | node a l k d r =>
    obtain ⟨ea, hrep⟩ := hs.rep
    subst ea
    obtain ⟨hp, q, e1, e2, _, _⟩ := insert_loop_rep hc hid.1 (.node a l k d r) (some a) fuel
      (by simp) hrep hs.nodup hs.addr_lt (fun x hx => (hs.ok x hx).1) hfuel
    simp only [avl_insert, hid.1, hroot, htype, hty, Tree.insAddr]
    simp only [Tree.ptr] at e1
    rw [← hty, e1]
    simp only [Option.some_bind, e2, hty, if_true]
    exact ⟨_, _, rfl, Heap.write_same _ _ _, by simp only [Heap.write_write]⟩

end AVL

namespace AVL

/-- The nodes below a pointer do not depend on the payload reference of a cell. -/
theorem inSubtree_write_data {h : Heap} {a : Nat} {m : AVLtree_sub} (d1 : Option Nat)
    (hm : h a = some m) (root : Option Nat) (x : Nat) :
    InSubtree (h.write a { m with data := d1 }) root x ↔ InSubtree h root x := by
  constructor
  · apply inSubtree_links
    intro y n hy
    by_cases e : y = a
    · subst e
      rw [Heap.write_same, Option.some.injEq] at hy
      subst hy
      exact ⟨m, hm, rfl, rfl⟩
    · rw [Heap.write_other _ _ _ _ e] at hy
      exact ⟨n, hy, rfl, rfl⟩
  · apply inSubtree_links
    intro y n hy
    by_cases e : y = a
    · subst e
      rw [hm, Option.some.injEq] at hy
      subst hy
      exact ⟨_, Heap.write_same _ _ _, rfl, rfl⟩
    · exact ⟨n, by rw [Heap.write_other _ _ _ _ e]; exact hy, rfl, rfl⟩

/-- The shape of the subtree after `avl_insert` with a non-null payload
reference. -/
theorem insert_shape {s s1 : AVLtree} {c : Category} {root : Nat} {t : Tree} {k : Key}
    {p : Nat} (hs0 : SubInv s c root t) (hs1 : SubInv s1 c root (t.insRoot root s.next k p)) :
    ∃ q, s1.heap (t.insAddr root s.next) = some (cellOf .nil k p .nil (some q)) ∧
      (¬ InSubtree s.heap (some root) (t.insAddr root s.next) ∨
        s.heap (t.insAddr root s.next) = some (rootCell (t.insAddr root s.next))) ∧
      (∀ x, InSubtree s1.heap (some root) x ↔
        (x = t.insAddr root s.next ∨ InSubtree s.heap (some root) x)) ∧
      ∀ x n, InSubtree s.heap (some root) x → x ≠ t.insAddr root s.next → s.heap x = some n →
        ∃ n1, s1.heap x = some n1 ∧ n1.ID = n.ID ∧ n1.data = n.data ∧ n1.isLeaf = n.isLeaf ∧
          n1.parent = n.parent ∧
          (n1.Lchild = n.Lchild ∨ (n.Lchild = none ∧ n1.Lchild = some (t.insAddr root s.next))) ∧
          (n1.Rchild = n.Rchild ∨ (n.Rchild = none ∧ n1.Rchild = some (t.insAddr root s.next))) := by
  have hrep := hs0.rep
  have hrep1 := hs1.rep
  cases t with
  | nil =>
    simp only [Tree.insRoot, RepRoot] at hrep hrep1
    simp only [Tree.insAddr]
    have honly : ∀ x, InSubtree s.heap (some root) x → x = root := by
      intro x hx
      rcases repRoot_at hs0.rep hx with ⟨_, e, _⟩ | ⟨e, _, _⟩
      · exact e
      · simp [Tree.ptr] at e
    refine ⟨root, hrep1.2.1, Or.inr hrep, ?_, ?_⟩
    · intro x
      constructor
      · intro hx
        have := (inSubtree_iff_addrs hrep1.2 (by simp [Tree.addrs]) x).mp hx
        simp only [Tree.addrs, List.append_nil, List.mem_singleton] at this
        exact Or.inl this
      · intro hx
        have : x = root := hx.elim (fun e => e) (honly x)
        rw [this]
        exact InSubtree.here root
    · intro x n hx hne
      exact absurd (honly x hx) hne
  | node a l k1 d r =>
    simp only [Tree.insRoot, RepRoot] at hrep hrep1
    simp only [Tree.insAddr]
    obtain ⟨ha, hrep⟩ := hrep
    subst ha
    have hrep1' : Rep s1.heap ((Tree.node a l k1 d r).ins s.next k p) (some a) := by
      have := hs1.rep
      simp only [Tree.insRoot] at this
      cases hi : (Tree.node a l k1 d r).ins s.next k p with
      | nil =>
        have := Tree.ins_ptr s.next k p a l k1 d r
        rw [hi] at this
        simp [Tree.ptr] at this
      | node a2 l2 k2 d2 r2 =>
        rw [hi] at this
        exact this.2
    obtain ⟨⟨q, hq⟩, hcells⟩ := ins_cells _ _ (by simp) hrep hrep1'
    have hfresh : s.next ∉ (Tree.node a l k1 d r).addrs := fun h => by
      have := hs0.addr_lt _ h; omega
    have hnd1 := hs1.nodup
    simp only [Tree.insRoot] at hnd1
    have hin : ∀ x, InSubtree s.heap (some a) x ↔ x ∈ (Tree.node a l k1 d r).addrs :=
      fun x => inSubtree_iff_addrs hrep hs0.nodup x
    have hin1 : ∀ x, InSubtree s1.heap (some a) x ↔
        x ∈ ((Tree.node a l k1 d r).ins s.next k p).addrs := by
      intro x
      have := inSubtree_iff_addrs hrep1' hnd1 x
      rw [Tree.ins_ptr] at this
      exact this
    refine ⟨q, hq, Or.inl (fun h => hfresh ((hin _).mp h)), ?_, ?_⟩
    · intro x
      rw [hin1, hin, (Tree.ins_addrs_perm s.next k p _).mem_iff, List.mem_cons]
    · intro x n hx _ hn
      obtain ⟨n0, n1, c1, c2, c3, c4, c5, c6, c7, c8⟩ := hcells x ((hin x).mp hx)
      rw [hn, Option.some.injEq] at c1
      subst c1
      exact ⟨n1, c2, c3, c4, c5, c6, c7, c8⟩

/-- Insert leaves every other key's search result unchanged, for the calls
that return: in every reachable container, for all well-formed keys `k` and
`k1` of one category with `k1` other than `k`, `k` being a string or of no
supported type, and every payload reference `DATA` (`NULL` included),
`avl_insert` of `(k, DATA)` returns, and `avl_search` of `k1` returns the same
result before and after; in the subtree of the category the insertion adds
exactly one occupied childless node, which holds the pair, and every former
node keeps its key, payload, parent link and child links (a `NULL` link of
one node now points to the new node). -/
theorem insert_keeps_other_searches (s : AVLtree) (hs : Reachable s) (k k1 : Key)
    (hv : k.valid = true) (hv1 : k1.valid = true) (hcat : k1.category = k.category)
    (hsu : k.category = .string ∨ k.category = .unsupported)
    (hne : k1 ≠ k) (DATA : Option Nat) (fuel : Nat) (hf : s.next + 1 ≤ fuel) :
    ∃ s1 r, avl_insert fuel s DATA k = some s1 ∧ avl_search fuel s k1 = some r ∧
      avl_search fuel s1 k1 = some r ∧
      ∀ root, avl_getRootType s k.category = some root →
        avl_getRootType s1 k.category = some root ∧ AddsOneNode s.heap s1.heap root k DATA := by
  by_cases hc : k.category = .unsupported
  · refine ⟨s, none, insert_unsupported hc, ?_, ?_, ?_⟩
    · simp [avl_search, hcat, hc, avl_getRootType]
    · simp [avl_search, hcat, hc, avl_getRootType]
    · intro root hroot
      rw [hc] at hroot
      simp [avl_getRootType] at hroot
  · have hstr : k.category = .string := hsu.resolve_right hc
    obtain ⟨R, T, hI⟩ := reachable_inv hs
    have hs0 := hI.sub _ hc
    obtain ⟨s1p, n, a1, a2, a3⟩ := @insert_at s _ k _ _ fuel hstr ⟨rfl, hv⟩ hs0 (hI.type_eq hc)
      (by omega) 0 DATA
    obtain ⟨s1q, e1, e2, e3, e4, e5, e6⟩ := @insert_effect _ _ _ k 0 fuel hI hstr hv (by omega)
    have hsq : s1q = s1p := Option.some.inj (e1.symm.trans a1)
    subst hsq
    have hs1 := e2.sub _ hc
    simp only [Function.update_same] at hs1
    obtain ⟨q, b1, b2, b3, b4⟩ := insert_shape hs0 hs1
    have hn : n = cellOf .nil k 0 .nil (some q) := by
      rw [a2, Option.some.injEq] at b1
      exact b1
    have hnf : k1.searchDir k ≠ .found := fun h =>
      hne (Key.found_eq hc ⟨hcat, hv1⟩ ⟨rfl, hv⟩ h)
    have hsearch : avl_search fuel s1q k1 = avl_search fuel s k1 := by
      rw [search_inv e2 (by rw [hcat]; exact hc) (by omega),
        search_inv hI (by rw [hcat]; exact hc) (by omega), hcat]
      simp only [Function.update_same]
      exact congrArg some (Tree.lookup_insRoot_other _ _ 0 hnf _)
    refine ⟨_, _, a3, search_inv hI (by rw [hcat]; exact hc) (by omega), ?_, ?_⟩
    · rw [search_payload DATA a2 (by rw [hn]; rfl) hnf fuel, hsearch]
      exact search_inv hI (by rw [hcat]; exact hc) (by omega)
    · intro root hroot
      have hre : R k.category = root := by
        have := hs0.root_eq
        rw [hroot] at this
        exact (Option.some.inj this).symm
      subst hre
      refine ⟨by rw [← hroot]; exact e5 _, ?_⟩
      refine ⟨_, { n with data := DATA }, Heap.write_same _ _ _, by rw [hn]; rfl, rfl,
        by rw [hn]; rfl, by rw [hn]; rfl, by rw [hn]; rfl, b2, ?_, ?_⟩
      · intro x
        show InSubtree (s1q.heap.write _ _) _ x ↔ _
        rw [inSubtree_write_data DATA a2]
        exact b3 x
      · intro x m hx hxa hm
        obtain ⟨m1, c1, c2⟩ := b4 x m hx hxa hm
        refine ⟨m1, ?_, c2⟩
        show (s1q.heap.write _ _) x = _
        rw [Heap.write_other _ _ _ _ hxa]
        exact c1

theorem insert_keeps_other_searches_witness :
    ∃ s1 r, avl_insert 8 exBAC none (.str [100]) = some s1 ∧
      avl_search 8 exBAC (.str [97]) = some r ∧ avl_search 8 s1 (.str [97]) = some r ∧
      ∀ root, avl_getRootType exBAC (Key.str [100]).category = some root →
        avl_getRootType s1 (Key.str [100]).category = some root ∧
          AddsOneNode exBAC.heap s1.heap root (.str [100]) none :=
  insert_keeps_other_searches exBAC reachable_exBAC (.str [100]) (.str [97]) rfl rfl rfl
    (Or.inl rfl) (by decide) none 8 (by decide)

/-- C22 (evaluation at the failing input): in the container that holds the
string keys "b", "a", "c" the unsigned subtree is empty and `avl_search` of
the unsigned key 4 returns not-found; `avl_insert` of the unsigned key 3
returns for no loop budget (the macro runs
`memcpy(node->ID, id, sizeof(typeof(id)))` with the key value 3 as the source
address): no node is added and there is no search afterwards. -/
theorem C22_numeric_insert_faults :
    Reachable exBAC ∧ avl_search 8 exBAC (.uint 4) = some none ∧
      ∀ fuel, avl_insert fuel exBAC (some 1) (.uint 3) = none := by
  refine ⟨reachable_exBAC, by decide, ?_⟩
  intro fuel
  obtain ⟨R, T, hI⟩ := reachable_inv reachable_exBAC
  exact insert_numeric_fault hI (by decide) (by decide) fuel _

end AVL

namespace AVL

/-! ## Removal followed by search -/

theorem remove_loops_exNull : ∀ fuel, avl_remove fuel exNull (.str [97]) = none := by
  intro fuel
  have e := search_loop_exNull fuel
  have e1 : avl_getRootType exNull (Key.str [97]).category = some 4 := rfl
  have e2 : exNull.string_root = some 4 := rfl
  simp only [avl_remove, e1, e2]
  simp [e]

/-- C3 (as stated, refuted): the container obtained from `avl_createTree` by
inserting the string key "a" with a `NULL` payload reference is reachable,
exactly one occupied node holds "a" (the traversal lists it once), and
`avl_remove` of "a" returns for no loop budget: its loop
`while(!DATA && node)` stays at the node found, whose payload is `NULL`. -/
theorem C3_remove_loops_on_null_payload :
    ReachableAny exNull ∧
    (avl_traverse 8 exNull .string).map Out.pairs = some [(some (.str [97]), none)] ∧
    ∀ fuel, avl_remove fuel exNull (.str [97]) = none :=
  ⟨reachableAny_exNull, by decide, remove_loops_exNull⟩

theorem reachable_exA : Reachable exA :=
  @reachable_insertAll 8 [(.str [65], 1)] _ _ Reachable.create (by decide) rfl

theorem reachable_exCBA : Reachable exCBA :=
  @reachable_insertAll 8 [(.str [99], 1), (.str [98], 2), (.str [97], 3)] _ _
    Reachable.create (by decide) rfl

/-- C3 (amended): in every container reachable from `avl_createTree` by
inserts of non-null payload references and removes, for every key `k` that
exactly one occupied node of its subtree holds (the traversal of the category
lists it once), `avl_remove` of `k` returns and `avl_search` of `k`
afterwards returns not-found, whatever the removal case. When the search
found `k` before (with the payload `p`), its node has been removed: the
traversal afterwards does not list `k`, has one pair fewer, and with the
pair `(k, p)` makes up the former traversal. When the search did not find
`k` before, the container is unchanged. The search does find `k` before
whenever `k` and the keys of the subtree are narrow-safe. -/
theorem C3_remove_then_search (s : AVLtree) (hs : Reachable s) (k : Key)
    (hv : k.valid = true) (fuel : Nat) (hf : s.next ≤ fuel) (o : Out)
    (ho : avl_traverse fuel s k.category = some o) (h1 : o.keys.count (some k) = 1) :
    ∃ s1 o1, avl_remove fuel s k = some s1 ∧ avl_search fuel s1 k = some none ∧
      avl_traverse fuel s1 k.category = some o1 ∧
      (∀ p, avl_search fuel s k = some (some p) →
        some k ∉ o1.keys ∧ o1.c + 1 = o.c ∧ o.pairs.Perm ((some k, some p) :: o1.pairs)) ∧
      (avl_search fuel s k = some none → s1 = s) ∧
      (k.narrowSafe = true → (∀ x, some x ∈ o.keys → x.narrowSafe = true) →
        ∃ p, avl_search fuel s k = some (some p)) := by
  obtain ⟨R, T, hI⟩ := reachable_inv hs
  by_cases hc : k.category = .unsupported
  · exfalso
    rw [hc, traverse_unsupported (by have := hI.next_ge; omega)] at ho
    cases ho
    simp [Out.keys, emptyOut] at h1
  · rw [traverse_inv hI hc hf] at ho
    cases ho
    rw [outOf_keys, count_ids] at h1
    have hs0 := hI.sub _ hc
    have hmem : k ∈ (T k.category).keys := by
      apply List.count_pos_iff.mp
      omega
    obtain ⟨s1, R1, e1, e2, e3⟩ := @remove_inv _ _ _ k _ hI hc hf
    have hsearch := @search_inv _ _ _ k fuel hI hc hf
    have hafter : avl_search fuel s1 k = some none := by
      rw [search_inv e3 hc (by omega)]
      simp only [Function.update_same]
      rw [Tree.find_removed_none hc hs0.nodup hs0.ok ⟨rfl, hv⟩ h1]
      rfl
    have htr := @traverse_inv _ _ _ k.category fuel e3 hc (by omega)
    simp only [Function.update_same] at htr
    refine ⟨s1, _, e1, hafter, htr, ?_, ?_, ?_⟩
    · intro p hp
      rw [hsearch] at hp
      cases hfind : (T k.category).find k with
      | none => simp [hfind] at hp
      | some res =>
        obtain ⟨a, k1, d⟩ := res
        simp only [hfind, Option.map_some', Option.some.injEq] at hp
        subst hp
        obtain ⟨_, g2, g3⟩ := Tree.find_some _ _ _ _ hfind
        have hk1 : k1 ∈ (T k.category).keys := by
          simp only [Tree.keys, List.mem_map]
          exact ⟨(k1, d), g2, rfl⟩
        have e := Key.found_eq hc ⟨rfl, hv⟩ (hs0.ok k1 hk1) g3
        subst e
        have hperm := Tree.find_del_post _ _ _ _ hs0.nodup hfind
        have hrm : (T k.category).removed k = (T k.category).del a := by
          simp only [Tree.removed, hfind]
        rw [hrm]
        refine ⟨?_, ?_, ?_⟩
        · rw [outOf_keys, Tree.mem_ids]
          have hk := (List.Perm.map Prod.fst hperm).count_eq k
          simp only [List.map_cons, List.count_cons_self] at hk
          have h0 : ((T k.category).del a).keys.count k = 0 := by
            simp only [Tree.keys] at h1 ⊢
            omega
          exact List.count_eq_zero.mp h0
        · simp only [outOf_c, Tree.ids_length]
          rw [← Tree.post_length, ← Tree.post_length, hperm.length_eq, List.length_cons]
        · rw [outOf_pairs _ _ (Tree.ids_datas_length _),
            outOf_pairs _ _ (Tree.ids_datas_length _)]
          exact Tree.pairs_perm hperm
    · intro hn
      rw [hsearch] at hn
      cases hfind : (T k.category).find k with
      | some res => simp [hfind] at hn
      | none =>
        have hloop := @search_loop_sub s _ k _ _ fuel hc rfl hs0 hf
        rw [hfind] at hloop
        have : avl_remove fuel s k = some s := by
          simp only [avl_remove, hs0.root_eq, hI.type_eq hc, hloop, Option.some_bind]
        rw [this] at e1
        exact (Option.some.inj e1).symm
    · intro hk hsafe
      rw [outOf_keys] at hsafe
      have hag := Tree.agrees_of_narrowSafe hs0.ok rfl hk
        (fun x hx => hsafe x (Tree.mem_ids.mpr hx))
      obtain ⟨a, d, e⟩ := Tree.find_of_mem hc ⟨rfl, hv⟩ _ hs0.ok hs0.ordered hag hmem
      exact ⟨d, by rw [hsearch, e]; rfl⟩

end AVL

namespace AVL

/-- The four removal cases: "A" in `exA` is the only node, a childless root;
"a" in `exBAC` is a childless node below the root; "b" in `exCBA` has one
child; "b" in `exBAC` has two children. -/
theorem C3_remove_then_search_witness :
    (∃ s1 o1, avl_remove 8 exA (.str [65]) = some s1 ∧ avl_search 8 s1 (.str [65]) = some none ∧
      avl_traverse 8 s1 (Key.str [65]).category = some o1 ∧
      (∀ p, avl_search 8 exA (.str [65]) = some (some p) →
        some (Key.str [65]) ∉ o1.keys ∧ o1.c + 1 = exAOut.c ∧
          exAOut.pairs.Perm ((some (.str [65]), some p) :: o1.pairs)) ∧
      (avl_search 8 exA (.str [65]) = some none → s1 = exA) ∧
      ((Key.str [65]).narrowSafe = true → (∀ x, some x ∈ exAOut.keys → x.narrowSafe = true) →
        ∃ p, avl_search 8 exA (.str [65]) = some (some p))) ∧
    (∃ s1 o1, avl_remove 8 exBAC (.str [97]) = some s1 ∧ avl_search 8 s1 (.str [97]) = some none ∧
      avl_traverse 8 s1 (Key.str [97]).category = some o1 ∧
      (∀ p, avl_search 8 exBAC (.str [97]) = some (some p) →
        some (Key.str [97]) ∉ o1.keys ∧ o1.c + 1 = exBACOut.c ∧
          exBACOut.pairs.Perm ((some (.str [97]), some p) :: o1.pairs)) ∧
      (avl_search 8 exBAC (.str [97]) = some none → s1 = exBAC) ∧
      ((Key.str [97]).narrowSafe = true → (∀ x, some x ∈ exBACOut.keys → x.narrowSafe = true) →
        ∃ p, avl_search 8 exBAC (.str [97]) = some (some p))) ∧
    (∃ s1 o1, avl_remove 8 exCBA (.str [98]) = some s1 ∧ avl_search 8 s1 (.str [98]) = some none ∧
      avl_traverse 8 s1 (Key.str [98]).category = some o1 ∧
      (∀ p, avl_search 8 exCBA (.str [98]) = some (some p) →
        some (Key.str [98]) ∉ o1.keys ∧ o1.c + 1 = exCBAOut.c ∧
          exCBAOut.pairs.Perm ((some (.str [98]), some p) :: o1.pairs)) ∧
      (avl_search 8 exCBA (.str [98]) = some none → s1 = exCBA) ∧
      ((Key.str [98]).narrowSafe = true → (∀ x, some x ∈ exCBAOut.keys → x.narrowSafe = true) →
        ∃ p, avl_search 8 exCBA (.str [98]) = some (some p))) ∧
    (∃ s1 o1, avl_remove 8 exBAC (.str [98]) = some s1 ∧ avl_search 8 s1 (.str [98]) = some none ∧
      avl_traverse 8 s1 (Key.str [98]).category = some o1 ∧
      (∀ p, avl_search 8 exBAC (.str [98]) = some (some p) →
        some (Key.str [98]) ∉ o1.keys ∧ o1.c + 1 = exBACOut.c ∧
          exBACOut.pairs.Perm ((some (.str [98]), some p) :: o1.pairs)) ∧
      (avl_search 8 exBAC (.str [98]) = some none → s1 = exBAC) ∧
      ((Key.str [98]).narrowSafe = true → (∀ x, some x ∈ exBACOut.keys → x.narrowSafe = true) →
        ∃ p, avl_search 8 exBAC (.str [98]) = some (some p))) :=
  ⟨C3_remove_then_search exA reachable_exA (.str [65]) rfl 8 (by decide) exAOut (by decide)
      (by decide),
    C3_remove_then_search exBAC reachable_exBAC (.str [97]) rfl 8 (by decide) exBACOut (by decide)
      (by decide),
    C3_remove_then_search exCBA reachable_exCBA (.str [98]) rfl 8 (by decide) exCBAOut (by decide)
      (by decide),
    C3_remove_then_search exBAC reachable_exBAC (.str [98]) rfl 8 (by decide) exBACOut (by decide)
      (by decide)⟩

end AVL
